import Mathlib

/-!
# advancemame: the XML listing loader (`advance/menu/emuxml.cc`)

A shallow embedding of the path-dispatch streaming parser that turns the
element/attribute events of a `-listxml` document into game records, and the
properties of that code.

Conventions of the embedding

* C code that can read through a null pointer or index `level[]` outside its
  bounds returns `Except.error` with the kind of fault; everything else returns
  `Except.ok` with the new state.
* A `const char*`/length pair is a `String`; a pointer that may be null is an
  `Option`.
* `src` has no `game.h`/`emulator.h`: the record classes are modelled from the
  specification and marked as such.
* The allocator is an oracle over the requested size; expat is a parameter of
  `load_xml`.

The namespace `Filter` at the end of the definitions embeds `filter_insert` of
`advance/lib/filter.h`.
-/

namespace EmuXml

/-! ## Data model -/

/-- Max depth checked. -/
def DEPTH_MAX : Nat := 5

/-- Kind of callback a processing function receives. -/
inductive token_t where
  | token_open
  | token_close
  | token_data
deriving DecidableEq, Repr

/-- Undefined behaviour the C code can run into. -/
inductive Fault where
  /-- Read or call through a null pointer. -/
  | null_deref
  /-- Access of `level[d]` with `d` outside `0 .. DEPTH_MAX-1`. -/
  | level_index
  /-- Read of `CONV[i]` past the terminating entry. -/
  | conv_index
deriving DecidableEq, Repr

/-- Modelled from the spec: the play-quality level declared in `game.h` (not among the
sources), an ordered enum `full < minor-issues < major-issues < not-playable`. -/
inductive game_play_t where
  | play_full
  | play_minor
  | play_major
  | play_not
deriving DecidableEq, Repr

/-- Integer value of a play level, in the order the specification gives. -/
def game_play_t.rank : game_play_t → Nat
  | .play_full => 0
  | .play_minor => 1
  | .play_major => 2
  | .play_not => 3

instance : LT game_play_t := ⟨fun p q => p.rank < q.rank⟩

instance : LE game_play_t := ⟨fun p q => p.rank ≤ q.rank⟩

instance (p q : game_play_t) : Decidable (p < q) := inferInstanceAs (Decidable (p.rank < q.rank))

instance (p q : game_play_t) : Decidable (p ≤ q) := inferInstanceAs (Decidable (p.rank ≤ q.rank))

/-- The larger (worse) of two play levels. -/
def game_play_t.max (p q : game_play_t) : game_play_t := if p < q then q else p

/-- Modelled from the spec: the emulator object (`emulator.h` is not among the sources);
the parser only reads its user name, the namespace the record names are put in. -/
structure emulator where
  user_name : String
deriving DecidableEq, Repr

/-- Modelled from the spec: the derived flags of a record (`emulator.h` is not among the
sources). -/
inductive flag_t where
  | flag_derived_resource
  | flag_derived_vector
  | flag_derived_vertical
deriving DecidableEq, Repr

/-- Modelled from the spec: a device record (declared in `game.h`, not among the sources):
a name and the ordered list of its file extensions. -/
structure machinedevice where
  name : String
  ext_bag : List String
deriving DecidableEq, Repr

/-- Modelled from the spec: the game record (class `game` of `game.h`, not among the
sources) with the fields of the data model: each `x_set` of the C++ class stores its
argument in the field; the total rom size is a byte count that is only added to. -/
structure game where
  emu : Option emulator
  name : String
  description : String
  manufacturer : String
  year : String
  cloneof : Option String
  romof : Option String
  size : Nat
  play : game_play_t
  resource : Bool
  vector : Bool
  vertical : Bool
  sizex : Int
  sizey : Int
  aspectx : Int
  aspecty : Int
  machinedevice_bag : List machinedevice
deriving DecidableEq, Repr

/-- Modelled from the spec: the record `new game` yields (the constructor is in `game.h`,
not among the sources): no text, size 0, play level full, no flag, no device. -/
def game.new : game :=
  { emu := none, name := "", description := "", manufacturer := "", year := "",
    cloneof := none, romof := none, size := 0, play := .play_full,
    resource := false, vector := false, vertical := false,
    sizex := 0, sizey := 0, aspectx := 0, aspecty := 0, machinedevice_bag := [] }

/-- Modelled from the spec: `game::flag_set(value, mask)` gives the flag `mask` the
value `value` and leaves the other flags alone. -/
def game.flag_set (g : game) (value : Bool) (mask : flag_t) : game :=
  match mask with
  | .flag_derived_resource => { g with resource := value }
  | .flag_derived_vector => { g with vector := value }
  | .flag_derived_vertical => { g with vertical := value }

/-- Modelled from the spec: `new machinedevice`, an empty device record. -/
def machinedevice.new : machinedevice := { name := "", ext_bag := [] }

/-- Modelled from the spec: the catalog (`game_set` of `game.h`, not among the sources)
is an insert-only sink; the model keeps the records in the order they were inserted and
leaves the policy for equal names to the collaborator. -/
abbrev game_set := List game

/-- Modelled from the spec: `game_set::insert`, one more committed record. -/
def game_set.insert (a : game_set) (g : game) : game_set := a ++ [g]

/-- Identity of a processing function (the `process_t*` stored in a level and in the
conversion table). -/
inductive process_t where
  | game
  | runnable
  | name
  | description
  | manufacturer
  | year
  | cloneof
  | romof
  | rom
  | rommerge
  | romsize
  | device
  | devicename
  | deviceextensionname
  | driverstatus
  | drivercolor
  | driversound
  | videoscreen
  | videoorientation
  | videowidth
  | videoheight
  | videoaspectx
  | videoaspecty
deriving DecidableEq, Repr

/-- State for every depth level. The pair `data`/`len` of the C struct is one value:
`none` is the null pointer with length 0 (also after `free`), `some b` a live buffer
holding the bytes `b`. -/
structure level_t where
  /-- Tag name. -/
  tag : String
  /-- Accumulative data. -/
  data : Option String
  /-- Processing function. -/
  process : Option process_t
deriving DecidableEq, Repr

/-- Length of the data of a level (the `len` field). -/
def level_t.len (l : level_t) : Nat := (l.data.getD "").utf8ByteSize

/-- Global parsing state. The expat parser object is not part of the model; the lines
`target_err` prints are kept in `err` as (tag, message) pairs. -/
structure state_t where
  /-- Current depth. -/
  depth : Int
  /-- Level state: only the indices below `DEPTH_MAX` are ever used. -/
  level : Nat → level_t
  /-- Error flag. -/
  error : Int
  /-- Current parent emulator. -/
  e : emulator
  /-- Current game in the loading process. -/
  g : Option game
  /-- Game archive. -/
  a : game_set
  /-- Machine device. -/
  m : Option machinedevice
  /-- Size of the current rom. -/
  rom_size : Nat
  /-- Merge of the current rom. -/
  rom_merge : Bool
  /-- Output of `target_err`. -/
  err : List (Option String × String)

/-! ## The C library -/

/-- The `isspace` of the C locale. -/
def isspace (c : Char) : Bool :=
  c.toNat = 32 || (9 ≤ c.toNat && c.toNat ≤ 13)

/-- The digits loop of `atoi`: accumulates decimal digits until the first other char. -/
def atoi_digits : List Char → Nat → Nat
  | [], acc => acc
  | c :: cs, acc =>
    if 48 ≤ c.toNat ∧ c.toNat ≤ 57 then atoi_digits cs (acc * 10 + (c.toNat - 48)) else acc

/-- The C `atoi`: leading white space, an optional sign, decimal digits. The value is the
mathematical one; C leaves a result outside the range of `int` undefined. -/
def atoi (v : String) : Int :=
  match v.data.dropWhile isspace with
  | [] => 0
  | c :: cs =>
    if c.toNat = 45 then - (atoi_digits cs 0 : Int)
    else if c.toNat = 43 then (atoi_digits cs 0 : Int)
    else (atoi_digits (c :: cs) 0 : Int)

/-- Conversion of an `int` to `unsigned` (32 bits). -/
def to_unsigned (i : Int) : Nat := (i % 4294967296).toNat

/-! ## Processing -/

/-- The `process_error` of the C file: prints the message, with the tag when the tag is
not empty, and sets the error flag. The test `*tag` reads the first char of the tag: a
null `tag` is a read through a null pointer. -/
def process_error (s : state_t) (tag : Option String) (msg : String) : Except Fault state_t :=
  match tag with
  | none => .error .null_deref
  | some t =>
    .ok { s with err := s.err ++ [(if t ≠ "" then some t else none, msg)], error := 1 }

def process_game (s : state_t) (t : token_t) (_txt : String) : Except Fault state_t :=
  if t = .token_open then
    .ok { s with g := some { game.new with emu := some s.e } }
  else if t = .token_close then
    match s.g with
    | none => .error .null_deref
    | some g => .ok { s with a := game_set.insert s.a g, g := none }
  else .ok s

def process_runnable (s : state_t) (t : token_t) (txt : String) : Except Fault state_t :=
  if t = .token_data then
    match s.g with
    | none => process_error s none "invalid state"
    | some g => .ok { s with g := some (g.flag_set (txt = "no") .flag_derived_resource) }
  else .ok s

def process_name (s : state_t) (t : token_t) (txt : String) : Except Fault state_t :=
  if t = .token_data then
    match s.g with
    | none => process_error s none "invalid state"
    | some g => .ok { s with g := some { g with name := s.e.user_name ++ "/" ++ txt } }
  else .ok s

def process_description (s : state_t) (t : token_t) (txt : String) : Except Fault state_t :=
  if t = .token_data then
    match s.g with
    | none => process_error s none "invalid state"
    | some g => .ok { s with g := some { g with description := txt } }
  else .ok s

def process_manufacturer (s : state_t) (t : token_t) (txt : String) : Except Fault state_t :=
  if t = .token_data then
    match s.g with
    | none => process_error s none "invalid state"
    | some g => .ok { s with g := some { g with manufacturer := txt } }
  else .ok s

def process_year (s : state_t) (t : token_t) (txt : String) : Except Fault state_t :=
  if t = .token_data then
    match s.g with
    | none => process_error s none "invalid state"
    | some g => .ok { s with g := some { g with year := txt } }
  else .ok s

def process_cloneof (s : state_t) (t : token_t) (txt : String) : Except Fault state_t :=
  if t = .token_data then
    match s.g with
    | none => process_error s none "invalid state"
    | some g => .ok { s with g := some { g with cloneof := some (s.e.user_name ++ "/" ++ txt) } }
  else .ok s

def process_romof (s : state_t) (t : token_t) (txt : String) : Except Fault state_t :=
  if t = .token_data then
    match s.g with
    | none => process_error s none "invalid state"
    | some g => .ok { s with g := some { g with romof := some (s.e.user_name ++ "/" ++ txt) } }
  else .ok s

def process_driverstatus (s : state_t) (t : token_t) (txt : String) : Except Fault state_t :=
  if t = .token_data then
    match s.g with
    | none => process_error s none "invalid state"
    | some g =>
      if txt = "preliminary" then .ok { s with g := some { g with play := .play_not } }
      else .ok s
  else .ok s

def process_drivercolor (s : state_t) (t : token_t) (txt : String) : Except Fault state_t :=
  if t = .token_data then
    match s.g with
    | none => process_error s none "invalid state"
    | some g =>
      if txt = "preliminary" then
        if g.play < .play_major then .ok { s with g := some { g with play := .play_major } }
        else .ok s
      else .ok s
  else .ok s

def process_driversound (s : state_t) (t : token_t) (txt : String) : Except Fault state_t :=
  if t = .token_data then
    match s.g with
    | none => process_error s none "invalid state"
    | some g =>
      if txt = "preliminary" then
        if g.play < .play_minor then .ok { s with g := some { g with play := .play_minor } }
        else .ok s
      else .ok s
  else .ok s

def process_rom (s : state_t) (t : token_t) (_txt : String) : Except Fault state_t :=
  if t = .token_open then
    .ok { s with rom_merge := false, rom_size := 0 }
  else if t = .token_close then
    match s.g with
    | none => process_error s none "invalid state"
    | some g =>
      if !s.rom_merge then .ok { s with g := some { g with size := g.size + s.rom_size } }
      else .ok s
  else .ok s

def process_romsize (s : state_t) (t : token_t) (txt : String) : Except Fault state_t :=
  if t = .token_data then
    .ok { s with rom_size := to_unsigned (atoi txt) }
  else .ok s

def process_rommerge (s : state_t) (t : token_t) (_txt : String) : Except Fault state_t :=
  if t = .token_data then
    .ok { s with rom_merge := true }
  else .ok s

def process_device (s : state_t) (t : token_t) (_txt : String) : Except Fault state_t :=
  if t = .token_open then
    .ok { s with m := some machinedevice.new }
  else if t = .token_close then
    match s.g, s.m with
    | some g, some m =>
      .ok { s with g := some { g with machinedevice_bag := g.machinedevice_bag ++ [m] },
                   m := none }
    | _, _ => process_error s none "invalid state"
  else .ok s

def process_deviceextensionname (s : state_t) (t : token_t) (txt : String) :
    Except Fault state_t :=
  if t = .token_data then
    match s.m with
    | none => process_error s none "invalid state"
    | some m => .ok { s with m := some { m with ext_bag := m.ext_bag ++ [txt] } }
  else .ok s

def process_devicename (s : state_t) (t : token_t) (txt : String) : Except Fault state_t :=
  if t = .token_data then
    match s.m with
    | none => process_error s none "invalid state"
    | some m => .ok { s with m := some { m with name := txt } }
  else .ok s

def process_videoscreen (s : state_t) (t : token_t) (txt : String) : Except Fault state_t :=
  if t = .token_data then
    match s.g with
    | none => process_error s none "invalid state"
    | some g => .ok { s with g := some (g.flag_set (txt = "vector") .flag_derived_vector) }
  else .ok s

def process_videoorientation (s : state_t) (t : token_t) (txt : String) :
    Except Fault state_t :=
  if t = .token_data then
    match s.g with
    | none => process_error s none "invalid state"
    | some g => .ok { s with g := some (g.flag_set (txt = "vertical") .flag_derived_vertical) }
  else .ok s

def process_videowidth (s : state_t) (t : token_t) (txt : String) : Except Fault state_t :=
  if t = .token_data then
    match s.g with
    | none => process_error s none "invalid state"
    | some g => .ok { s with g := some { g with sizex := atoi txt } }
  else .ok s

def process_videoheight (s : state_t) (t : token_t) (txt : String) : Except Fault state_t :=
  if t = .token_data then
    match s.g with
    | none => process_error s none "invalid state"
    | some g => .ok { s with g := some { g with sizey := atoi txt } }
  else .ok s

def process_videoaspectx (s : state_t) (t : token_t) (txt : String) : Except Fault state_t :=
  if t = .token_data then
    match s.g with
    | none => process_error s none "invalid state"
    | some g => .ok { s with g := some { g with aspectx := atoi txt } }
  else .ok s

def process_videoaspecty (s : state_t) (t : token_t) (txt : String) : Except Fault state_t :=
  if t = .token_data then
    match s.g with
    | none => process_error s none "invalid state"
    | some g => .ok { s with g := some { g with aspecty := atoi txt } }
  else .ok s

/-- Call through a `process_t*`. -/
def process_t.call : process_t → state_t → token_t → String → Except Fault state_t
  | .game => process_game
  | .runnable => process_runnable
  | .name => process_name
  | .description => process_description
  | .manufacturer => process_manufacturer
  | .year => process_year
  | .cloneof => process_cloneof
  | .romof => process_romof
  | .rom => process_rom
  | .rommerge => process_rommerge
  | .romsize => process_romsize
  | .device => process_device
  | .devicename => process_devicename
  | .deviceextensionname => process_deviceextensionname
  | .driverstatus => process_driverstatus
  | .drivercolor => process_drivercolor
  | .driversound => process_driversound
  | .videoscreen => process_videoscreen
  | .videoorientation => process_videoorientation
  | .videowidth => process_videowidth
  | .videoheight => process_videoheight
  | .videoaspectx => process_videoaspectx
  | .videoaspecty => process_videoaspecty

/-! ## The conversion table -/

/-- A token of a path pattern: one of the two wildcard sets (recognised in C by the
identity of the pointer) or a literal tag name. -/
inductive name_t where
  | match_mamemessraine
  | match_gamemachine
  | lit (tag : String)
deriving DecidableEq, Repr

/-- An entry of the conversion table; `name` has `DEPTH_MAX` slots, a null slot is
`none`. -/
structure conversion_t where
  depth : Nat
  name : List (Option name_t)
  process : Option process_t
deriving DecidableEq, Repr

/-- Slot for the root wildcard set. -/
def mmr : Option name_t := some .match_mamemessraine

/-- Slot for the game wildcard set. -/
def gm : Option name_t := some .match_gamemachine

/-- Slot for a literal tag. -/
def lit (tag : String) : Option name_t := some (.lit tag)

/-- The entries of the conversion table.
Any element/attribute not in this table is ignored. -/
def CONV_entries : List conversion_t :=
  [ { depth := 1, name := [mmr, gm, none, none, none], process := some .game },
    { depth := 2, name := [mmr, gm, lit "runnable", none, none], process := some .runnable },
    { depth := 2, name := [mmr, gm, lit "name", none, none], process := some .name },
    { depth := 2, name := [mmr, gm, lit "description", none, none], process := some .description },
    { depth := 2, name := [mmr, gm, lit "manufacturer", none, none], process := some .manufacturer },
    { depth := 2, name := [mmr, gm, lit "year", none, none], process := some .year },
    { depth := 2, name := [mmr, gm, lit "cloneof", none, none], process := some .cloneof },
    { depth := 2, name := [mmr, gm, lit "romof", none, none], process := some .romof },
    { depth := 2, name := [mmr, gm, lit "rom", none, none], process := some .rom },
    { depth := 3, name := [mmr, gm, lit "rom", lit "merge", none], process := some .rommerge },
    { depth := 3, name := [mmr, gm, lit "rom", lit "size", none], process := some .romsize },
    { depth := 2, name := [mmr, gm, lit "device", none, none], process := some .device },
    { depth := 3, name := [mmr, gm, lit "device", lit "name", none], process := some .devicename },
    { depth := 4, name := [mmr, gm, lit "device", lit "extension", lit "name"],
      process := some .deviceextensionname },
    { depth := 3, name := [mmr, gm, lit "driver", lit "status", none], process := some .driverstatus },
    { depth := 3, name := [mmr, gm, lit "driver", lit "color", none], process := some .drivercolor },
    { depth := 3, name := [mmr, gm, lit "driver", lit "sound", none], process := some .driversound },
    { depth := 3, name := [mmr, gm, lit "video", lit "screen", none], process := some .videoscreen },
    { depth := 3, name := [mmr, gm, lit "video", lit "orientation", none],
      process := some .videoorientation },
    { depth := 3, name := [mmr, gm, lit "video", lit "width", none], process := some .videowidth },
    { depth := 3, name := [mmr, gm, lit "video", lit "height", none], process := some .videoheight },
    { depth := 3, name := [mmr, gm, lit "video", lit "aspectx", none], process := some .videoaspectx },
    { depth := 3, name := [mmr, gm, lit "video", lit "aspecty", none], process := some .videoaspecty } ]

/-- The entry that ends the conversion table. -/
def CONV_end : conversion_t :=
  { depth := 0, name := [none, none, none, none, none], process := none }

/-- Conversion table, with its terminating entry. -/
def CONV : List conversion_t := CONV_entries ++ [CONV_end]

/-- The comparison of one path position in `identify`: `true` when the tag fits the
token. A null token ends in `strcmp` with a null pointer. -/
def identify_name (tok : Option name_t) (tag : String) : Except Fault Bool :=
  match tok with
  | some .match_mamemessraine => .ok (!(tag ≠ "mame" && tag ≠ "mess" && tag ≠ "raine"))
  | some .match_gamemachine => .ok (!(tag ≠ "game" && tag ≠ "machine"))
  | some (.lit n) => .ok (tag = n)
  | none => .error .null_deref

/-- The inner loop of `identify`, `for(j=..;j<=depth;++j)` with `n` iterations left:
`true` when it ends with `j > depth`, `false` when it leaves by `break`. -/
def identify_path (c : conversion_t) (level : Nat → level_t) : Nat → Nat → Except Fault Bool
  | _, 0 => .ok true
  | j, n + 1 =>
    match identify_name (c.name.getD j none) (level j).tag with
    | .error f => .error f
    | .ok false => .ok false
    | .ok true => identify_path c level (j + 1) n

/-- The outer loop of `identify` over the entries from `CONV[i]` on, and the test that
follows it. -/
def identify_scan (depth : Nat) (level : Nat → level_t) :
    List conversion_t → Except Fault (Option conversion_t)
  | [] => .error .conv_index
  | c :: rest =>
    match c.name.getD 0 none with
    | none => .ok none
    | some _ =>
      if c.depth ≠ depth then identify_scan depth level rest
      else
        match identify_path c level 0 (depth + 1) with
        | .error f => .error f
        | .ok true => .ok (some c)
        | .ok false => identify_scan depth level rest

/-- Identify the specified element/attribute. -/
def identify (depth : Nat) (level : Nat → level_t) : Except Fault (Option conversion_t) :=
  if depth < DEPTH_MAX then identify_scan depth level CONV else .ok none

/-! ## The expat handlers -/

/-- Assignment to `level[d]`. -/
def state_t.set_level (s : state_t) (d : Nat) (l : level_t) : state_t :=
  { s with level := fun i => if i = d then l else s.level i }

/-- End Handler for the Expat parser. -/
def end_handler (s : state_t) (_name : String) : Except Fault state_t :=
  if s.depth < (DEPTH_MAX : Int) then
    if s.depth < 0 then .error .level_index
    else
      let called : Except Fault state_t :=
        if s.error = 0 then
          match (s.level s.depth.toNat).process with
          | some p =>
            match p.call s .token_data ((s.level s.depth.toNat).data.getD "") with
            | .error f => .error f
            | .ok s1 =>
              if 0 ≤ s1.depth ∧ s1.depth < (DEPTH_MAX : Int) then
                match (s1.level s1.depth.toNat).process with
                | some q => q.call s1 .token_close ""
                | none => .error .null_deref
              else .error .level_index
          | none => .ok s
        else .ok s
      match called with
      | .error f => .error f
      | .ok s2 =>
        if 0 ≤ s2.depth ∧ s2.depth < (DEPTH_MAX : Int) then
          .ok { s2.set_level s2.depth.toNat { s2.level s2.depth.toNat with data := none } with
                depth := s2.depth - 1 }
        else .error .level_index
  else .ok { s with depth := s.depth - 1 }

/-- Data Handler for the Expat parser. `realloc_ok n` tells whether the allocator
serves a request for `n` bytes. -/
def data_handler (realloc_ok : Nat → Bool) (s : state_t) (txt : String) : Except Fault state_t :=
  if s.depth < (DEPTH_MAX : Int) then
    if s.error = 0 then
      if s.depth < 0 then .error .level_index
      else
        let l := s.level s.depth.toNat
        let new_len := l.len + txt.utf8ByteSize
        if realloc_ok new_len then
          .ok (s.set_level s.depth.toNat { l with data := some (l.data.getD "" ++ txt) })
        else
          process_error (s.set_level s.depth.toNat { l with data := none }) (some l.tag) "low memory"
    else .ok s
  else .ok s

/-- The attribute loop of `start_handler`; `inner` is the call of `start_handler` for
the attribute name, made with an empty attribute list. -/
def attribute_loop (inner : state_t → String → Except Fault state_t) (realloc_ok : Nat → Bool) :
    state_t → List (String × String) → Except Fault state_t
  | s, [] => .ok s
  | s, (k, v) :: rest =>
    match inner s k with
    | .error f => .error f
    | .ok s1 =>
      match data_handler realloc_ok s1 v with
      | .error f => .error f
      | .ok s2 =>
        match end_handler s2 k with
        | .error f => .error f
        | .ok s3 => attribute_loop inner realloc_ok s3 rest

/-- The body of `start_handler`, with its recursive call as the parameter `inner`. -/
def start_handler_body (inner : state_t → String → Except Fault state_t)
    (realloc_ok : Nat → Bool) (s0 : state_t) (name : String)
    (attributes : List (String × String)) : Except Fault state_t :=
  let s : state_t := { s0 with depth := s0.depth + 1 }
  if s.depth < (DEPTH_MAX : Int) then
    if s.depth < 0 then .error .level_index
    else
      let d := s.depth.toNat
      let s1 := s.set_level d { s.level d with tag := name, data := none }
      if s1.error = 0 then
        match identify d s1.level with
        | .error f => .error f
        | .ok (some c) =>
          let s2 := s1.set_level d { s1.level d with process := c.process }
          match c.process with
          | none => .error .null_deref
          | some p =>
            match p.call s2 .token_open "" with
            | .error f => .error f
            | .ok s3 => attribute_loop inner realloc_ok s3 attributes
        | .ok none =>
          attribute_loop inner realloc_ok (s1.set_level d { s1.level d with process := none })
            attributes
      else .ok (s1.set_level d { s1.level d with process := none })
  else .ok s

/-- The `start_handler` call made for an attribute: its attribute list `null_atts` is
empty, so it makes no further call. -/
def start_handler_null (realloc_ok : Nat → Bool) (s : state_t) (name : String) :
    Except Fault state_t :=
  start_handler_body (fun s1 _ => .ok s1) realloc_ok s name []

/-- Start Handler for the Expat parser. -/
def start_handler (realloc_ok : Nat → Bool) (s : state_t) (name : String)
    (attributes : List (String × String)) : Except Fault state_t :=
  start_handler_body (start_handler_null realloc_ok) realloc_ok s name attributes

/-! ## Event streams -/

/-- A callback of the tokenizer. -/
inductive Event where
  | start (name : String) (attributes : List (String × String))
  | data (txt : String)
  | stop (name : String)
deriving DecidableEq, Repr

/-- The handler expat calls for an event. -/
def feed (realloc_ok : Nat → Bool) (s : state_t) : Event → Except Fault state_t
  | .start name attributes => start_handler realloc_ok s name attributes
  | .data txt => data_handler realloc_ok s txt
  | .stop name => end_handler s name

/-- The handlers called for a sequence of events, stopping at the first fault. -/
def run (realloc_ok : Nat → Bool) : state_t → List Event → Except Fault state_t
  | s, [] => .ok s
  | s, ev :: rest =>
    match feed realloc_ok s ev with
    | .error f => .error f
    | .ok s1 => run realloc_ok s1 rest

/-- The state `load_xml` sets up before the first event. The fields it leaves
uninitialised (the levels and the rom state) are parameters. -/
def load_xml_state (e : emulator) (gar : game_set) (level : Nat → level_t) (rom_size : Nat)
    (rom_merge : Bool) : state_t :=
  { depth := -1, level := level, error := 0, e := e, g := none, a := gar, m := none,
    rom_size := rom_size, rom_merge := rom_merge, err := [] }

/-- An allocator that serves every request. -/
def always (_n : Nat) : Bool := true

/-! ## The load loop -/

/-- The read of `load_xml` that ends its loop when no syntax error does: the stream goes
bad, or the read reaches the end of the stream having filled `buf`. -/
inductive last_read_t where
  | bad
  | eof (buf : String)
deriving DecidableEq, Repr

/-- An input stream as the loop of `load_xml` sees it: the buffers of the reads that
neither fail nor reach the end of the stream, then the read that does. A stream whose
reads never go bad and never reach the end keeps the loop running and has no such
description. -/
structure istream where
  reads : List String
  last : last_read_t

/-- The loop of `load_xml`. `XML_Parse p buf done` is the tokenizer of expat: from the
parser `p` and the buffer it gives the parser after the buffer, the events it calls the
handlers for, and the message of a syntax error when its status is an error. -/
def load_xml_loop {P : Type} (XML_Parse : P → String → Bool → P × List Event × Option String)
    (realloc_ok : Nat → Bool) : P → state_t → List String → last_read_t → Except Fault state_t
  | _, s, [], .bad => process_error s (some "") "read error"
  | p, s, [], .eof buf =>
    match XML_Parse p buf true with
    | (_, evs, status) =>
      match run realloc_ok s evs with
      | .error f => .error f
      | .ok s1 =>
        match status with
        | some msg => process_error s1 (some "") msg
        | none => .ok s1
  | p, s, buf :: more, last =>
    match XML_Parse p buf false with
    | (p1, evs, status) =>
      match run realloc_ok s evs with
      | .error f => .error f
      | .ok s1 =>
        match status with
        | some msg => process_error s1 (some "") msg
        | none => load_xml_loop XML_Parse realloc_ok p1 s1 more last

/-- The `mame_info::load_xml` of the C file: whether the load succeeded, and the catalog
after it. `XML_ParserCreate` is the parser expat creates, if it does. -/
def load_xml {P : Type} (XML_ParserCreate : Option P)
    (XML_Parse : P → String → Bool → P × List Event × Option String)
    (realloc_ok : Nat → Bool) (e : emulator) (stream : istream) (gar : game_set)
    (level : Nat → level_t) (rom_size : Nat) (rom_merge : Bool) :
    Except Fault (Bool × game_set) :=
  match XML_ParserCreate with
  | none => .ok (false, gar)
  | some p =>
    match load_xml_loop XML_Parse realloc_ok p (load_xml_state e gar level rom_size rom_merge)
        stream.reads stream.last with
    | .error f => .error f
    | .ok s => .ok (if s.error ≠ 0 then false else true, s.a)

/-- The events the tokenizer calls the handlers for until the loop of `load_xml` ends, and
whether the stream was consumed to its end with no read failure and no syntax error. -/
def delivered {P : Type} (XML_Parse : P → String → Bool → P × List Event × Option String) :
    P → List String → last_read_t → List Event × Bool
  | _, [], .bad => ([], false)
  | p, [], .eof buf => ((XML_Parse p buf true).2.1, (XML_Parse p buf true).2.2.isNone)
  | p, buf :: more, last =>
    match (XML_Parse p buf false).2.2 with
    | some _ => ((XML_Parse p buf false).2.1, false)
    | none =>
      ((XML_Parse p buf false).2.1 ++ (delivered XML_Parse (XML_Parse p buf false).1 more last).1,
        (delivered XML_Parse (XML_Parse p buf false).1 more last).2)

/-- A tokenizer for the samples: it knows three buffers and reports a syntax error for
any other; its parser counts the buffers seen. -/
def sample_XML_Parse (p : Nat) (buf : String) (_done : Bool) :
    Nat × List Event × Option String :=
  if buf = "<mame>" then (p + 1, [.start "mame" []], none)
  else if buf = "<game name=\"x\"/>" then
    (p + 1, [.start "game" [("name", "x")], .stop "game"], none)
  else if buf = "</mame>" then (p + 1, [.stop "mame"], none)
  else (p + 1, [], some "syntax error")

/-- Events of the document
`<mame><game name="pacman"><description>Pac-Man</description><year>1980</year>
<rom size="16384"/></game></mame>`. -/
def pacman_events : List Event :=
  [ .start "mame" [], .start "game" [("name", "pacman")],
    .start "description" [], .data "Pac-Man", .stop "description",
    .start "year" [], .data "1980", .stop "year",
    .start "rom" [("size", "16384")], .stop "rom",
    .stop "game", .stop "mame" ]

/-! ## Documents -/

/-- Well-nested content, in document order: nothing, a chunk of character data followed
by more content, or an element (with its attributes and its own content) followed by
more content. -/
inductive content where
  | nil
  | text (txt : String) (rest : content)
  | elem (name : String) (attributes : List (String × String)) (children : content)
      (rest : content)
deriving Repr

/-- The events the tokenizer reports for well-nested content. -/
def content.events : content → List Event
  | .nil => []
  | .text txt rest => .data txt :: rest.events
  | .elem name attributes children rest =>
    .start name attributes :: (children.events ++ .stop name :: rest.events)

/-- The character data directly inside an element: its chunks, joined in order. -/
def content.direct_text : content → String
  | .nil => ""
  | .text txt rest => txt ++ rest.direct_text
  | .elem _ _ _ rest => rest.direct_text

/-- The content a list of attributes stands for: one child element per attribute, named
as the attribute, holding the value as one chunk of character data. -/
def attribute_content : List (String × String) → content → content
  | [], rest => rest
  | (k, v) :: more, rest => .elem k [] (.text v .nil) (attribute_content more rest)

/-- Content followed by more content. -/
def content.append : content → content → content
  | .nil, more => more
  | .text txt rest, more => .text txt (rest.append more)
  | .elem name attributes children rest, more =>
    .elem name attributes children (rest.append more)

/-- The child elements directly inside an element, each as the pair of its name and of
the character data directly inside it. -/
def content.fields : content → List (String × String)
  | .nil => []
  | .text _ rest => rest.fields
  | .elem name _ children rest => (name, children.direct_text) :: rest.fields

/-- The events `start_handler` makes up for the attributes of an element: for each pair,
in order, the open of an element named as the attribute, its value as character data and
the close. -/
def attribute_events : List (String × String) → List Event
  | [] => []
  | (k, v) :: more => .start k [] :: .data v :: .stop k :: attribute_events more

/-! ## The specification of the path matcher -/

/-- Membership of a tag in the root wildcard set. -/
def is_mamemessraine (tag : String) : Bool := tag = "mame" || tag = "mess" || tag = "raine"

/-- Membership of a tag in the game wildcard set. -/
def is_gamemachine (tag : String) : Bool := tag = "game" || tag = "machine"

/-- A token fits a tag: a literal is equal to it, a wildcard set has it as a member. -/
def token_matches : name_t → String → Bool
  | .match_mamemessraine, tag => is_mamemessraine tag
  | .match_gamemachine, tag => is_gamemachine tag
  | .lit n, tag => tag = n

/-- Position `j` of an entry has a token and the token fits the tag of level `j`. -/
def position_matches (c : conversion_t) (level : Nat → level_t) (j : Nat) : Bool :=
  match c.name.getD j none with
  | some tok => token_matches tok (level j).tag
  | none => false

/-- An entry matches a chain of `depth + 1` tags: its required depth is `depth` and
every position `0 .. depth` matches. -/
def entry_matches (depth : Nat) (level : Nat → level_t) (c : conversion_t) : Bool :=
  c.depth = depth && (List.range (depth + 1)).all (position_matches c level)

/-- The path matcher as the specification words it: the first entry, in table order,
that matches; no entry when none matches or the depth is not below the bound. -/
def identify_spec (depth : Nat) (level : Nat → level_t) : Option conversion_t :=
  if depth < DEPTH_MAX then CONV_entries.find? (entry_matches depth level) else none

/-! ## The shape of the table -/

/-- Some tag fits both tokens: two literals are the same, a literal is a member of a
wildcard set, a wildcard set meets itself; the two wildcard sets share no tag. -/
def tokens_overlap : Option name_t → Option name_t → Bool
  | some (.lit x), some (.lit y) => x = y
  | some (.lit x), some .match_mamemessraine => is_mamemessraine x
  | some .match_mamemessraine, some (.lit y) => is_mamemessraine y
  | some (.lit x), some .match_gamemachine => is_gamemachine x
  | some .match_gamemachine, some (.lit y) => is_gamemachine y
  | some .match_mamemessraine, some .match_mamemessraine => true
  | some .match_gamemachine, some .match_gamemachine => true
  | _, _ => false

/-- Two entries can match the same chain: they have the same depth and at every position
up to it some tag fits both tokens. -/
def entries_overlap (c1 c2 : conversion_t) : Bool :=
  c1.depth = c2.depth
    && (List.range (c1.depth + 1)).all
        (fun j => tokens_overlap (c1.name.getD j none) (c2.name.getD j none))

/-- A tag that fits a token: the first member of a wildcard set, the literal itself. -/
def name_t.sample : name_t → String
  | .match_mamemessraine => "mame"
  | .match_gamemachine => "game"
  | .lit n => n

/-- A chain of tags that fits the pattern of an entry. -/
def conversion_t.sample_chain (c : conversion_t) : Nat → level_t :=
  fun j => ⟨((c.name.getD j none).map name_t.sample).getD "", none, none⟩

/-! ## Invariants of a parse -/

/-- The tags of levels 0 and 1 are a root tag and a game tag. -/
def tags_ok (level : Nat → level_t) : Prop :=
  is_mamemessraine (level 0).tag = true ∧ is_gamemachine (level 1).tag = true

/-- The state once `start_handler` has entered the next depth and filled in its level
with the tag, no data and the processing function `p`. -/
def opened (s : state_t) (name : String) (p : Option process_t) : state_t :=
  { s with depth := s.depth + 1,
           level := fun i => if i = (s.depth + 1).toNat then ⟨name, none, p⟩ else s.level i }

/-- The state once `end_handler` has released the data of the current level and left
its depth. -/
def closed (s : state_t) : state_t :=
  { s with depth := s.depth - 1,
           level := fun i => if i = s.depth.toNat
                             then { s.level s.depth.toNat with data := none } else s.level i }

/-- The processing function the table gives an element named `name` opened in `s`. -/
def resolve (s : state_t) (name : String) : Option process_t :=
  (identify_spec (s.depth + 1).toNat (opened s name none).level).bind (fun c => c.process)

/-- The processing function reads the record in progress on this token. -/
def process_t.needs_game : process_t → token_t → Bool
  | .game, .token_close => true
  | .rom, .token_close => true
  | .device, .token_close => true
  | .game, _ => false
  | .rom, _ => false
  | .device, _ => false
  | .romsize, _ => false
  | .rommerge, _ => false
  | .devicename, _ => false
  | .deviceextensionname, _ => false
  | _, .token_data => true
  | _, _ => false

/-- The processing function belongs to the device element or to one of its fields. -/
def process_t.uses_device : process_t → Bool
  | .device => true
  | .devicename => true
  | .deviceextensionname => true
  | _ => false

/-- The processing function reads the device record on this token. -/
def process_t.needs_device : process_t → token_t → Bool
  | .device, .token_close => true
  | .devicename, .token_data => true
  | .deviceextensionname, .token_data => true
  | _, _ => false

/-- What a call of a processing function that finds the records it reads does to the
state. -/
structure Called (p : process_t) (t : token_t) (txt : String) (s s1 : state_t) : Prop where
  depth : s1.depth = s.depth
  level : s1.level = s.level
  e : s1.e = s.e
  err : s1.err = s.err
  error : s1.error = s.error
  commit : p = .game → t = .token_close →
    ∃ g, s.g = some g ∧ s1.a = game_set.insert s.a g ∧ s1.g = none
  create : p = .game → t = .token_open → s1.g = some { game.new with emu := some s.e }
  a : ¬ (p = .game ∧ t = .token_close) → s1.a = s.a
  g : ¬ (p = .game ∧ t = .token_close) → s.g.isSome = true → s1.g.isSome = true
  m_new : p = .device → t = .token_open → s1.m.isSome = true
  m : ¬ (p = .device ∧ t = .token_close) → s.m.isSome = true → s1.m.isSome = true
  size : p ≠ .game → ¬ (p = .rom ∧ t = .token_close) →
    s1.g.map (fun g => g.size) = s.g.map (fun g => g.size)
  rom : p ≠ .rom → p ≠ .romsize → p ≠ .rommerge →
    s1.rom_size = s.rom_size ∧ s1.rom_merge = s.rom_merge
  game_data : p = .game → t = .token_data → s1.g = s.g
  rom_open : p = .rom → t = .token_open → s1.rom_size = 0 ∧ s1.rom_merge = false
  rom_keep : t ≠ .token_data → p ≠ .rom → s1.rom_size = s.rom_size ∧ s1.rom_merge = s.rom_merge
  rom_same : ¬ (p = .rom ∧ t = .token_open) → ¬ (p = .romsize ∧ t = .token_data) →
    ¬ (p = .rommerge ∧ t = .token_data) →
    s1.rom_size = s.rom_size ∧ s1.rom_merge = s.rom_merge
  romsize : p = .romsize → t = .token_data →
    s1.rom_size = to_unsigned (atoi txt) ∧ s1.rom_merge = s.rom_merge
  rommerge : p = .rommerge → t = .token_data →
    s1.rom_size = s.rom_size ∧ s1.rom_merge = true
  rom_close : p = .rom → t = .token_close →
    s1.g.map (fun g => g.size)
      = s.g.map (fun g => if s.rom_merge = true then g.size else g.size + s.rom_size)

/-- The invariant of a parse that has latched no error, at depth `d`: under a root tag
and a game tag a record is in progress, and under a device tag below them a device
record is. -/
structure Safe (s : state_t) (d : Nat) : Prop where
  depth : s.depth = (d : Int)
  error : s.error = 0
  game : 1 ≤ d → tags_ok s.level → s.g.isSome = true
  device : 2 ≤ d → tags_ok s.level → (s.level 2).tag = "device" → s.m.isSome = true

/-- What the events of well-nested content met at depth `d`, whose character data at
that depth is `txt`, do to the state. -/
structure Ran (d : Nat) (txt : String) (s s1 : state_t) : Prop where
  e : s1.e = s.e
  err : s1.err = s.err
  below : ∀ j, j < d → s1.level j = s.level j
  tag : (s1.level d).tag = (s.level d).tag
  process : (s1.level d).process = (s.level d).process
  data : d < DEPTH_MAX → (s1.level d).data.getD "" = (s.level d).data.getD "" ++ txt
  a_grows : s.a <+: s1.a
  a : 1 ≤ d → s1.a = s.a
  size : 2 ≤ d → s1.g.map (fun g => g.size) = s.g.map (fun g => g.size)
  rom : 3 ≤ d → s1.rom_size = s.rom_size ∧ s1.rom_merge = s.rom_merge
  inert : is_mamemessraine (s.level 0).tag = false →
    s1.g = s.g ∧ s1.m = s.m ∧ s1.rom_size = s.rom_size ∧ s1.rom_merge = s.rom_merge
      ∧ s1.a = s.a

/-- The statement of `run_safe` for one piece of content. -/
def RunSafe (f : content) : Prop :=
  ∀ d s, Safe s d → ∃ s1, run always s f.events = .ok s1 ∧ Safe s1 d
    ∧ Ran d f.direct_text s s1

/-- The records, the rom state, the catalog, the error flag and the error output of two
states are the same: all a processing function can change. -/
def same_records (s s1 : state_t) : Prop :=
  s1.g = s.g ∧ s1.m = s.m ∧ s1.rom_size = s.rom_size ∧ s1.rom_merge = s.rom_merge
    ∧ s1.error = s.error ∧ s1.a = s.a ∧ s1.err = s.err

/-- Chunks of character data, joined in order. -/
def join_chunks : List String → String
  | [] => ""
  | txt :: more => txt ++ join_chunks more

/-! ## The specification of the rom size -/

/-- The transient rom state (size, merge flag) after one field of a rom element: a
"merge" field sets the flag whatever its text, a "size" field stores its text parsed as
an integer, any other field changes nothing. -/
def rom_field (st : Nat × Bool) (kv : String × String) : Nat × Bool :=
  if kv.1 = "merge" then (st.1, true)
  else if kv.1 = "size" then (to_unsigned (atoi kv.2), st.2)
  else st

/-- What a rom element adds to the total size: its fields are its attributes and then
its child elements, met from size 0 with no merge marker; it adds its size unless it
carries a merge marker. -/
def rom_value (attrs : List (String × String)) (children : content) : Nat :=
  if ((attrs ++ children.fields).foldl rom_field (0, false)).2 = true then 0
  else ((attrs ++ children.fields).foldl rom_field (0, false)).1

/-- The sum of what the rom elements directly inside a game element add. -/
def rom_total : content → Nat
  | .nil => 0
  | .text _ rest => rom_total rest
  | .elem name attrs children rest =>
    (if name = "rom" then rom_value attrs children else 0) + rom_total rest

/-- Three rom elements of sizes 100, 200 and 50, the last with a merge marker. -/
def three_roms : content :=
  .elem "rom" [("name", "a"), ("size", "100")] .nil
    (.elem "rom" [("name", "b"), ("size", "200")] .nil
      (.elem "rom" [("name", "c"), ("merge", "c"), ("size", "50")] .nil .nil))

/-- The state `sr` of a parse with some allocator follows the state `sa` of the parse of
the same events with an allocator that never fails: the depths agree, and the states are
the same as long as `sr` has no error latched. -/
def Follows (sa sr : state_t) : Prop :=
  sr.depth = sa.depth ∧ (sr.error = 0 → sr = sa)

/-- What the events of well-nested content do to the stack of levels when they leave no
error latched: the depth and the levels below the current one are as before, the current
level keeps its tag and its processing function, and its data grows by `txt`. -/
structure Frame (txt : String) (s s1 : state_t) : Prop where
  error : s.error = 0
  depth : s1.depth = s.depth
  below : ∀ j : Nat, (j : Int) < s.depth → s1.level j = s.level j
  tag : (s1.level s.depth.toNat).tag = (s.level s.depth.toNat).tag
  process : (s1.level s.depth.toNat).process = (s.level s.depth.toNat).process
  data : (s1.level s.depth.toNat).data.getD ""
    = (s.level s.depth.toNat).data.getD "" ++ txt

/-- The statement of `framed` for one piece of content. -/
def Framed (ro : Nat → Bool) (f : content) : Prop :=
  ∀ s s1, run ro s f.events = .ok s1 → s1.error = 0 → 0 ≤ s.depth →
    s.depth < (DEPTH_MAX : Int) → Frame f.direct_text s s1

/-- What a call of a processing function that returns does to the device record in
progress and to the device list of the game record in progress. -/
structure Called_device (p : process_t) (t : token_t) (txt : String) (s s1 : state_t) :
    Prop where
  bag : p ≠ .game → ¬ (p = .device ∧ t = .token_close) →
    s1.g.map (fun g => g.machinedevice_bag) = s.g.map (fun g => g.machinedevice_bag)
  m : ¬ (p = .device ∧ t ≠ .token_data) → ¬ (p = .devicename ∧ t = .token_data) →
    ¬ (p = .deviceextensionname ∧ t = .token_data) → s1.m = s.m
  device_open : p = .device → t = .token_open → s1.m = some machinedevice.new
  device_close : p = .device → t = .token_close →
    ∃ g m, s.g = some g ∧ s.m = some m
      ∧ s1.g = some { g with machinedevice_bag := g.machinedevice_bag ++ [m] } ∧ s1.m = none
  devicename : p = .devicename → t = .token_data →
    s1.m = s.m.map (fun m => { m with name := txt })
  extension : p = .deviceextensionname → t = .token_data →
    s1.m = s.m.map (fun m => { m with ext_bag := m.ext_bag ++ [txt] })

/-- What the events of well-nested content met at the depth of `s` keep: from depth 2 on
the device list of the game record in progress, and from depth 3 on, unless the element
of depth 3 is an "extension", the device record in progress. -/
structure Kept (s s1 : state_t) : Prop where
  bag : 2 ≤ s.depth →
    s1.g.map (fun g => g.machinedevice_bag) = s.g.map (fun g => g.machinedevice_bag)
  m : 3 ≤ s.depth → (s.depth = 3 → (s.level 3).tag ≠ "extension") → s1.m = s.m

/-- The statement of `kept` for one piece of content. -/
def Keeps (ro : Nat → Bool) (f : content) : Prop :=
  ∀ s s1, run ro s f.events = .ok s1 → s1.error = 0 → 0 ≤ s.depth → Kept s s1

/-- The statement of `keeps_tags` for one piece of content: whether or not an error is
latched, its events leave the tag and the processing function of every level up to the
current one as they were. -/
def Keeps_tags (ro : Nat → Bool) (f : content) : Prop :=
  ∀ s s1, run ro s f.events = .ok s1 → 0 ≤ s.depth →
    ∀ j : Nat, (j : Int) ≤ s.depth →
      (s1.level j).tag = (s.level j).tag ∧ (s1.level j).process = (s.level j).process

/-! ## The frames the handlers address -/

/-- The index of the level frame the handler of an event addresses: `start_handler`
increments the depth before it indexes `level`, `data_handler` and `end_handler` index
`level` with the current depth. Each handler touches the frame only when the index is
below `DEPTH_MAX`. -/
def Event.frame (s : state_t) : Event → Int
  | .start _ _ => s.depth + 1
  | .data _ => s.depth
  | .stop _ => s.depth

/-- Every event of the sequence, met in the state the events before it lead to, addresses
a frame of index at least 0; its handler returns (the handlers fault on a frame of
negative index) and leaves all frames as they are when the index is not below
`DEPTH_MAX`. -/
def In_bounds (ro : Nat → Bool) : state_t → List Event → Prop
  | _, [] => True
  | s, ev :: rest =>
    0 ≤ ev.frame s
    ∧ ∃ s1, feed ro s ev = .ok s1
        ∧ ((DEPTH_MAX : Int) ≤ ev.frame s → s1.level = s.level)
        ∧ In_bounds ro s1 rest

/-! ## The specification of the device list -/

/-- The texts of the fields named "name", in order. -/
def names (fields : List (String × String)) : List String :=
  (fields.filter (fun kv => kv.1 = "name")).map (fun kv => kv.2)

/-- The extension names of a device: over the elements named "extension" directly inside
it, in document order, the texts of their fields named "name" (attributes first, then
child elements). -/
def extensions : content → List String
  | .nil => []
  | .text _ rest => extensions rest
  | .elem k a c rest => (if k = "extension" then names (a ++ c.fields) else []) ++ extensions rest

/-- What one child element of a device element does to the device record. -/
def device_child (k : String) (a : List (String × String)) (c : content)
    (m : machinedevice) : machinedevice :=
  if k = "name" then { m with name := c.direct_text }
  else if k = "extension" then { m with ext_bag := m.ext_bag ++ names (a ++ c.fields) }
  else m

/-- The device record of a device element: its name is the text of its field named
"name" (of the last one when there are several, empty when there is none), its extension
list the extension names in document order. -/
def device_of (attrs : List (String × String)) (children : content) : machinedevice :=
  { name := ((names (attrs ++ children.fields)).getLast?).getD "",
    ext_bag := extensions children }

/-- The device records of the device elements directly inside a game element, in document
order. -/
def devices : content → List machinedevice
  | .nil => []
  | .text _ rest => devices rest
  | .elem k a c rest => (if k = "device" then [device_of a c] else []) ++ devices rest

/-- A game element with two devices, and an attribute named as a device field. -/
def two_devices : content :=
  .elem "device" [("type", "cartridge"), ("name", "cart")]
    (.elem "extension" [("name", "bin")] .nil
      (.elem "extension" [("name", "rom")] .nil .nil))
    (.elem "year" [] (.text "1980" .nil)
      (.elem "device" [] (.elem "name" [] (.text "floppy" .nil) .nil) .nil))

/-! ## Sample states -/

/-- Levels that hold nothing yet. -/
def sample_level : Nat → level_t := fun _ => ⟨"", none, none⟩

/-- A state `load_xml` starts from: emulator "arcade", empty catalog. -/
def sample_state : state_t := load_xml_state ⟨"arcade"⟩ [] sample_level 0 false

/-- The sample state after the open of a root element `mame`. -/
def in_root_state : state_t := opened sample_state "mame" none

/-- The state after the further open of an element `game`. -/
def in_game_state : state_t :=
  { opened in_root_state "game" (some .game) with
    g := some { game.new with emu := some ⟨"arcade"⟩ } }

/-- A state at the last depth within the bound. -/
def deep_state : state_t := { in_game_state with depth := 4 }

/-- The state inside a game element with the error flag set. -/
def errored_state : state_t := { in_game_state with error := 1 }

end EmuXml

/-! # The sample window of the FIR filter (`advance/lib/filter.h`) -/

namespace Filter

/-- Max filter order. -/
def FILTER_ORDER_MAX : Nat := 51

/-- The values of an `unsigned`: 32 bits. -/
def UNSIGNED_RANGE : Nat := 4294967296

/-- The filter: its coefficients (`adv_filter_real` is `int`, `FILTER_USE_INT` being
defined) and its order. -/
structure adv_filter where
  /-- Filter coefficients. -/
  xcoeffs : Nat → Int
  /-- Filter order. -/
  order : Nat

/-- The state of a filter: the position of the most recent sample and the samples; only
the indices below `FILTER_ORDER_MAX` of `xprev` exist. -/
structure adv_filter_state where
  prev_mac : Nat
  xprev : Nat → Int

/-- Insert a value in the filter state. The result is `none` when the position the sample
is stored at is outside of `xprev`. -/
def filter_insert (f : adv_filter) (s : adv_filter_state) (x : Int) :
    Option adv_filter_state :=
  /- next position -/
  let p1 := (s.prev_mac + 1) % UNSIGNED_RANGE
  let p2 := if p1 ≥ f.order then 0 else p1
  /- set the most recent sample -/
  if p2 < FILTER_ORDER_MAX then
    some { prev_mac := p2, xprev := fun i => if i = p2 then x else s.xprev i }
  else none

/-- Consecutive calls of `filter_insert`, one per sample, in order. -/
def filter_insert_all (f : adv_filter) : adv_filter_state → List Int → Option adv_filter_state
  | s, [] => some s
  | s, x :: rest =>
    match filter_insert f s x with
    | none => none
    | some s1 => filter_insert_all f s1 rest

/-- A filter of order 3. -/
def sample_filter : adv_filter := { xcoeffs := fun _ => 0, order := 3 }

/-- A state of the filter of order 3 whose most recent sample is at position 1. -/
def sample_filter_state : adv_filter_state := { prev_mac := 1, xprev := fun _ => 0 }

end Filter

/-! # Theorems -/

namespace EmuXml

/-! ## Single handlers -/

set_option maxRecDepth 100000 in
/-- C1: the events of the document `<mame><game name="pacman">...</game></mame>`, fed with
the namespace "arcade" and an empty catalog into the state `load_xml` starts from
(whatever its uninitialised fields hold), end without a fault and without the error flag,
with exactly one record in the catalog: name "arcade/pacman", description "Pac-Man",
year "1980", size 16384, play level full. -/
theorem pacman_scenario (level : Nat → level_t) (rom_size : Nat) (rom_merge : Bool) :
    ∃ s r, run always (load_xml_state ⟨"arcade"⟩ [] level rom_size rom_merge) pacman_events
        = .ok s
      ∧ s.error = 0 ∧ s.a = [r] ∧ r.name = "arcade/pacman" ∧ r.description = "Pac-Man"
      ∧ r.year = "1980" ∧ r.size = 16384 ∧ r.play = .play_full :=
  ⟨_, _, rfl, rfl, rfl, rfl, rfl, rfl, rfl, rfl⟩

/-- C4: whatever the play level of the record in progress, the driver-color handler and
the driver-status handler, both with the text "preliminary", leave the play level at
not-playable, in either order of application. -/
theorem preliminary_color_status_commute (s : state_t) (g : game) :
    (process_drivercolor { s with g := some g } .token_data "preliminary" >>= fun s1 =>
        process_driverstatus s1 .token_data "preliminary")
      = .ok { s with g := some { g with play := .play_not } }
    ∧ (process_driverstatus { s with g := some g } .token_data "preliminary" >>= fun s1 =>
        process_drivercolor s1 .token_data "preliminary")
      = .ok { s with g := some { g with play := .play_not } } := by
  constructor
  · by_cases h : g.play < game_play_t.play_major <;>
      simp [process_drivercolor, process_driverstatus, h, bind, Except.bind]
  · have h : ¬ (game_play_t.play_not < game_play_t.play_major) := by decide
    simp [process_drivercolor, process_driverstatus, h, bind, Except.bind]

/-- C5: with a record at play level `p` in progress, the driver-color handler leaves the
level at `max p major-issues` when the text is "preliminary" and at `p` otherwise, the
driver-sound handler at `max p minor-issues` when the text is "preliminary" and at `p`
otherwise; nothing else changes and the level is never lowered. -/
theorem driver_color_sound_upgrade (s : state_t) (g : game) (txt : String) :
    process_drivercolor { s with g := some g } .token_data txt
      = .ok { s with g := some { g with play :=
          if txt = "preliminary" then game_play_t.max g.play .play_major else g.play } }
    ∧ process_driversound { s with g := some g } .token_data txt
      = .ok { s with g := some { g with play :=
          if txt = "preliminary" then game_play_t.max g.play .play_minor else g.play } }
    ∧ g.play ≤ game_play_t.max g.play .play_major
    ∧ g.play ≤ game_play_t.max g.play .play_minor := by
  refine ⟨?_, ?_, ?_, ?_⟩
  · by_cases ht : txt = "preliminary" <;> by_cases h : g.play < game_play_t.play_major <;>
      simp [process_drivercolor, game_play_t.max, ht, h]
  · by_cases ht : txt = "preliminary" <;> by_cases h : g.play < game_play_t.play_minor <;>
      simp [process_driversound, game_play_t.max, ht, h]
  · cases hp : g.play <;> decide
  · cases hp : g.play <;> decide

/-- C6: with the namespace `P` and a record in progress, the data event of the name
handler with text `T` sets the name to `P ++ "/" ++ T`, that of the clone-of handler the
clone-of reference and that of the rom-of handler the rom-of reference; the rest of the
record and of the state, the error flag included, stays as it was. -/
theorem name_cloneof_romof_prefixed (s : state_t) (g : game) (P T : String) :
    process_name { s with e := ⟨P⟩, g := some g } .token_data T
      = .ok { s with e := ⟨P⟩, g := some { g with name := P ++ "/" ++ T } }
    ∧ process_cloneof { s with e := ⟨P⟩, g := some g } .token_data T
      = .ok { s with e := ⟨P⟩, g := some { g with cloneof := some (P ++ "/" ++ T) } }
    ∧ process_romof { s with e := ⟨P⟩, g := some g } .token_data T
      = .ok { s with e := ⟨P⟩, g := some { g with romof := some (P ++ "/" ++ T) } } :=
  ⟨rfl, rfl, rfl⟩

/-! ## The path matcher -/

/-- Every entry of the table has a token in each position up to its depth. -/
theorem CONV_entries_tokens :
    ∀ c ∈ CONV_entries, ∀ i, i ≤ c.depth → c.name.getD i none ≠ none := by
  decide

/-- One comparison of `identify` on a position that has a token. -/
theorem identify_name_eq (c : conversion_t) (level : Nat → level_t) (j : Nat)
    (h : c.name.getD j none ≠ none) :
    identify_name (c.name.getD j none) (level j).tag = .ok (position_matches c level j) := by
  unfold position_matches
  cases hn : c.name.getD j none with
  | none => exact absurd hn h
  | some tok =>
    cases tok <;>
      simp [identify_name, token_matches, is_mamemessraine, is_gamemachine, not_and_or]

/-- The inner loop of `identify` ends past the depth exactly when all the positions it
visits match. -/
theorem identify_path_eq (c : conversion_t) (level : Nat → level_t) :
    ∀ (n j : Nat), (∀ i, i < j + n → c.name.getD i none ≠ none) →
      identify_path c level j n = .ok ((List.range' j n).all (position_matches c level)) := by
  intro n
  induction n with
  | zero => intro j _; simp [identify_path]
  | succ n ih =>
    intro j h
    have hj := identify_name_eq c level j (h j (by omega))
    have ih1 := ih (j + 1) (fun i hi => h i (by omega))
    rw [identify_path, hj]
    cases hp : position_matches c level j with
    | false => simp [List.range'_succ, hp]
    | true => simp [List.range'_succ, hp, ih1]

/-- The outer loop of `identify` over a table whose entries have their tokens, followed
by the terminating entry, is a find-first. -/
theorem identify_scan_eq (depth : Nat) (level : Nat → level_t) :
    ∀ (tbl : List conversion_t),
      (∀ c ∈ tbl, ∀ i, i ≤ c.depth → c.name.getD i none ≠ none) →
      identify_scan depth level (tbl ++ [CONV_end]) = .ok (tbl.find? (entry_matches depth level)) := by
  intro tbl
  induction tbl with
  | nil => intro _; simp [identify_scan, CONV_end]
  | cons c rest ih =>
    intro h
    have hc := h c (List.mem_cons_self _ _)
    have ih1 := ih (fun c1 h1 => h c1 (List.mem_cons_of_mem _ h1))
    have h0 : c.name.getD 0 none ≠ none := hc 0 (Nat.zero_le _)
    rw [List.cons_append, identify_scan]
    cases hn : c.name.getD 0 none with
    | none => exact absurd hn h0
    | some tok =>
      simp only []
      by_cases hd : c.depth = depth
      · have hp := identify_path_eq c level (depth + 1) 0
          (fun i hi => hc i (by omega))
        rw [← List.range_eq_range'] at hp
        rw [if_neg (not_not.mpr hd), hp]
        cases ha : (List.range (depth + 1)).all (position_matches c level) with
        | false => simp [List.find?, entry_matches, hd, ha, ih1]
        | true => simp [List.find?, entry_matches, hd, ha]
      · rw [if_pos hd, ih1]
        simp [List.find?, entry_matches, hd]

/-- The function `identify` never faults and computes `identify_spec`. -/
theorem identify_eq (depth : Nat) (level : Nat → level_t) :
    identify depth level = .ok (identify_spec depth level) := by
  unfold identify identify_spec
  by_cases h : depth < DEPTH_MAX
  · rw [if_pos h, if_pos h]
    exact identify_scan_eq depth level CONV_entries CONV_entries_tokens
  · rw [if_neg h, if_neg h]

/-- C7: for every depth and tag chain `identify` returns, without a fault, the first
entry of the table (in table order) whose required depth is the depth of the chain and
whose every position matches, a literal by equality and a wildcard set by membership;
it returns no entry exactly when the depth is not below `DEPTH_MAX` or no entry of the
table matches. -/
theorem identify_is_find_first (depth : Nat) (level : Nat → level_t) :
    identify depth level
        = .ok (if depth < DEPTH_MAX then CONV_entries.find? (entry_matches depth level) else none)
    ∧ (identify depth level = .ok none ↔
        (¬ depth < DEPTH_MAX ∨ ∀ c ∈ CONV_entries, entry_matches depth level c = false)) := by
  have h := identify_eq depth level
  unfold identify_spec at h
  refine ⟨h, ?_⟩
  rw [h]
  by_cases hd : depth < DEPTH_MAX
  · simp [hd, List.find?_eq_none]
  · simp [hd]

/-! ## Runs -/

/-- Events run in sequence: a run over `xs ++ ys` is the run over `xs` followed, unless it
faults, by the run over `ys`. -/
theorem run_append (ro : Nat → Bool) (xs ys : List Event) :
    ∀ s : state_t, run ro s (xs ++ ys)
      = (match run ro s xs with
         | .error f => .error f
         | .ok s1 => run ro s1 ys) := by
  induction xs with
  | nil => intro s; rfl
  | cons x xs ih =>
    intro s
    simp only [List.cons_append, run]
    cases feed ro s x with
    | error f => rfl
    | ok s1 => exact ih s1

/-- The run over a chunk of character data and what follows it. -/
theorem run_text (ro : Nat → Bool) (s : state_t) (txt : String) (rest : content) :
    run ro s (content.text txt rest).events
      = (match data_handler ro s txt with
         | .error f => .error f
         | .ok s1 => run ro s1 rest.events) := rfl

/-- The run over an element and what follows it: open, content, close, rest. -/
theorem run_elem (ro : Nat → Bool) (s : state_t) (name : String)
    (attributes : List (String × String)) (children rest : content) :
    run ro s (content.elem name attributes children rest).events
      = (match start_handler ro s name attributes with
         | .error f => .error f
         | .ok s1 =>
           match run ro s1 children.events with
           | .error f => .error f
           | .ok s2 =>
             match end_handler s2 name with
             | .error f => .error f
             | .ok s3 => run ro s3 rest.events) := by
  simp only [content.events, run, feed]
  cases start_handler ro s name attributes with
  | error f => rfl
  | ok s1 =>
    simp only [run_append]
    cases run ro s1 children.events with
    | error f => rfl
    | ok s2 => rfl

/-! ## Past the depth bound -/

/-- Past the bound `start_handler` only counts the depth. -/
theorem start_handler_deep (ro : Nat → Bool) (s : state_t) (name : String)
    (attributes : List (String × String)) (h : (DEPTH_MAX : Int) - 1 ≤ s.depth) :
    start_handler ro s name attributes = .ok { s with depth := s.depth + 1 } := by
  have h1 : ¬ (s.depth + 1 < (DEPTH_MAX : Int)) := by omega
  simp [start_handler, start_handler_body, h1]

/-- Past the bound `data_handler` does nothing. -/
theorem data_handler_deep (ro : Nat → Bool) (s : state_t) (txt : String)
    (h : (DEPTH_MAX : Int) ≤ s.depth) : data_handler ro s txt = .ok s := by
  have h1 : ¬ (s.depth < (DEPTH_MAX : Int)) := by omega
  simp [data_handler, h1]

/-- Past the bound `end_handler` only counts the depth. -/
theorem end_handler_deep (s : state_t) (name : String) (h : (DEPTH_MAX : Int) ≤ s.depth) :
    end_handler s name = .ok { s with depth := s.depth - 1 } := by
  have h1 : ¬ (s.depth < (DEPTH_MAX : Int)) := by omega
  simp [end_handler, h1]

/-- Content met at a depth that is not below the bound leaves the state as it is. -/
theorem run_deep (ro : Nat → Bool) (f : content) :
    ∀ s : state_t, (DEPTH_MAX : Int) ≤ s.depth → run ro s f.events = .ok s := by
  induction f with
  | nil => intro s _; rfl
  | text txt rest ih =>
    intro s h
    rw [run_text, data_handler_deep ro s txt h]
    exact ih s h
  | elem name attributes children rest ihc ihr =>
    intro s h
    rw [run_elem, start_handler_deep ro s name attributes (by omega)]
    simp only []
    rw [ihc _ (by simp only []; omega)]
    simp only []
    rw [end_handler_deep _ _ (by simp only []; omega)]
    simp only [Int.add_sub_cancel]
    exact ihr s h

/-- An element opened at the last depth within the bound, or deeper, leaves the state as
it is. -/
theorem run_elem_deep (ro : Nat → Bool) (s : state_t) (name : String)
    (attributes : List (String × String)) (children : content)
    (h : (DEPTH_MAX : Int) - 1 ≤ s.depth) :
    run ro s (content.elem name attributes children .nil).events = .ok s := by
  rw [run_elem, start_handler_deep ro s name attributes h]
  simp only []
  rw [run_deep ro children _ (by simp only []; omega)]
  simp only []
  rw [end_handler_deep _ _ (by simp only []; omega)]
  simp only [Int.add_sub_cancel]
  rfl

/-- C10: in a state whose depth is at least `DEPTH_MAX - 1`, the events of an element
(its open with any attributes, any character data and nested elements, its close) run
without a fault and end in the very state they started from: depth, levels, record in
progress, device, rom state, catalog, error flag and error output are all as before. -/
theorem oversized_nesting_is_inert (ro : Nat → Bool) (s : state_t) (name : String)
    (attributes : List (String × String)) (children : content)
    (h : (DEPTH_MAX : Int) - 1 ≤ s.depth) :
    run ro s (content.elem name attributes children .nil).events = .ok s :=
  run_elem_deep ro s name attributes children h

/-! ## Calls of the processing functions -/

/-- A processing function that returns leaves the depth, the levels and the emulator as
they are. -/
theorem call_stack (p : process_t) (t : token_t) (txt : String) (s s1 : state_t)
    (h : p.call s t txt = .ok s1) :
    s1.depth = s.depth ∧ s1.level = s.level ∧ s1.e = s.e := by
  cases p <;> cases t <;>
    simp only [process_t.call, process_game, process_runnable, process_name, process_description,
      process_manufacturer, process_year, process_cloneof, process_romof, process_driverstatus,
      process_drivercolor, process_driversound, process_rom, process_romsize, process_rommerge,
      process_device, process_deviceextensionname, process_devicename, process_videoscreen,
      process_videoorientation, process_videowidth, process_videoheight, process_videoaspectx,
      process_videoaspecty, process_error, reduceIte, reduceCtorEq] at h <;>
    (repeat' split at h) <;>
    first
      | (cases h; exact ⟨rfl, rfl, rfl⟩)
      | (exact absurd h (by simp))

set_option maxHeartbeats 4000000 in
/-- A processing function that finds the records it reads returns, with the effect
`Called` describes. -/
theorem call_ok (p : process_t) (t : token_t) (txt : String) (s : state_t)
    (hg : p.needs_game t = true → s.g.isSome = true)
    (hm : p.needs_device t = true → s.m.isSome = true) :
    ∃ s1, p.call s t txt = .ok s1 ∧ Called p t txt s s1 := by
  cases hgv : s.g <;> cases hmv : s.m <;> cases p <;> cases t <;>
    simp only [process_t.needs_game, process_t.needs_device, hgv, hmv, Option.isSome,
      forall_const, reduceCtorEq, imp_false, not_true_eq_false] at hg hm <;>
    simp only [process_t.call, process_game, process_runnable, process_name, process_description,
      process_manufacturer, process_year, process_cloneof, process_romof, process_driverstatus,
      process_drivercolor, process_driversound, process_rom, process_romsize, process_rommerge,
      process_device, process_deviceextensionname, process_devicename, process_videoscreen,
      process_videoorientation, process_videowidth, process_videoheight, process_videoaspectx,
      process_videoaspecty, process_error, reduceIte, reduceCtorEq, hgv, hmv] <;>
    (repeat' split) <;>
    exact ⟨_, rfl, by constructor <;> simp_all [game.flag_set]⟩

/-! ## Facts of the table -/

/-- Every entry starts with the two wildcard sets, has a depth from 1 to 4 and a
processing function; the game function is the one of depth 1, the device functions sit
under the tag "device", the rom function has depth 2 and its fields depth 3. -/
theorem CONV_entries_shape :
    ∀ c ∈ CONV_entries,
      c.name.getD 0 none = mmr ∧ c.name.getD 1 none = gm ∧ 1 ≤ c.depth ∧ c.depth < DEPTH_MAX
      ∧ c.process ≠ none
      ∧ (c.process = some .game ↔ c.depth = 1)
      ∧ (c.process = some .device → c.depth = 2 ∧ c.name.getD 2 none = lit "device")
      ∧ (c.process = some .devicename → c.depth = 3 ∧ c.name.getD 2 none = lit "device")
      ∧ (c.process = some .deviceextensionname →
          c.depth = 4 ∧ c.name.getD 2 none = lit "device")
      ∧ (c.process = some .rom → c.depth = 2 ∧ c.name.getD 2 none = lit "rom")
      ∧ (c.process = some .romsize → c.depth = 3)
      ∧ (c.process = some .rommerge → c.depth = 3) := by
  decide

/-- The path matcher only looks at the tags of the levels. -/
theorem identify_spec_congr (depth : Nat) (lv lv1 : Nat → level_t)
    (h : ∀ j, (lv j).tag = (lv1 j).tag) : identify_spec depth lv = identify_spec depth lv1 := by
  have hp : ∀ c, position_matches c lv = position_matches c lv1 := by
    intro c
    funext j
    simp only [position_matches, h j]
  have he : entry_matches depth lv = entry_matches depth lv1 := by
    funext c
    simp only [entry_matches, hp c]
  simp only [identify_spec, he]

/-- An entry the path matcher returns is an entry of the table that matches. -/
theorem identify_spec_some (depth : Nat) (lv : Nat → level_t) (c : conversion_t)
    (h : identify_spec depth lv = some c) :
    c ∈ CONV_entries ∧ c.depth = depth ∧ ∀ j, j ≤ depth → position_matches c lv j = true := by
  unfold identify_spec at h
  split at h
  · have hm := List.mem_of_find?_eq_some h
    have hp := List.find?_some h
    simp only [entry_matches, Bool.and_eq_true, decide_eq_true_eq, List.all_eq_true,
      List.mem_range] at hp
    exact ⟨hm, hp.1, fun j hj => hp.2 j (by omega)⟩
  · exact absurd h (by simp)

/-- A position that matches, read with the token the entry has there. -/
theorem position_matches_is (c : conversion_t) (lv : Nat → level_t) (j : Nat) (tok : name_t)
    (hn : c.name.getD j none = some tok) (h : position_matches c lv j = true) :
    token_matches tok (lv j).tag = true := by
  unfold position_matches at h
  rw [hn] at h
  exact h

/-- What the table tells about the processing function resolved for an element: the tags
of levels 0 and 1, the depth, and the tag of level 2 for the device and rom functions. -/
theorem resolve_some (s : state_t) (name : String) (p : process_t)
    (h : resolve s name = some p) :
    tags_ok (opened s name none).level ∧ 1 ≤ (s.depth + 1).toNat
      ∧ (s.depth + 1).toNat < DEPTH_MAX
      ∧ (p = .game ↔ (s.depth + 1).toNat = 1)
      ∧ (p.uses_device = true →
          2 ≤ (s.depth + 1).toNat ∧ ((opened s name none).level 2).tag = "device")
      ∧ (p = .device → (s.depth + 1).toNat = 2)
      ∧ (p = .rom → (s.depth + 1).toNat = 2)
      ∧ (p = .romsize ∨ p = .rommerge → (s.depth + 1).toNat = 3)
      ∧ (p = .rom → ((opened s name none).level 2).tag = "rom") := by
  unfold resolve at h
  obtain ⟨c, hc, hp⟩ := Option.bind_eq_some.mp h
  obtain ⟨hm, hd, hpos⟩ := identify_spec_some _ _ c hc
  obtain ⟨h0, h1, hd1, hd5, _, hgame, hdev, hdevn, hdeve, hrom, hrs, hrm⟩ :=
    CONV_entries_shape c hm
  have t0 := position_matches_is c _ 0 _ h0 (hpos 0 (by omega))
  have t1 := position_matches_is c _ 1 _ h1 (hpos 1 (by omega))
  refine ⟨⟨t0, t1⟩, by omega, by omega, ?_, ?_, ?_, ?_, ?_, ?_⟩
  · rw [← hd, ← hgame, hp]; simp
  · intro hu
    have : c.depth ≥ 2 ∧ c.name.getD 2 none = lit "device" := by
      cases p <;> simp [process_t.uses_device] at hu
      · exact ⟨by have := hdev hp; omega, (hdev hp).2⟩
      · exact ⟨by have := hdevn hp; omega, (hdevn hp).2⟩
      · exact ⟨by have := hdeve hp; omega, (hdeve hp).2⟩
    have t2 := position_matches_is c _ 2 _ this.2 (hpos 2 (by omega))
    exact ⟨by omega, by simpa [token_matches] using t2⟩
  · intro hq; subst hq; rw [← hd]; exact (hdev hp).1
  · intro hq; subst hq; rw [← hd]; exact (hrom hp).1
  · intro hq
    rcases hq with hq | hq <;> subst hq <;> rw [← hd]
    · exact hrs hp
    · exact hrm hp
  · intro hq
    subst hq
    have t2 := position_matches_is c _ 2 _ (hrom hp).2 (hpos 2 (by have := (hrom hp).1; omega))
    simpa [token_matches] using t2

/-- The positions of a chain of depth 1. -/
theorem range2 : List.range 2 = [0, 1] := by decide

/-- The positions of a chain of depth 2. -/
theorem range3 : List.range 3 = [0, 1, 2] := by decide

/-- The positions of a chain of depth 3. -/
theorem range4 : List.range 4 = [0, 1, 2, 3] := by decide

/-- Under a root tag and a game tag the chain of depth 1 resolves to the game function. -/
theorem identify_spec_game (lv : Nat → level_t) (h : tags_ok lv) :
    (identify_spec 1 lv).bind (fun c => c.process) = some .game := by
  obtain ⟨h0, h1⟩ := h
  simp [identify_spec, DEPTH_MAX, CONV_entries, List.find?, entry_matches, position_matches,
    range2, mmr, gm, token_matches, h0, h1]

/-- Under a root tag and a game tag the chain ending in "device" at depth 2 resolves to the
device function. -/
theorem identify_spec_device (lv : Nat → level_t) (h : tags_ok lv)
    (h2 : (lv 2).tag = "device") :
    (identify_spec 2 lv).bind (fun c => c.process) = some .device := by
  obtain ⟨h0, h1⟩ := h
  simp [identify_spec, DEPTH_MAX, CONV_entries, List.find?, entry_matches, position_matches,
    range3, mmr, gm, lit, token_matches, h0, h1, h2]

/-! ## The handlers within the depth bound -/

/-- With an empty attribute list `start_handler` is the call made for an attribute. -/
theorem start_handler_nil (ro : Nat → Bool) (s : state_t) (name : String) :
    start_handler ro s name [] = start_handler_null ro s name := by
  unfold start_handler start_handler_null start_handler_body
  simp only [attribute_loop]

/-- The recursion equation of the C function: `start_handler` is its body with the calls
for the attributes being calls of `start_handler` itself on an empty attribute list. -/
theorem start_handler_rec (ro : Nat → Bool) (s : state_t) (name : String)
    (attributes : List (String × String)) :
    start_handler ro s name attributes
      = start_handler_body (fun s1 k => start_handler ro s1 k []) ro s name attributes := by
  have h : (fun s1 k => start_handler ro s1 k []) = start_handler_null ro := by
    funext s1 k
    exact start_handler_nil ro s1 k
  rw [h]
  rfl

/-- The events of attributes put before some content. -/
theorem attribute_content_events (attrs : List (String × String)) (rest : content) :
    (attribute_content attrs rest).events
      = (attribute_content attrs .nil).events ++ rest.events := by
  induction attrs with
  | nil => simp [attribute_content, content.events]
  | cons kv more ih =>
    obtain ⟨k, v⟩ := kv
    simp only [attribute_content, content.events, List.cons_append, List.append_assoc,
      List.nil_append]
    rw [ih]

/-- The attribute loop of `start_handler` is the run over the events of the child elements
the attributes stand for. -/
theorem attribute_loop_run (ro : Nat → Bool) (attrs : List (String × String)) :
    ∀ s : state_t, attribute_loop (start_handler_null ro) ro s attrs
      = run ro s (attribute_content attrs .nil).events := by
  induction attrs with
  | nil => intro s; rfl
  | cons kv more ih =>
    intro s
    obtain ⟨k, v⟩ := kv
    simp only [attribute_loop, attribute_content]
    rw [run_elem, start_handler_nil]
    cases start_handler_null ro s k with
    | error f => rfl
    | ok s1 =>
      simp only [run_text]
      cases data_handler ro s1 v with
      | error f => rfl
      | ok s2 =>
        simp only [content.events, run]
        cases end_handler s2 k with
        | error f => rfl
        | ok s3 => exact ih s3

/-- With no error latched, the attributes of an element act as child elements put
before its content. -/
theorem start_handler_attrs (ro : Nat → Bool) (s : state_t) (name : String)
    (attrs : List (String × String)) (he : s.error = 0) :
    start_handler ro s name attrs
      = (match start_handler ro s name [] with
         | .error f => .error f
         | .ok s1 => run ro s1 (attribute_content attrs .nil).events) := by
  by_cases hd : s.depth + 1 < (DEPTH_MAX : Int)
  · unfold start_handler start_handler_body
    simp only [hd, reduceIte, state_t.set_level, he, attribute_loop]
    split
    · rfl
    · split
      · rfl
      · split
        · rfl
        · split
          · rfl
          · exact attribute_loop_run ro attrs _
      · exact attribute_loop_run ro attrs _
  · rw [start_handler_deep ro s name attrs (by omega), start_handler_deep ro s name [] (by omega)]
    simp only []
    rw [run_deep ro _ _ (by simp only []; omega)]

/-- With no error latched, an element with attributes runs as the element without
attributes whose content starts with the attributes as child elements. -/
theorem run_elem_attrs (ro : Nat → Bool) (s : state_t) (name : String)
    (attrs : List (String × String)) (children rest : content) (he : s.error = 0) :
    run ro s (content.elem name attrs children rest).events
      = run ro s (content.elem name [] (attribute_content attrs children) rest).events := by
  rw [run_elem, run_elem, start_handler_attrs ro s name attrs he]
  cases start_handler ro s name [] with
  | error f => rfl
  | ok s1 =>
    simp only []
    rw [attribute_content_events attrs children, run_append]
    cases run ro s1 (attribute_content attrs .nil).events with
    | error f => rfl
    | ok s2 => rfl

/-- Two assignments to the same level: the later one stays. -/
theorem ite_ite_same {α : Type} (d : Nat) (A B : α) (f : Nat → α) :
    (fun i => if i = d then A else if i = d then B else f i)
      = fun i => if i = d then A else f i := by
  funext i
  by_cases h : i = d <;> simp [h]

/-- The function `start_handler` on an element without attributes, within the bound and
with no error latched, in terms of `resolve` and `opened`. -/
theorem start_handler_open (ro : Nat → Bool) (s : state_t) (name : String)
    (he : s.error = 0) (h0 : -1 ≤ s.depth) (h5 : s.depth + 1 < (DEPTH_MAX : Int)) :
    start_handler ro s name []
      = (match resolve s name with
         | some p => p.call (opened s name (some p)) .token_open ""
         | none => .ok (opened s name none)) := by
  have hn : ¬ (s.depth + 1 < 0) := by omega
  unfold start_handler start_handler_body resolve
  simp only [h5, hn, reduceIte, state_t.set_level, attribute_loop, identify_eq, ite_ite_same]
  have hc : identify_spec (s.depth + 1).toNat
      (fun i => if i = (s.depth + 1).toNat
        then { s.level (s.depth + 1).toNat with tag := name, data := none } else s.level i)
      = identify_spec (s.depth + 1).toNat (opened s name none).level := by
    apply identify_spec_congr
    intro j
    by_cases hj : j = (s.depth + 1).toNat <;> simp [opened, hj]
  rw [hc, if_pos he]
  cases hi : identify_spec (s.depth + 1).toNat (opened s name none).level with
  | none => simp [opened]
  | some c =>
    obtain ⟨hm, -, -⟩ := identify_spec_some _ _ c hi
    have hp := (CONV_entries_shape c hm).2.2.2.2.1
    cases hq : c.process with
    | none => exact absurd hq hp
    | some p =>
      simp only [opened, hq, Option.some_bind]
      generalize p.call _ token_t.token_open "" = x
      cases x <;> rfl

/-- The function `end_handler` within the bound and with no error latched, in terms of
`closed`. -/
theorem end_handler_close (s : state_t) (name : String)
    (he : s.error = 0) (h0 : 0 ≤ s.depth) (h5 : s.depth < (DEPTH_MAX : Int)) :
    end_handler s name
      = (match (s.level s.depth.toNat).process with
         | none => .ok (closed s)
         | some p =>
           match p.call s .token_data ((s.level s.depth.toNat).data.getD "") with
           | .error f => .error f
           | .ok s1 =>
             match p.call s1 .token_close "" with
             | .error f => .error f
             | .ok s2 => .ok (closed s2)) := by
  have hn : ¬ (s.depth < 0) := by omega
  unfold end_handler
  simp only [h5, hn, reduceIte, he]
  cases hp : (s.level s.depth.toNat).process with
  | none => simp [closed, state_t.set_level, h0, h5]
  | some p =>
    simp only []
    cases h1 : p.call s .token_data ((s.level s.depth.toNat).data.getD "") with
    | error f => rfl
    | ok s1 =>
      obtain ⟨hd1, hl1, -⟩ := call_stack _ _ _ _ _ h1
      simp only [hd1, hl1, hp, h0, h5, and_self, reduceIte]
      cases h2 : p.call s1 .token_close "" with
      | error f => rfl
      | ok s2 =>
        obtain ⟨hd2, hl2, -⟩ := call_stack _ _ _ _ _ h2
        simp [closed, state_t.set_level, hd2, hd1, h0, h5]

/-- The function `data_handler` within the bound, with no error latched and an allocator
that serves the request. -/
theorem data_handler_append (s : state_t) (txt : String)
    (he : s.error = 0) (h0 : 0 ≤ s.depth) (h5 : s.depth < (DEPTH_MAX : Int)) :
    data_handler always s txt
      = .ok (s.set_level s.depth.toNat
          { s.level s.depth.toNat with
            data := some ((s.level s.depth.toNat).data.getD "" ++ txt) }) := by
  have hn : ¬ (s.depth < 0) := by omega
  simp [data_handler, h5, hn, he, always]

/-! ## The invariant along a run -/

/-- The predicate `tags_ok` only reads the tags of levels 0 and 1. -/
theorem tags_ok_congr (lv lv1 : Nat → level_t) (h0 : (lv1 0).tag = (lv 0).tag)
    (h1 : (lv1 1).tag = (lv 1).tag) : tags_ok lv1 ↔ tags_ok lv := by
  unfold tags_ok
  rw [h0, h1]

/-- No content changes nothing. -/
theorem Ran.refl (d : Nat) (s : state_t) : Ran d "" s s where
  e := rfl
  err := rfl
  below := fun _ _ => rfl
  tag := rfl
  process := rfl
  data := fun _ => by simp
  a_grows := List.prefix_refl _
  a := fun _ => rfl
  size := fun _ => rfl
  rom := fun _ => ⟨rfl, rfl⟩
  inert := fun _ => ⟨rfl, rfl, rfl, rfl, rfl⟩

/-- Content met at depth `d` keeps the tags of the levels up to `d`. -/
theorem Ran.tag_le {d : Nat} {txt : String} {s s1 : state_t} (h : Ran d txt s s1) (j : Nat)
    (hj : j ≤ d) : (s1.level j).tag = (s.level j).tag := by
  rcases Nat.lt_or_eq_of_le hj with hlt | heq
  · rw [h.below j hlt]
  · rw [heq]; exact h.tag

/-- Content followed by more content. -/
theorem Ran.trans {d : Nat} {t1 t2 : String} {s s1 s2 : state_t} (h1 : Ran d t1 s s1)
    (h2 : Ran d t2 s1 s2) : Ran d (t1 ++ t2) s s2 where
  e := h2.e.trans h1.e
  err := h2.err.trans h1.err
  below := fun j hj => (h2.below j hj).trans (h1.below j hj)
  tag := h2.tag.trans h1.tag
  process := h2.process.trans h1.process
  data := fun hd => by rw [h2.data hd, h1.data hd, String.append_assoc]
  a_grows := h1.a_grows.trans h2.a_grows
  a := fun hd => (h2.a hd).trans (h1.a hd)
  size := fun hd => (h2.size hd).trans (h1.size hd)
  rom := fun hd => ⟨(h2.rom hd).1.trans (h1.rom hd).1, (h2.rom hd).2.trans (h1.rom hd).2⟩
  inert := fun hr => by
    have hr1 : is_mamemessraine (s1.level 0).tag = false := by
      rw [h1.tag_le 0 (Nat.zero_le _)]; exact hr
    obtain ⟨a1, a2, a3, a4, a5⟩ := h1.inert hr
    obtain ⟨b1, b2, b3, b4, b5⟩ := h2.inert hr1
    exact ⟨b1.trans a1, b2.trans a2, b3.trans a3, b4.trans a4, b5.trans a5⟩

/-- The open of an element leaves the other levels alone. -/
theorem opened_level_ne (s : state_t) (name : String) (p : Option process_t) (j : Nat)
    (h : j ≠ (s.depth + 1).toNat) : (opened s name p).level j = s.level j := by
  simp [opened, h]

/-- The level the open of an element fills in. -/
theorem opened_level_eq (s : state_t) (name : String) (p : Option process_t) :
    (opened s name p).level (s.depth + 1).toNat = ⟨name, none, p⟩ := by
  simp [opened]

/-- The tags after the open of an element do not depend on the processing function. -/
theorem opened_tag (s : state_t) (name : String) (p q : Option process_t) (j : Nat) :
    ((opened s name p).level j).tag = ((opened s name q).level j).tag := by
  by_cases h : j = (s.depth + 1).toNat <;> simp [opened, h]

/-- The close of an element leaves the other levels alone. -/
theorem closed_level_ne (s : state_t) (j : Nat) (h : j ≠ s.depth.toNat) :
    (closed s).level j = s.level j := by
  simp [closed, h]

/-- What `start_handler` does for an element without attributes met within the bound
with no error latched: the new level is filled in and the processing function the table
resolves, when there is one, gets its open call, which finds all it needs. -/
theorem open_safe (name : String) (d : Nat) (s : state_t) (hs : Safe s d)
    (hd : d + 1 < DEPTH_MAX) :
    ∃ s1, start_handler always s name [] = .ok s1 ∧ Safe s1 (d + 1)
      ∧ (match resolve s name with
         | some p => Called p .token_open "" (opened s name (some p)) s1
         | none => s1 = opened s name none) := by
  have hdep := hs.depth
  have hD : (DEPTH_MAX : Int) = 5 := rfl
  have hD1 : DEPTH_MAX = 5 := rfl
  have hn : (s.depth + 1).toNat = d + 1 := by omega
  rw [start_handler_open always s name hs.error (by omega) (by omega)]
  cases hr : resolve s name with
  | none =>
    refine ⟨_, rfl, ?_, rfl⟩
    have hr1 := hr
    unfold resolve at hr1
    rw [hn] at hr1
    constructor
    · simp [opened, hdep]
    · exact hs.error
    · intro _ ht
      rcases Nat.eq_zero_or_pos d with h1 | h1
      · subst h1
        simp only [Nat.zero_add] at hr1
        rw [identify_spec_game _ ht] at hr1
        exact absurd hr1 (by simp)
      · have e0 := opened_level_ne s name none 0 (by omega)
        have e1 := opened_level_ne s name none 1 (by omega)
        have := (tags_ok_congr s.level _ (by rw [e0]) (by rw [e1])).mp ht
        exact hs.game (by omega) this
    · intro h2 ht htag
      rcases Nat.eq_or_lt_of_le h2 with h1 | h1
      · have h3 : d = 1 := by omega
        subst h3
        simp only [Nat.reduceAdd] at hr1
        rw [identify_spec_device _ ht htag] at hr1
        exact absurd hr1 (by simp)
      · have e0 := opened_level_ne s name none 0 (by omega)
        have e1 := opened_level_ne s name none 1 (by omega)
        have e2 := opened_level_ne s name none 2 (by omega)
        have := (tags_ok_congr s.level _ (by rw [e0]) (by rw [e1])).mp ht
        rw [e2] at htag
        exact hs.device (by omega) this htag
  | some p =>
    obtain ⟨s1, hc, hcalled⟩ := call_ok p .token_open "" (opened s name (some p))
      (by cases p <;> simp [process_t.needs_game])
      (by cases p <;> simp [process_t.needs_device])
    refine ⟨s1, hc, ?_, hcalled⟩
    obtain ⟨-, -, -, hgame, -, -, -, -, -⟩ := resolve_some s name p hr
    have hr1 := hr
    unfold resolve at hr1
    rw [hn] at hr1 hgame
    constructor
    · rw [hcalled.depth]; simp [opened, hdep]
    · rw [hcalled.error]; exact hs.error
    · intro _ ht
      rw [hcalled.level] at ht
      by_cases hp : p = .game
      · rw [hcalled.create hp rfl]; rfl
      · have h1 : d + 1 ≠ 1 := fun h => hp (hgame.mpr h)
        have e0 := opened_level_ne s name (some p) 0 (by omega)
        have e1 := opened_level_ne s name (some p) 1 (by omega)
        have := (tags_ok_congr s.level _ (by rw [e0]) (by rw [e1])).mp ht
        exact hcalled.g (by simp [hp]) (hs.game (by omega) this)
    · intro h2 ht htag
      rw [hcalled.level] at ht htag
      rcases Nat.eq_or_lt_of_le h2 with h1 | h1
      · have ht1 : tags_ok (opened s name none).level :=
          (tags_ok_congr _ _ (opened_tag _ _ _ _ _) (opened_tag _ _ _ _ _)).mp ht
        have htag1 : ((opened s name none).level 2).tag = "device" := by
          rw [opened_tag s name none (some p) 2]; exact htag
        have h3 : d = 1 := by omega
        subst h3
        simp only [Nat.reduceAdd] at hr1
        rw [identify_spec_device _ ht1 htag1] at hr1
        have hp : p = .device := by simpa using hr1.symm
        exact hcalled.m_new hp rfl
      · have e0 := opened_level_ne s name (some p) 0 (by omega)
        have e1 := opened_level_ne s name (some p) 1 (by omega)
        have e2 := opened_level_ne s name (some p) 2 (by omega)
        have := (tags_ok_congr s.level _ (by rw [e0]) (by rw [e1])).mp ht
        rw [e2] at htag
        exact hcalled.m (by simp) (hs.device (by omega) this htag)

/-- Only the device functions read the device record. -/
theorem needs_device_uses (p : process_t) (t : token_t) (h : p.needs_device t = true) :
    p.uses_device = true := by
  cases p <;> cases t <;> simp [process_t.needs_device] at h <;> rfl

/-- What `end_handler` does for an element met within the bound with no error latched:
the processing function bound to the level, when there is one, gets the data call with
the accumulated text and the close call, and both find all they need. -/
theorem close_safe (name : String) (d : Nat) (s2 : state_t) (hs : Safe s2 (d + 1))
    (hd : d + 1 < DEPTH_MAX)
    (hp : ∀ p, (s2.level (d + 1)).process = some p →
      tags_ok s2.level ∧ (p.uses_device = true → 2 ≤ d + 1 ∧ (s2.level 2).tag = "device")) :
    ∃ s3, end_handler s2 name = .ok s3
      ∧ (match (s2.level (d + 1)).process with
         | none => s3 = closed s2
         | some p => ∃ sa sb,
             p.call s2 .token_data ((s2.level (d + 1)).data.getD "") = .ok sa
             ∧ Called p .token_data ((s2.level (d + 1)).data.getD "") s2 sa
             ∧ p.call sa .token_close "" = .ok sb
             ∧ Called p .token_close "" sa sb
             ∧ s3 = closed sb) := by
  have hdep := hs.depth
  have hD : (DEPTH_MAX : Int) = 5 := rfl
  have hD1 : DEPTH_MAX = 5 := rfl
  have hn : s2.depth.toNat = d + 1 := by omega
  rw [end_handler_close s2 name hs.error (by omega) (by omega), hn]
  cases hq : (s2.level (d + 1)).process with
  | none => exact ⟨_, rfl, rfl⟩
  | some p =>
    obtain ⟨ht, hdev⟩ := hp p hq
    have hg2 : s2.g.isSome = true := hs.game (by omega) ht
    have hm2 : p.uses_device = true → s2.m.isSome = true := fun hu =>
      hs.device (hdev hu).1 ht (hdev hu).2
    obtain ⟨sa, hca, hcalled⟩ := call_ok p .token_data ((s2.level (d + 1)).data.getD "") s2
      (fun _ => hg2) (fun h => hm2 (needs_device_uses p _ h))
    obtain ⟨sb, hcb, hcalledb⟩ := call_ok p .token_close "" sa
      (fun _ => hcalled.g (by simp) hg2)
      (fun h => hcalled.m (by simp) (hm2 (needs_device_uses p _ h)))
    simp only [hca, hcb]
    exact ⟨_, rfl, sa, sb, rfl, hcalled, hcb, hcalledb, rfl⟩

/-- The run over an element and what follows it, split after the element. -/
theorem run_elem_rest (ro : Nat → Bool) (s : state_t) (name : String)
    (attributes : List (String × String)) (children rest : content) :
    run ro s (content.elem name attributes children rest).events
      = (match run ro s (content.elem name attributes children .nil).events with
         | .error f => .error f
         | .ok s3 => run ro s3 rest.events) := by
  rw [run_elem, run_elem]
  cases start_handler ro s name attributes with
  | error f => rfl
  | ok s1 =>
    simp only []
    cases run ro s1 children.events with
    | error f => rfl
    | ok s2 =>
      simp only []
      cases end_handler s2 name with
      | error f => rfl
      | ok s3 => rfl

/-- The events of an element without attributes, met within the bound, keep the
invariant when the events of its content do. -/
theorem elem_safe (name : String) (body : content) (d : Nat) (s : state_t) (hs : Safe s d)
    (hd : d + 1 < DEPTH_MAX)
    (ih : ∀ s1, Safe s1 (d + 1) → ∃ s2, run always s1 body.events = .ok s2 ∧ Safe s2 (d + 1)
      ∧ Ran (d + 1) body.direct_text s1 s2) :
    ∃ s1 s2 s3,
      (match resolve s name with
       | some p => Called p .token_open "" (opened s name (some p)) s1
       | none => s1 = opened s name none)
      ∧ s1.level = (opened s name (resolve s name)).level
      ∧ Safe s1 (d + 1)
      ∧ run always s1 body.events = .ok s2 ∧ Safe s2 (d + 1)
      ∧ Ran (d + 1) body.direct_text s1 s2
      ∧ (match resolve s name with
         | none => s3 = closed s2
         | some p => ∃ sa sb,
             Called p .token_data ((s2.level (d + 1)).data.getD "") s2 sa
             ∧ Called p .token_close "" sa sb
             ∧ s3 = closed sb)
      ∧ run always s (content.elem name [] body .nil).events = .ok s3 ∧ Safe s3 d
      ∧ Ran d "" s s3 := by
  have hdep := hs.depth
  have hn : (s.depth + 1).toNat = d + 1 := by omega
  obtain ⟨s1, hstart, hs1, hopen⟩ := open_safe name d s hs hd
  have hopen0 := hopen
  obtain ⟨s2, hrun, hs2, hran⟩ := ih s1 hs1
  -- the level of the element after its open
  have hlev1 : s1.level = (opened s name (resolve s name)).level := by
    cases hr : resolve s name with
    | none => rw [hr] at hopen; rw [hopen]
    | some p => rw [hr] at hopen; exact hopen.level
  have hproc : (s2.level (d + 1)).process = resolve s name := by
    rw [hran.process, hlev1, ← hn, opened_level_eq]
  have htags : ∀ j, j ≤ d + 1 → (s2.level j).tag = ((opened s name none).level j).tag := by
    intro j hj
    rw [hran.tag_le j hj, hlev1]
    exact opened_tag _ _ _ _ _
  have hlow : ∀ j, j ≤ d → s2.level j = s.level j := by
    intro j hj
    rw [hran.below j (by omega), hlev1, opened_level_ne _ _ _ _ (by omega)]
  obtain ⟨s3, hend, hclose⟩ := close_safe name d s2 hs2 hd (by
    intro p hq
    rw [hproc] at hq
    obtain ⟨ht, h1, -, -, hu, -, -, -, -⟩ := resolve_some s name p hq
    rw [hn] at h1 hu
    refine ⟨(tags_ok_congr _ _ (htags 0 (by omega)) (htags 1 (by omega))).mpr ht, ?_⟩
    intro hud
    exact ⟨(hu hud).1, by rw [htags 2 (hu hud).1]; exact (hu hud).2⟩)
  rw [hproc] at hclose
  have hclose0 : (match resolve s name with
      | none => s3 = closed s2
      | some p => ∃ sa sb,
          Called p .token_data ((s2.level (d + 1)).data.getD "") s2 sa
          ∧ Called p .token_close "" sa sb
          ∧ s3 = closed sb) := by
    cases hr : resolve s name with
    | none => rw [hr] at hclose; exact hclose
    | some p =>
      rw [hr] at hclose
      obtain ⟨sa, sb, -, hca, -, hcb, h3⟩ := hclose
      exact ⟨sa, sb, hca, hcb, h3⟩
  refine ⟨s1, s2, s3, hopen0, hlev1, hs1, hrun, hs2, hran, hclose0, ?_, ?_⟩
  · rw [run_elem, hstart]
    simp only []
    rw [hrun]
    simp only []
    rw [hend]
    rfl
  cases hr : resolve s name with
  | none =>
    rw [hr] at hclose hopen
    simp only [] at hclose hopen
    subst hclose
    have hd2 : s2.depth.toNat = d + 1 := by have := hs2.depth; omega
    have hlev3 : ∀ j, j ≤ d → (closed s2).level j = s.level j := by
      intro j hj
      rw [closed_level_ne _ _ (by omega)]
      exact hlow j hj
    have hlev32 : ∀ j, j ≤ d → (closed s2).level j = s2.level j := by
      intro j hj
      rw [closed_level_ne _ _ (by omega)]
    constructor
    · constructor
      · have := hs2.depth; simp only [closed]; omega
      · exact hs2.error
      · intro h1 ht
        rw [tags_ok_congr s2.level _ (by rw [hlev32 0 (by omega)]) (by rw [hlev32 1 h1])] at ht
        exact hs2.game (by omega) ht
      · intro h2 ht htag
        rw [tags_ok_congr s2.level _ (by rw [hlev32 0 (by omega)])
          (by rw [hlev32 1 (by omega)])] at ht
        rw [hlev32 2 h2] at htag
        exact hs2.device (by omega) ht htag
    · have ha1 : s1.a = s.a := by rw [hopen]; rfl
      constructor
      · show s2.e = s.e
        rw [hran.e, hopen]; rfl
      · show s2.err = s.err
        rw [hran.err, hopen]; rfl
      · intro j hj; exact hlev3 j (by omega)
      · rw [hlev3 d (le_refl _)]
      · rw [hlev3 d (le_refl _)]
      · intro _; rw [hlev3 d (le_refl _)]; simp
      · show s.a <+: s2.a
        rw [hran.a (by omega), ha1]
      · intro _
        show s2.a = s.a
        rw [hran.a (by omega), ha1]
      · intro h2
        show s2.g.map _ = _
        rw [hran.size (by omega), hopen]; rfl
      · intro h3
        show s2.rom_size = _ ∧ s2.rom_merge = _
        rw [(hran.rom (by omega)).1, (hran.rom (by omega)).2, hopen]
        exact ⟨rfl, rfl⟩
      · intro hroot
        have hroot1 : is_mamemessraine (s1.level 0).tag = false := by
          rw [hlev1, opened_level_ne _ _ _ _ (by omega)]; exact hroot
        obtain ⟨a1, a2, a3, a4, a5⟩ := hran.inert hroot1
        show s2.g = _ ∧ s2.m = _ ∧ s2.rom_size = _ ∧ s2.rom_merge = _ ∧ s2.a = _
        rw [a1, a2, a3, a4, a5, hopen]
        exact ⟨rfl, rfl, rfl, rfl, rfl⟩
  | some p =>
    rw [hr] at hclose hopen
    simp only [] at hclose hopen
    obtain ⟨sa, sb, -, hca, -, hcb, h3⟩ := hclose
    subst h3
    obtain ⟨ht, h1, -, hgame, hu, hdev, hrom, hromf, -⟩ := resolve_some s name p hr
    rw [hn] at h1 hgame hu hdev hrom hromf
    have ht2 : tags_ok s2.level :=
      (tags_ok_congr _ _ (htags 0 (by omega)) (htags 1 (by omega))).mpr ht
    have hg2 : s2.g.isSome = true := hs2.game (by omega) ht2
    have hdb : sb.depth.toNat = d + 1 := by
      have := hs2.depth; rw [hcb.depth, hca.depth]; omega
    have hlevb : sb.level = s2.level := by rw [hcb.level, hca.level]
    have hlev32 : ∀ j, j ≤ d → (closed sb).level j = s2.level j := by
      intro j hj
      rw [closed_level_ne _ _ (by omega), hlevb]
    have hlev3 : ∀ j, j ≤ d → (closed sb).level j = s.level j := by
      intro j hj
      rw [hlev32 j hj]
      exact hlow j hj
    constructor
    · constructor
      · have := hs2.depth; simp only [closed]; rw [hcb.depth, hca.depth]; omega
      · show sb.error = 0
        rw [hcb.error, hca.error]; exact hs2.error
      · intro hd1 _
        have hpg : p ≠ .game := fun h => by have := hgame.mp h; omega
        exact hcb.g (by simp [hpg]) (hca.g (by simp) hg2)
      · intro hd2 ht3 htag
        rw [tags_ok_congr s2.level _ (by rw [hlev32 0 (by omega)])
          (by rw [hlev32 1 (by omega)])] at ht3
        rw [hlev32 2 hd2] at htag
        have hm2 := hs2.device (by omega) ht3 htag
        have hpd : p ≠ .device := fun h => by have := hdev h; omega
        exact hcb.m (by simp [hpd]) (hca.m (by simp) hm2)
    · have ha1 : s1.a = s.a := by rw [hopen.a (by simp)]; rfl
      have ha2 : sa.a = s.a := by rw [hca.a (by simp), hran.a (by omega), ha1]
      constructor
      · show sb.e = s.e
        rw [hcb.e, hca.e, hran.e, hopen.e]; rfl
      · show sb.err = s.err
        rw [hcb.err, hca.err, hran.err, hopen.err]; rfl
      · intro j hj; exact hlev3 j (by omega)
      · rw [hlev3 d (le_refl _)]
      · rw [hlev3 d (le_refl _)]
      · intro _; rw [hlev3 d (le_refl _)]; simp
      · show s.a <+: sb.a
        by_cases hpg : p = .game
        · obtain ⟨g, -, hins, -⟩ := hcb.commit hpg rfl
          rw [hins, ha2]
          exact List.prefix_append _ _
        · rw [hcb.a (by simp [hpg]), ha2]
      · intro hd1
        have hpg : p ≠ .game := fun h => by have := hgame.mp h; omega
        show sb.a = s.a
        rw [hcb.a (by simp [hpg]), ha2]
      · intro hd2
        have hpg : p ≠ .game := fun h => by have := hgame.mp h; omega
        have hpr : p ≠ .rom := fun h => by have := hrom h; omega
        show sb.g.map _ = _
        rw [hcb.size hpg (by simp [hpr]), hca.size hpg (by simp), hran.size (by omega),
          hopen.size hpg (by simp)]
        rfl
      · intro hd3
        have hpr : p ≠ .rom := fun h => by have := hrom h; omega
        have hps : p ≠ .romsize := fun h => by have := hromf (Or.inl h); omega
        have hpm : p ≠ .rommerge := fun h => by have := hromf (Or.inr h); omega
        show sb.rom_size = _ ∧ sb.rom_merge = _
        rw [(hcb.rom hpr hps hpm).1, (hcb.rom hpr hps hpm).2, (hca.rom hpr hps hpm).1,
          (hca.rom hpr hps hpm).2, (hran.rom (by omega)).1, (hran.rom (by omega)).2,
          (hopen.rom hpr hps hpm).1, (hopen.rom hpr hps hpm).2]
        exact ⟨rfl, rfl⟩
      · intro hroot
        have h0 := ht.1
        rw [opened_level_ne _ _ _ _ (by omega), hroot] at h0
        exact absurd h0 (by simp)

/-- Past the bound no content changes anything. -/
theorem Ran.deep (d : Nat) (txt : String) (s : state_t) (hd : DEPTH_MAX ≤ d) :
    Ran d txt s s where
  e := rfl
  err := rfl
  below := fun _ _ => rfl
  tag := rfl
  process := rfl
  data := fun h => absurd h (by omega)
  a_grows := List.prefix_refl _
  a := fun _ => rfl
  size := fun _ => rfl
  rom := fun _ => ⟨rfl, rfl⟩
  inert := fun _ => ⟨rfl, rfl, rfl, rfl, rfl⟩

/-- Step of `run_safe`: no content. -/
theorem RunSafe.nil : RunSafe .nil :=
  fun d s hs => ⟨s, rfl, hs, Ran.refl d s⟩

/-- Step of `run_safe`: a chunk of character data. -/
theorem RunSafe.text (txt : String) (rest : content) (ih : RunSafe rest) :
    RunSafe (.text txt rest) := by
  intro d s hs
  by_cases hd : d < DEPTH_MAX
  · have hdep := hs.depth
    have hD : (DEPTH_MAX : Int) = 5 := rfl
    have hD1 : DEPTH_MAX = 5 := rfl
    have hn : s.depth.toNat = d := by omega
    have hdata := data_handler_append s txt hs.error (by omega) (by omega)
    rw [hn] at hdata
    have hlev : ∀ j, ((s.set_level d
        { s.level d with data := some ((s.level d).data.getD "" ++ txt) }).level j).tag
        = (s.level j).tag := by
      intro j
      by_cases hj : j = d <;> simp [state_t.set_level, hj]
    have hs1 : Safe (s.set_level d
        { s.level d with data := some ((s.level d).data.getD "" ++ txt) }) d := by
      constructor
      · exact hs.depth
      · exact hs.error
      · intro h1 ht
        exact hs.game h1 ((tags_ok_congr _ _ (hlev 0) (hlev 1)).mp ht)
      · intro h2 ht htag
        rw [hlev 2] at htag
        exact hs.device h2 ((tags_ok_congr _ _ (hlev 0) (hlev 1)).mp ht) htag
    have hr1 : Ran d txt s (s.set_level d
        { s.level d with data := some ((s.level d).data.getD "" ++ txt) }) := by
      constructor
      · rfl
      · rfl
      · intro j hj
        have : j ≠ d := by omega
        simp [state_t.set_level, this]
      · simp [state_t.set_level]
      · simp [state_t.set_level]
      · intro _; simp [state_t.set_level]
      · exact List.prefix_refl _
      · intro _; rfl
      · intro _; rfl
      · intro _; exact ⟨rfl, rfl⟩
      · intro _; exact ⟨rfl, rfl, rfl, rfl, rfl⟩
    obtain ⟨s2, hrun, hs2, hr2⟩ := ih d _ hs1
    refine ⟨s2, ?_, hs2, hr1.trans hr2⟩
    rw [run_text, hdata]
    exact hrun
  · refine ⟨s, run_deep always _ s ?_, hs, Ran.deep d _ s (by omega)⟩
    have := hs.depth
    have hD : (DEPTH_MAX : Int) = 5 := rfl
    have hD1 : DEPTH_MAX = 5 := rfl
    omega

/-- Step of `run_safe`: an element without attributes. -/
theorem RunSafe.elem_nil (name : String) (body rest : content) (ihb : RunSafe body)
    (ihr : RunSafe rest) : RunSafe (.elem name [] body rest) := by
  intro d s hs
  have hD : (DEPTH_MAX : Int) = 5 := rfl
  have hD1 : DEPTH_MAX = 5 := rfl
  have hdep := hs.depth
  have hfirst : ∃ s3, run always s (content.elem name [] body .nil).events = .ok s3
      ∧ Safe s3 d ∧ Ran d "" s s3 := by
    by_cases hd : d + 1 < DEPTH_MAX
    · obtain ⟨-, -, s3, -, -, -, -, -, -, -, h1, h2, h3⟩ :=
        elem_safe name body d s hs hd (ihb (d + 1))
      exact ⟨s3, h1, h2, h3⟩
    · exact ⟨s, run_elem_deep always s name [] body (by omega), hs, Ran.refl d s⟩
  obtain ⟨s3, hrun3, hs3, hr3⟩ := hfirst
  obtain ⟨s4, hrun4, hs4, hr4⟩ := ihr d s3 hs3
  refine ⟨s4, ?_, hs4, ?_⟩
  · rw [run_elem_rest, hrun3]
    exact hrun4
  · have := hr3.trans hr4
    simpa [content.direct_text] using this

/-- Step of `run_safe`: attributes, as child elements, before some content. -/
theorem RunSafe.attributes (attrs : List (String × String)) (children : content)
    (ih : RunSafe children) : RunSafe (attribute_content attrs children) := by
  induction attrs with
  | nil => exact ih
  | cons kv more ihm =>
    obtain ⟨k, v⟩ := kv
    exact RunSafe.elem_nil k _ _ (RunSafe.text v .nil RunSafe.nil) ihm

/-- Attributes add no character data to the element that carries them. -/
theorem attribute_content_direct_text (attrs : List (String × String)) (children : content) :
    (attribute_content attrs children).direct_text = children.direct_text := by
  induction attrs with
  | nil => rfl
  | cons kv more ih =>
    obtain ⟨k, v⟩ := kv
    simpa [attribute_content, content.direct_text] using ih

/-- Step of `run_safe`: an element with attributes. -/
theorem RunSafe.elem (name : String) (attrs : List (String × String)) (children rest : content)
    (ihc : RunSafe children) (ihr : RunSafe rest) : RunSafe (.elem name attrs children rest) := by
  intro d s hs
  have := RunSafe.elem_nil name _ rest (RunSafe.attributes attrs children ihc) ihr d s hs
  rw [run_elem_attrs always s name attrs children rest hs.error]
  simpa [content.direct_text] using this

/-- From a state that satisfies the invariant, the events of any well-nested content run
without a fault, keep the invariant and change the state as `Ran` describes. -/
theorem run_safe (f : content) : RunSafe f := by
  induction f with
  | nil => exact RunSafe.nil
  | text txt rest ih => exact RunSafe.text txt rest ih
  | elem name attrs children rest ihc ihr => exact RunSafe.elem name attrs children rest ihc ihr

/-! ## The root element -/

/-- At depth 0 the table resolves no processing function. -/
theorem resolve_root (s : state_t) (name : String) (h : s.depth = -1) :
    resolve s name = none := by
  cases hr : resolve s name with
  | none => rfl
  | some p =>
    obtain ⟨-, h1, -⟩ := resolve_some s name p hr
    rw [h] at h1
    exact absurd h1 (by decide)

/-- The open of the root element, attributes apart. -/
theorem root_open (s : state_t) (name : String) (hd : s.depth = -1) (he : s.error = 0) :
    start_handler always s name [] = .ok (opened s name none)
      ∧ Safe (opened s name none) 0 := by
  constructor
  · rw [start_handler_open always s name he (by omega) (by rw [hd]; decide),
      resolve_root s name hd]
  · constructor
    · simp [opened, hd]
    · exact he
    · intro h; exact absurd h (by decide)
    · intro h; exact absurd h (by decide)

/-- The close of an element whose level has no processing function. -/
theorem close_unbound (s : state_t) (name : String) (d : Nat) (hs : Safe s d)
    (hd : d < DEPTH_MAX) (hp : (s.level d).process = none) :
    end_handler s name = .ok (closed s) := by
  have hdep := hs.depth
  have hD : (DEPTH_MAX : Int) = 5 := rfl
  have hD1 : DEPTH_MAX = 5 := rfl
  have hn : s.depth.toNat = d := by omega
  rw [end_handler_close s name hs.error (by omega) (by omega), hn, hp]

/-- The events of a whole document, from the state `load_xml` starts with: the root is
opened, its attributes and its content run at depth 0 under the invariant, and the root
is closed. -/
theorem run_document (s : state_t) (root : String) (attrs : List (String × String))
    (children : content) (hd : s.depth = -1) (he : s.error = 0) :
    ∃ s2, run always (opened s root none) (attribute_content attrs children).events = .ok s2
      ∧ Safe s2 0 ∧ Ran 0 children.direct_text (opened s root none) s2
      ∧ run always s (content.elem root attrs children .nil).events = .ok (closed s2) := by
  obtain ⟨hopen, hsafe⟩ := root_open s root hd he
  obtain ⟨s2, hrun, hs2, hran⟩ := run_safe (attribute_content attrs children) 0 _ hsafe
  rw [attribute_content_direct_text] at hran
  refine ⟨s2, hrun, hs2, hran, ?_⟩
  have hp : (s2.level 0).process = none := by
    rw [hran.process]
    have := opened_level_eq s root none
    rw [hd] at this
    simp only [Int.reduceNeg, Int.reduceAdd, Int.toNat_zero, neg_add_cancel] at this
    rw [this]
  rw [run_elem_attrs always s root attrs children .nil he, run_elem, hopen]
  simp only []
  rw [hrun]
  simp only []
  rw [close_unbound s2 root 0 hs2 (by decide) hp]
  rfl

/-- C8: `identify` returns an entry only for a chain whose root tag is exactly "mame",
"mess" or "raine" and whose depth-1 tag is exactly "game" or "machine"; and the events of
a document whose root tag is none of the three, fed from the state `load_xml` starts
with, run without a fault and leave the catalog, the record and the device in progress,
the rom state, the error flag and the error output as they were. -/
theorem handlers_need_root_and_game :
    (∀ (depth : Nat) (level : Nat → level_t) (c : conversion_t),
      identify depth level = .ok (some c) →
        ((level 0).tag = "mame" ∨ (level 0).tag = "mess" ∨ (level 0).tag = "raine")
        ∧ ((level 1).tag = "game" ∨ (level 1).tag = "machine") ∧ 1 ≤ depth)
    ∧ (∀ (e : emulator) (gar : game_set) (level : Nat → level_t) (rom_size : Nat)
        (rom_merge : Bool) (root : String) (attrs : List (String × String))
        (children : content),
      root ≠ "mame" → root ≠ "mess" → root ≠ "raine" →
        ∃ s1, run always (load_xml_state e gar level rom_size rom_merge)
            (content.elem root attrs children .nil).events = .ok s1
          ∧ s1.a = gar ∧ s1.error = 0 ∧ s1.g = none ∧ s1.m = none
          ∧ s1.rom_size = rom_size ∧ s1.rom_merge = rom_merge ∧ s1.err = []
          ∧ s1.depth = -1) := by
  constructor
  · intro depth level c h
    rw [identify_eq] at h
    have hc : identify_spec depth level = some c := by simpa using h
    obtain ⟨hm, hd, hpos⟩ := identify_spec_some _ _ c hc
    obtain ⟨h0, h1, hd1, -⟩ := CONV_entries_shape c hm
    have t0 := position_matches_is c _ 0 _ h0 (hpos 0 (by omega))
    have t1 := position_matches_is c _ 1 _ h1 (hpos 1 (by omega))
    refine ⟨?_, ?_, by omega⟩
    · simpa [token_matches, is_mamemessraine, or_assoc] using t0
    · simpa [token_matches, is_gamemachine] using t1
  · intro e gar level rom_size rom_merge root attrs children h1 h2 h3
    obtain ⟨s2, -, hs2, hran, hrun⟩ := run_document (load_xml_state e gar level rom_size rom_merge)
      root attrs children rfl rfl
    have hroot : is_mamemessraine
        ((opened (load_xml_state e gar level rom_size rom_merge) root none).level 0).tag
        = false := by
      simp [opened, load_xml_state, is_mamemessraine, h1, h2, h3]
    obtain ⟨a1, a2, a3, a4, a5⟩ := hran.inert hroot
    refine ⟨_, hrun, ?_, ?_, ?_, ?_, ?_, ?_, ?_, ?_⟩
    · show s2.a = gar
      rw [a5]; rfl
    · exact hs2.error
    · show s2.g = none
      rw [a1]; rfl
    · show s2.m = none
      rw [a2]; rfl
    · show s2.rom_size = rom_size
      rw [a3]; rfl
    · show s2.rom_merge = rom_merge
      rw [a4]; rfl
    · show s2.err = []
      rw [hran.err]; rfl
    · have := hs2.depth
      simp only [closed]
      omega

/-! ## Elements the table does not know -/

/-- Chunks of character data met within the bound with no error latched are appended to
the data of the current level; nothing else changes. -/
theorem run_chunks (chunks : List String) :
    ∀ s : state_t, s.error = 0 → 0 ≤ s.depth → s.depth < (DEPTH_MAX : Int) →
      ∃ s1, run always s (chunks.map Event.data) = .ok s1 ∧ same_records s s1
        ∧ s1.depth = s.depth ∧ s1.e = s.e
        ∧ (∀ j, j ≠ s.depth.toNat → s1.level j = s.level j)
        ∧ (s1.level s.depth.toNat).tag = (s.level s.depth.toNat).tag
        ∧ (s1.level s.depth.toNat).process = (s.level s.depth.toNat).process
        ∧ (s1.level s.depth.toNat).data.getD ""
            = (s.level s.depth.toNat).data.getD "" ++ join_chunks chunks := by
  induction chunks with
  | nil =>
    intro s _ _ _
    exact ⟨s, rfl, ⟨rfl, rfl, rfl, rfl, rfl, rfl, rfl⟩, rfl, rfl, fun _ _ => rfl, rfl, rfl,
      by simp [join_chunks]⟩
  | cons txt more ih =>
    intro s he h0 h5
    obtain ⟨s1, hrun, hsame, hdep, hemu, hlev, htag, hproc, hdata⟩ :=
      ih (s.set_level s.depth.toNat
        { s.level s.depth.toNat with
          data := some ((s.level s.depth.toNat).data.getD "" ++ txt) }) he h0 h5
    simp only [state_t.set_level, reduceIte] at hdep hemu hlev htag hproc hdata
    refine ⟨s1, ?_, hsame, hdep, hemu, ?_, htag, hproc, ?_⟩
    · simp only [List.map_cons, run, feed]
      rw [data_handler_append s txt he h0 h5]
      exact hrun
    · intro j hj
      rw [hlev j hj]
      simp [hj]
    · rw [hdata]
      simp [join_chunks, String.append_assoc]

/-- Chunks of character data met past the bound are dropped. -/
theorem run_chunks_deep (ro : Nat → Bool) (chunks : List String) (s : state_t)
    (h : (DEPTH_MAX : Int) ≤ s.depth) : run ro s (chunks.map Event.data) = .ok s := by
  induction chunks with
  | nil => rfl
  | cons txt more ih =>
    simp only [List.map_cons, run, feed]
    rw [data_handler_deep ro s txt h]
    exact ih

/-- C9: in a state with no error latched (and a depth of at least -1, as in every
parse), for an element whose tag chain matches no entry of the table, the open without
attributes, any chunks of character data and the close run without a fault and leave the
record in progress, the device, the rom state, the error flag, the catalog and the error
output unchanged at each of the three steps; when the element is within the depth bound
its level has no processing function and holds, until the close, the chunks joined in
order; the close restores the depth. -/
theorem unmatched_element_is_inert (s : state_t) (name : String) (chunks : List String)
    (he : s.error = 0) (h0 : -1 ≤ s.depth)
    (hno : ∀ c ∈ CONV_entries,
      entry_matches (s.depth + 1).toNat (opened s name none).level c = false) :
    ∃ s1 s2 s3, start_handler always s name [] = .ok s1
      ∧ run always s1 (chunks.map Event.data) = .ok s2
      ∧ end_handler s2 name = .ok s3
      ∧ same_records s s1 ∧ same_records s s2 ∧ same_records s s3
      ∧ s3.depth = s.depth
      ∧ (s.depth + 1 < (DEPTH_MAX : Int) →
          (s1.level (s.depth + 1).toNat) = ⟨name, none, none⟩
          ∧ (s2.level (s.depth + 1).toNat).tag = name
          ∧ (s2.level (s.depth + 1).toNat).process = none
          ∧ (s2.level (s.depth + 1).toNat).data.getD "" = join_chunks chunks
          ∧ (s3.level (s.depth + 1).toNat).data = none) := by
  have hsame : same_records s s := ⟨rfl, rfl, rfl, rfl, rfl, rfl, rfl⟩
  by_cases h5 : s.depth + 1 < (DEPTH_MAX : Int)
  · have hres : resolve s name = none := by
      unfold resolve identify_spec
      have : List.find? (entry_matches (s.depth + 1).toNat (opened s name none).level)
          CONV_entries = none := by
        rw [List.find?_eq_none]
        intro c hc
        rw [hno c hc]
        simp
      rw [this]
      simp
    have hstart := start_handler_open always s name he h0 h5
    rw [hres] at hstart
    have hd1 : (opened s name none).depth.toNat = (s.depth + 1).toNat := rfl
    obtain ⟨s2, hrun, hs2, hdep2, -, hlev2, htag2, hproc2, hdata2⟩ :=
      run_chunks chunks (opened s name none) he (by simp only [opened]; omega) h5
    rw [hd1] at hlev2 htag2 hproc2 hdata2
    rw [opened_level_eq] at htag2 hproc2 hdata2
    have hend := end_handler_close s2 name (by rw [hs2.2.2.2.2.1]; exact he)
      (by rw [hdep2]; simp only [opened]; omega) (by rw [hdep2]; exact h5)
    have hd2 : s2.depth.toNat = (s.depth + 1).toNat := by rw [hdep2]; rfl
    rw [hd2, hproc2] at hend
    refine ⟨_, s2, _, hstart, hrun, hend, hsame, hs2, hs2, ?_, ?_⟩
    · simp only [closed, hdep2, opened]; omega
    · intro _
      refine ⟨opened_level_eq s name none, htag2, hproc2, ?_, ?_⟩
      · simpa using hdata2
      · simp [closed, hd2]
  · have hD : (DEPTH_MAX : Int) = 5 := rfl
    refine ⟨_, _, _, start_handler_deep always s name [] (by omega),
      run_chunks_deep always chunks _ (by simp only []; omega),
      end_handler_deep _ name (by simp only []; omega), hsame, hsame, hsame, ?_, ?_⟩
    · simp
    · intro h; exact absurd h h5

/-! ## The game element -/

/-- The run over an open event with attributes and the events after it. -/
theorem run_start_attrs (ro : Nat → Bool) (s : state_t) (name : String)
    (attrs : List (String × String)) (evs : List Event) (he : s.error = 0) :
    run ro s (.start name attrs :: evs)
      = (match start_handler ro s name [] with
         | .error f => .error f
         | .ok s1 => run ro s1 ((attribute_content attrs .nil).events ++ evs)) := by
  simp only [run, feed]
  rw [start_handler_attrs ro s name attrs he]
  cases start_handler ro s name [] with
  | error f => rfl
  | ok s1 => simp only [run_append]

/-- Under a root tag at depth 0, an element with a game tag resolves to the game
function. -/
theorem resolve_game (s : state_t) (name : String) (hd : s.depth = 0)
    (hroot : is_mamemessraine (s.level 0).tag = true) (hname : is_gamemachine name = true) :
    resolve s name = some .game := by
  unfold resolve
  have hn : (s.depth + 1).toNat = 1 := by rw [hd]; rfl
  rw [hn]
  apply identify_spec_game
  constructor
  · rw [opened_level_ne _ _ _ _ (by rw [hn]; decide)]; exact hroot
  · rw [← hn, opened_level_eq]; exact hname

/-- The events of an element with a game tag met at depth 0 under a root tag: the open
creates the record, the attributes and the content keep it in progress and leave the
catalog alone, the close inserts it and leaves no record in progress. -/
theorem game_element (s0 : state_t) (name : String) (attrs : List (String × String))
    (children : content) (hs0 : Safe s0 0) (hroot : is_mamemessraine (s0.level 0).tag = true)
    (hname : is_gamemachine name = true) :
    ∃ s1c s1 s2 s3 r,
      start_handler always s0 name [] = .ok s1c
      ∧ s1c.g = some { game.new with emu := some s0.e } ∧ Safe s1c 1
      ∧ tags_ok s1c.level ∧ (s1c.level 1).process = some .game
      ∧ start_handler always s0 name attrs = .ok s1 ∧ s1.a = s0.a ∧ s1.g.isSome = true
      ∧ run always s1c (attribute_content attrs children).events = .ok s2
      ∧ run always s1 children.events = .ok s2 ∧ s2.a = s0.a ∧ s2.g = some r
      ∧ end_handler s2 name = .ok s3 ∧ s3.a = s0.a ++ [r] ∧ s3.g = none ∧ Safe s3 0
      ∧ s3.e = s0.e ∧ s3.err = s0.err ∧ s3.level 0 = s0.level 0 := by
  have hd0 : s0.depth = 0 := by have := hs0.depth; simpa using this
  have hn : (s0.depth + 1).toNat = 1 := by rw [hd0]; rfl
  have hres := resolve_game s0 name hd0 hroot hname
  obtain ⟨s1c, hstart, hs1c, hopen⟩ := open_safe name 0 s0 hs0 (by decide)
  rw [hres] at hopen
  simp only [] at hopen
  obtain ⟨s1, hrun1, hs1, hran1⟩ := run_safe (attribute_content attrs .nil) 1 s1c hs1c
  obtain ⟨s2, hrun2, hs2, hran2⟩ := run_safe children 1 s1 hs1
  have hl1c : s1c.level = (opened s0 name (some .game)).level := hopen.level
  have hlev1 : ∀ j, j ≤ 1 → (s2.level j).tag = (s1c.level j).tag := by
    intro j hj
    rw [hran2.tag_le j hj, hran1.tag_le j hj]
  have ht1c : tags_ok s1c.level := by
    rw [hl1c]
    constructor
    · rw [opened_level_ne _ _ _ _ (by rw [hn]; decide)]; exact hroot
    · rw [← hn, opened_level_eq]; exact hname
  have ht2 : tags_ok s2.level :=
    (tags_ok_congr _ _ (hlev1 0 (by omega)) (hlev1 1 (by omega))).mpr ht1c
  have hp1c : (s1c.level 1).process = some .game := by
    rw [hl1c, ← hn, opened_level_eq]
  have hproc : (s2.level 1).process = some .game := by
    rw [hran2.process, hran1.process, hp1c]
  obtain ⟨s3, hend, hclose⟩ := close_safe name 0 s2 hs2 (by decide) (by
    intro p hq
    rw [hproc] at hq
    have : p = .game := by simpa using hq.symm
    subst this
    exact ⟨ht2, fun h => absurd h (by decide)⟩)
  rw [hproc] at hclose
  simp only [] at hclose
  obtain ⟨sa, sb, -, hca, -, hcb, h3⟩ := hclose
  obtain ⟨r, hga, hins, hgb⟩ := hcb.commit rfl rfl
  have ha1c : s1c.a = s0.a := by rw [hopen.a (by simp)]; rfl
  have ha2 : s2.a = s0.a := by rw [hran2.a (by omega), hran1.a (by omega), ha1c]
  have hlevb : sb.level = s2.level := by rw [hcb.level, hca.level]
  have hdb : sb.depth = 1 := by rw [hcb.depth, hca.depth]; exact hs2.depth
  refine ⟨s1c, s1, s2, s3, r, hstart, ?_, hs1c, ht1c, hp1c, ?_, ?_, ?_, ?_,
    hrun2, ha2, ?_, hend, ?_, ?_, ?_, ?_, ?_, ?_⟩
  · rw [hopen.create rfl rfl]; rfl
  · rw [start_handler_attrs always s0 name attrs hs0.error, hstart]
    exact hrun1
  · rw [hran1.a (by omega), ha1c]
  · exact hs1.game (by omega)
      ((tags_ok_congr _ _ (hran1.tag_le 0 (by omega)) (hran1.tag_le 1 (by omega))).mpr ht1c)
  · rw [attribute_content_events, run_append, hrun1]
    exact hrun2
  · rw [← hca.game_data rfl rfl]; exact hga
  · subst h3
    show sb.a = s0.a ++ [r]
    rw [hins, hca.a (by simp), ha2]; rfl
  · subst h3
    exact hgb
  · subst h3
    constructor
    · simp only [closed]; rw [hdb]; rfl
    · show sb.error = 0
      rw [hcb.error, hca.error]; exact hs2.error
    · intro h; exact absurd h (by decide)
    · intro h; exact absurd h (by decide)
  · subst h3
    show sb.e = s0.e
    rw [hcb.e, hca.e, hran2.e, hran1.e, hopen.e]; rfl
  · subst h3
    show sb.err = s0.err
    rw [hcb.err, hca.err, hran2.err, hran1.err, hopen.err]; rfl
  · subst h3
    rw [closed_level_ne _ _ (by rw [hdb]; decide), hlevb, hran2.below 0 (by omega),
      hran1.below 0 (by omega), hl1c, opened_level_ne _ _ _ _ (by rw [hn]; decide)]

/-- The events of content followed by more content. -/
theorem content.events_append (f more : content) :
    (f.append more).events = f.events ++ more.events := by
  induction f with
  | nil => rfl
  | text txt rest ih => simp [content.append, content.events, ih]
  | elem name attributes children rest _ ih =>
    simp [content.append, content.events, ih]

/-- C2: in a document whose root tag is "mame", "mess" or "raine", fed from the state
`load_xml` starts with, take any depth-1 element named "game" or "machine", with any
content before and after it. The events up to it run without a fault; its open event
creates the record (a fresh record of the emulator) and does not touch the catalog; its
attributes and its content keep a record in progress and the catalog as it was; its
close event inserts that record, once, at the end of the catalog and leaves no record in
progress; and the rest of the document runs without a fault and keeps the catalog up to
that insert as a prefix of the final catalog. -/
theorem game_element_committed_once (e : emulator) (gar : game_set) (level : Nat → level_t)
    (rom_size : Nat) (rom_merge : Bool) (root name : String)
    (rattrs attrs : List (String × String)) (before children after : content)
    (hroot : root = "mame" ∨ root = "mess" ∨ root = "raine")
    (hname : name = "game" ∨ name = "machine") :
    ∃ s0 s1c s1 s2 s3 s4 r,
      run always (load_xml_state e gar level rom_size rom_merge)
          (.start root rattrs :: before.events) = .ok s0
      ∧ start_handler always s0 name [] = .ok s1c
      ∧ s1c.g = some { game.new with emu := some e }
      ∧ start_handler always s0 name attrs = .ok s1 ∧ s1.a = s0.a ∧ s1.g.isSome = true
      ∧ run always s1 children.events = .ok s2 ∧ s2.a = s0.a ∧ s2.g = some r
      ∧ end_handler s2 name = .ok s3 ∧ s3.a = s0.a ++ [r] ∧ s3.g = none ∧ s3.error = 0
      ∧ run always s3 (after.events ++ [.stop root]) = .ok s4
      ∧ s3.a <+: s4.a ∧ s4.error = 0
      ∧ run always (load_xml_state e gar level rom_size rom_merge)
          (content.elem root rattrs
            (before.append (.elem name attrs children after)) .nil).events = .ok s4 := by
  have hroot1 : is_mamemessraine root = true := by
    rcases hroot with h | h | h <;> subst h <;> decide
  have hname1 : is_gamemachine name = true := by
    rcases hname with h | h <;> subst h <;> decide
  obtain ⟨hopen, hsafe⟩ := root_open (load_xml_state e gar level rom_size rom_merge) root rfl rfl
  obtain ⟨s0, hrun0, hs0, hran0⟩ := run_safe (attribute_content rattrs before) 0 _ hsafe
  have hlr : (opened (load_xml_state e gar level rom_size rom_merge) root none).level 0
      = ⟨root, none, none⟩ := by
    simp [opened, load_xml_state]
  have htag0 : (s0.level 0).tag = root := by rw [hran0.tag, hlr]
  have hproc0 : (s0.level 0).process = none := by rw [hran0.process, hlr]
  have he0 : s0.e = e := by rw [hran0.e]; rfl
  obtain ⟨s1c, s1, s2, s3, r, hstartc, hg1c, -, -, -, hstart, ha1, hg1, -, hrun2, ha2, hg2,
    hend, ha3, hg3, hs3, -, -, hl3⟩ :=
    game_element s0 name attrs children hs0 (by rw [htag0]; exact hroot1) hname1
  obtain ⟨s4, hrun4, hs4, hran4⟩ := run_safe after 0 s3 hs3
  have hproc4 : (s4.level 0).process = none := by rw [hran4.process, hl3, hproc0]
  have hclose := close_unbound s4 root 0 hs4 (by decide) hproc4
  have hfirst : run always (load_xml_state e gar level rom_size rom_merge)
      (.start root rattrs :: before.events) = .ok s0 := by
    rw [run_start_attrs always _ root rattrs _ rfl, hopen]
    simp only []
    rw [← attribute_content_events]
    exact hrun0
  have hlast : run always s3 (after.events ++ [.stop root]) = .ok (closed s4) := by
    rw [run_append, hrun4]
    simp only [run, feed, hclose]
  refine ⟨s0, s1c, s1, s2, s3, closed s4, r, hfirst, hstartc, ?_, hstart, ha1, hg1, hrun2, ha2,
    hg2, hend, ha3, hg3, hs3.error, hlast, hran4.a_grows, hs4.error, ?_⟩
  · rw [hg1c, he0]
  · have hev : (content.elem root rattrs
        (before.append (.elem name attrs children after)) .nil).events
        = (.start root rattrs :: before.events)
          ++ (.start name attrs :: (children.events ++ .stop name :: (after.events
            ++ [.stop root]))) := by
      simp [content.events, content.events_append]
    rw [hev, run_append, hfirst]
    simp only [run, feed]
    rw [hstart]
    simp only [run_append]
    rw [hrun2]
    simp only [run, feed]
    rw [hend]
    simp only []
    rw [← hlast, run_append]

/-! ## The rom element -/

/-- Under a root tag and a game tag the chain ending in "rom" at depth 2 resolves to the rom
function. -/
theorem identify_spec_rom (lv : Nat → level_t) (h : tags_ok lv) (h2 : (lv 2).tag = "rom") :
    (identify_spec 2 lv).bind (fun c => c.process) = some .rom := by
  obtain ⟨h0, h1⟩ := h
  simp [identify_spec, DEPTH_MAX, CONV_entries, List.find?, entry_matches, position_matches,
    range3, mmr, gm, lit, token_matches, h0, h1, h2]

/-- Under a rom element the chain of depth 3 resolves to the merge function for "merge",
to the size function for "size" and to nothing otherwise. -/
theorem identify_spec_rom_field (lv : Nat → level_t) (h : tags_ok lv)
    (h2 : (lv 2).tag = "rom") :
    (identify_spec 3 lv).bind (fun c => c.process)
      = if (lv 3).tag = "merge" then some .rommerge
        else if (lv 3).tag = "size" then some .romsize else none := by
  obtain ⟨h0, h1⟩ := h
  by_cases hm : (lv 3).tag = "merge"
  · simp [identify_spec, DEPTH_MAX, CONV_entries, List.find?, entry_matches, position_matches,
      range4, mmr, gm, lit, token_matches, h0, h1, h2, hm]
  · by_cases hz : (lv 3).tag = "size"
    · simp [identify_spec, DEPTH_MAX, CONV_entries, List.find?, entry_matches,
        position_matches, range4, mmr, gm, lit, token_matches, h0, h1, h2, hz]
    · simp [identify_spec, DEPTH_MAX, CONV_entries, List.find?, entry_matches,
        position_matches, range4, mmr, gm, lit, token_matches, h0, h1, h2, hm, hz]


/-- Reading an equation between the sizes of two optional records. -/
theorem size_of_map {a b : Option game} {f : game → Nat}
    (h : a.map (fun g => g.size) = b.map f) {g : game} (hb : b = some g) :
    ∃ g1, a = some g1 ∧ g1.size = f g := by
  subst hb
  cases a with
  | none => simp at h
  | some g1 => exact ⟨g1, rfl, by simpa using h⟩

/-- The fields of an element: its attributes, then its child elements. -/
theorem attribute_content_fields (attrs : List (String × String)) (children : content) :
    (attribute_content attrs children).fields = attrs ++ children.fields := by
  induction attrs with
  | nil => rfl
  | cons kv more ih =>
    obtain ⟨k, v⟩ := kv
    simp [attribute_content, content.fields, content.direct_text, ih]

/-- An attribute of a game element adds nothing to `rom_total`, whatever its name. -/
theorem rom_total_attribute_content (attrs : List (String × String)) (children : content) :
    rom_total (attribute_content attrs children) = rom_total children := by
  induction attrs with
  | nil => rfl
  | cons kv more ih =>
    obtain ⟨k, v⟩ := kv
    simp [attribute_content, rom_total, rom_value, content.fields, ih]

/-- Character data met under the invariant. -/
theorem text_safe (txt : String) (d : Nat) (s : state_t) (hs : Safe s d) :
    ∃ s1, data_handler always s txt = .ok s1 ∧ Safe s1 d ∧ Ran d txt s s1
      ∧ s1.g = s.g ∧ s1.rom_size = s.rom_size ∧ s1.rom_merge = s.rom_merge := by
  obtain ⟨s1, hrun, hs1, hran⟩ := run_safe (.text txt .nil) d s hs
  have hrun1 : data_handler always s txt = .ok s1 := by
    rw [run_text] at hrun
    cases hdh : data_handler always s txt with
    | error f => rw [hdh] at hrun; exact absurd hrun (by simp)
    | ok s2 =>
      rw [hdh] at hrun
      simp only [content.events, run] at hrun
      exact hrun
  have hran1 : Ran d txt s s1 := by simpa [content.direct_text] using hran
  refine ⟨s1, hrun1, hs1, hran1, ?_⟩
  have hD : (DEPTH_MAX : Int) = 5 := rfl
  have hdep := hs.depth
  by_cases hd : d < 5
  · rw [data_handler_append s txt hs.error (by omega) (by omega)] at hrun1
    have := Except.ok.inj hrun1
    subst this
    exact ⟨rfl, rfl, rfl⟩
  · rw [data_handler_deep always s txt (by omega)] at hrun1
    have := Except.ok.inj hrun1
    subst this
    exact ⟨rfl, rfl, rfl⟩

/-- The content of a rom element: each field acts on the transient rom state as
`rom_field` says. -/
theorem rom_fields_run (f : content) :
    ∀ s, Safe s 2 → tags_ok s.level → (s.level 2).tag = "rom" →
      ∃ s1, run always s f.events = .ok s1 ∧ Safe s1 2 ∧ Ran 2 f.direct_text s s1
        ∧ (s1.rom_size, s1.rom_merge) = f.fields.foldl rom_field (s.rom_size, s.rom_merge) := by
  induction f with
  | nil => intro s hs _ _; exact ⟨s, rfl, hs, Ran.refl 2 s, rfl⟩
  | text txt rest ih =>
    intro s hs ht h2
    obtain ⟨s1, hdh, hs1, hran1, -, hz, hm⟩ := text_safe txt 2 s hs
    obtain ⟨s2, hrun2, hs2, hran2, hrom2⟩ := ih s1 hs1
      ((tags_ok_congr _ _ (hran1.tag_le 0 (by omega)) (hran1.tag_le 1 (by omega))).mpr ht)
      (by rw [hran1.tag]; exact h2)
    refine ⟨s2, ?_, hs2, hran1.trans hran2, ?_⟩
    · rw [run_text, hdh]; exact hrun2
    · rw [hrom2, hz, hm]; rfl
  | elem k a c rest _ ih =>
    intro s hs ht h2
    have hdep := hs.depth
    have hn : (s.depth + 1).toNat = 3 := by omega
    obtain ⟨s1, s2, s3, hopen, hlev1, hs1, hrun2, hs2, hran2, hclose, hrun3, hs3, hran3⟩ :=
      elem_safe k (attribute_content a c) 2 s hs (by decide) (run_safe _ 3)
    simp only [Nat.reduceAdd] at hs1 hs2 hran2 hclose
    have hres : resolve s k = if k = "merge" then some .rommerge
        else if k = "size" then some .romsize else none := by
      unfold resolve
      rw [hn, identify_spec_rom_field _
        ((tags_ok_congr s.level _ (by rw [opened_level_ne _ _ _ _ (by omega)])
          (by rw [opened_level_ne _ _ _ _ (by omega)])).mpr ht)
        (by rw [opened_level_ne _ _ _ _ (by omega)]; exact h2)]
      rw [← hn, opened_level_eq]
    have hdata : (s2.level 3).data.getD "" = c.direct_text := by
      rw [hran2.data (by decide), hlev1, ← hn, opened_level_eq, attribute_content_direct_text]
      simp
    have hrom3 : (s3.rom_size, s3.rom_merge)
        = rom_field (s.rom_size, s.rom_merge) (k, c.direct_text) := by
      by_cases hkm : k = "merge"
      · rw [hres, if_pos hkm] at hopen hclose
        simp only [] at hopen hclose
        obtain ⟨sa, sb, hca, hcb, h3⟩ := hclose
        subst h3
        have e1 := hopen.rom_same (by simp) (by simp) (by simp)
        have e2 := hran2.rom (by omega)
        have e3 := hca.rommerge rfl rfl
        have e4 := hcb.rom_same (by simp) (by simp) (by simp)
        show (sb.rom_size, sb.rom_merge) = _
        rw [e4.1, e4.2, e3.1, e3.2, e2.1, e1.1]
        simp [rom_field, hkm, opened]
      · by_cases hkz : k = "size"
        · rw [hres, if_neg hkm, if_pos hkz] at hopen hclose
          simp only [] at hopen hclose
          obtain ⟨sa, sb, hca, hcb, h3⟩ := hclose
          subst h3
          have e1 := hopen.rom_same (by simp) (by simp) (by simp)
          have e2 := hran2.rom (by omega)
          have e3 := hca.romsize rfl rfl
          have e4 := hcb.rom_same (by simp) (by simp) (by simp)
          show (sb.rom_size, sb.rom_merge) = _
          rw [e4.1, e4.2, e3.1, e3.2, e2.2, e1.2, hdata]
          simp [rom_field, hkm, hkz, opened]
        · rw [hres, if_neg hkm, if_neg hkz] at hopen hclose
          simp only [] at hopen hclose
          subst hclose
          have e2 := hran2.rom (by omega)
          show (s2.rom_size, s2.rom_merge) = _
          rw [e2.1, e2.2, hopen]
          simp [rom_field, hkm, hkz, opened]
    obtain ⟨s4, hrun4, hs4, hran4, hrom4⟩ := ih s3 hs3
      ((tags_ok_congr _ _ (hran3.tag_le 0 (by omega)) (hran3.tag_le 1 (by omega))).mpr ht)
      (by rw [hran3.tag]; exact h2)
    refine ⟨s4, ?_, hs4, ?_, ?_⟩
    · rw [run_elem_attrs always s k a c rest hs.error, run_elem_rest, hrun3]
      exact hrun4
    · have := hran3.trans hran4
      simpa [content.direct_text] using this
    · rw [hrom4, hrom3]
      simp [content.fields]

/-- The content of a game element: each rom element directly inside adds `rom_value` to
the size of the record in progress, nothing else changes that size. -/
theorem game_body_run (f : content) :
    ∀ s, Safe s 1 → tags_ok s.level →
      ∃ s1, run always s f.events = .ok s1 ∧ Safe s1 1 ∧ Ran 1 f.direct_text s s1
        ∧ s1.g.map (fun g => g.size) = s.g.map (fun g => g.size + rom_total f) := by
  induction f with
  | nil => intro s hs _; exact ⟨s, rfl, hs, Ran.refl 1 s, by simp [rom_total]⟩
  | text txt rest ih =>
    intro s hs ht
    obtain ⟨s1, hdh, hs1, hran1, hg, -, -⟩ := text_safe txt 1 s hs
    obtain ⟨s2, hrun2, hs2, hran2, hsize2⟩ := ih s1 hs1
      ((tags_ok_congr _ _ (hran1.tag_le 0 (by omega)) (hran1.tag_le 1 (by omega))).mpr ht)
    refine ⟨s2, ?_, hs2, hran1.trans hran2, ?_⟩
    · rw [run_text, hdh]; exact hrun2
    · rw [hsize2, hg]; rfl
  | elem k a c rest _ ih =>
    intro s hs ht
    have hdep := hs.depth
    have hn : (s.depth + 1).toNat = 2 := by omega
    obtain ⟨s1, s2, s3, hopen, hlev1, hs1, hrun2, hs2, hran2, hclose, hrun3, hs3, hran3⟩ :=
      elem_safe k (attribute_content a c) 1 s hs (by decide) (run_safe _ 2)
    simp only [Nat.reduceAdd] at hs1 hs2 hran2 hclose
    have hto : tags_ok (opened s k none).level :=
      (tags_ok_congr s.level _ (by rw [opened_level_ne _ _ _ _ (by omega)])
        (by rw [opened_level_ne _ _ _ _ (by omega)])).mpr ht
    have hsize3 : s3.g.map (fun g => g.size)
        = s.g.map (fun g => g.size + (if k = "rom" then rom_value a c else 0)) := by
      by_cases hk : k = "rom"
      · have hres : resolve s k = some .rom := by
          unfold resolve
          rw [hn]
          exact identify_spec_rom _ hto (by rw [← hn, opened_level_eq]; exact hk)
        rw [hres] at hopen hclose hlev1
        simp only [] at hopen hclose
        obtain ⟨sa, sb, hca, hcb, h3⟩ := hclose
        subst h3
        have ht1 : tags_ok s1.level := by
          rw [hlev1]
          exact (tags_ok_congr _ _ (opened_tag _ _ _ _ _) (opened_tag _ _ _ _ _)).mpr hto
        have h21 : (s1.level 2).tag = "rom" := by
          rw [hlev1, ← hn, opened_level_eq]; exact hk
        obtain ⟨s2', hrun2', -, -, hrom2⟩ := rom_fields_run (attribute_content a c) s1 hs1 ht1 h21
        have heq : s2' = s2 := Except.ok.inj (hrun2'.symm.trans hrun2)
        subst heq
        have e1 := hopen.rom_open rfl rfl
        rw [e1.1, e1.2, attribute_content_fields] at hrom2
        have e3 := hca.rom_same (by simp) (by simp) (by simp)
        have hz1 := hopen.size (by simp) (by simp)
        have hz2 := hran2.size (by omega)
        have hz3 := hca.size (by simp) (by simp)
        have hz4 := hcb.rom_close rfl rfl
        have hz : sa.g.map (fun g => g.size) = s.g.map (fun g => g.size) := by
          rw [hz3, hz2, hz1]; rfl
        have hval : ∀ z : Nat, (if sa.rom_merge = true then z else z + sa.rom_size)
            = z + rom_value a c := by
          intro z
          have h1 : sa.rom_size = ((a ++ c.fields).foldl rom_field (0, false)).1 := by
            rw [e3.1, ← hrom2]
          have h2 : sa.rom_merge = ((a ++ c.fields).foldl rom_field (0, false)).2 := by
            rw [e3.2, ← hrom2]
          unfold rom_value
          rw [← h1, ← h2]
          by_cases hmg : sa.rom_merge = true <;> simp [hmg]
        show sb.g.map (fun g => g.size) = _
        rw [hz4, if_pos hk]
        have : (fun g : game => if sa.rom_merge = true then g.size else g.size + sa.rom_size)
            = (fun z => z + rom_value a c) ∘ (fun g : game => g.size) := by
          funext g
          exact hval g.size
        rw [this, ← Option.map_map, hz, Option.map_map]
        rfl
      · rw [if_neg hk]
        simp only [Nat.add_zero]
        cases hr : resolve s k with
        | none =>
          rw [hr] at hopen hclose
          simp only [] at hopen hclose
          subst hclose
          show s2.g.map (fun g => g.size) = _
          rw [hran2.size (by omega), hopen]
          rfl
        | some p =>
          obtain ⟨-, -, -, hgame, -, -, -, -, hromtag⟩ := resolve_some s k p hr
          rw [hn] at hgame
          have hpg : p ≠ .game := fun h => by have := hgame.mp h; omega
          have hpr : p ≠ .rom := by
            intro h
            have := hromtag h
            rw [← hn, opened_level_eq] at this
            exact hk this
          rw [hr] at hopen hclose
          simp only [] at hopen hclose
          obtain ⟨sa, sb, hca, hcb, h3⟩ := hclose
          subst h3
          show sb.g.map (fun g => g.size) = _
          rw [hcb.size hpg (by simp [hpr]), hca.size hpg (by simp), hran2.size (by omega),
            hopen.size hpg (by simp)]
          rfl
    obtain ⟨s4, hrun4, hs4, hran4, hsize4⟩ := ih s3 hs3
      ((tags_ok_congr _ _ (hran3.tag_le 0 (by omega)) (hran3.tag_le 1 (by omega))).mpr ht)
    refine ⟨s4, ?_, hs4, ?_, ?_⟩
    · rw [run_elem_attrs always s k a c rest hs.error, run_elem_rest, hrun3]
      exact hrun4
    · have := hran3.trans hran4
      simpa [content.direct_text] using this
    · have : (fun g : game => g.size + rom_total rest)
          = (fun z => z + rom_total rest) ∘ (fun g : game => g.size) := rfl
      rw [hsize4, this, ← Option.map_map, hsize3, Option.map_map]
      congr 1
      funext g
      simp [rom_total, Nat.add_assoc]

/-- C3: for a game element met at depth 0 under a root tag with no error latched, the
events of the element run without a fault and insert one record whose total size is the
size of a fresh record plus the sum, over the rom elements directly inside, of the size
each carries unless it carries a merge marker (`rom_total`); every rom open resets the
transient size to 0 and the merge flag to false; and rom elements of 100, 200 and 50
bytes with only the last marked merged add up to 300. -/
theorem rom_sizes_aggregate (s0 : state_t) (name : String) (attrs : List (String × String))
    (children : content) (hd : s0.depth = 0) (he : s0.error = 0)
    (hroot : (s0.level 0).tag = "mame" ∨ (s0.level 0).tag = "mess"
      ∨ (s0.level 0).tag = "raine")
    (hname : name = "game" ∨ name = "machine") :
    (∃ s3 r, run always s0 (content.elem name attrs children .nil).events = .ok s3
      ∧ s3.a = s0.a ++ [r] ∧ r.size = game.new.size + rom_total children)
    ∧ (∀ s : state_t, process_rom s .token_open ""
        = .ok { s with rom_merge := false, rom_size := 0 })
    ∧ rom_total three_roms = 300 := by
  refine ⟨?_, fun s => rfl, by decide⟩
  have hroot1 : is_mamemessraine (s0.level 0).tag = true := by
    rcases hroot with h | h | h <;> rw [h] <;> decide
  have hname1 : is_gamemachine name = true := by
    rcases hname with h | h <;> subst h <;> decide
  have hs0 : Safe s0 0 :=
    ⟨by rw [hd]; rfl, he, fun h => absurd h (by decide), fun h => absurd h (by decide)⟩
  obtain ⟨s1c, s1, s2, s3, r, hstartc, hg1c, hs1c, ht1c, -, hstart, -, -, hrunc, hrun2, -, hg2,
    hend, ha3, -, -, -, -, -⟩ := game_element s0 name attrs children hs0 hroot1 hname1
  obtain ⟨s2', hrun2', -, -, hsize⟩ := game_body_run (attribute_content attrs children) s1c hs1c ht1c
  have heq : s2' = s2 := Except.ok.inj (hrun2'.symm.trans hrunc)
  subst heq
  refine ⟨s3, r, ?_, ha3, ?_⟩
  · rw [run_elem, hstart]
    simp only []
    rw [hrun2]
    simp only []
    rw [hend]
    rfl
  · rw [hg2, hg1c, rom_total_attribute_content] at hsize
    simpa using hsize

/-! ## Instances -/

/-- Instance of `game_element_committed_once`: the document
`<mame><game name="pacman"><description>Pac-Man</description></game></mame>`. -/
theorem game_element_committed_once_witness :
    ("mame" = "mame" ∨ "mame" = "mess" ∨ "mame" = "raine")
    ∧ ("game" = "game" ∨ "game" = "machine")
    ∧ ∃ s0 s1c s1 s2 s3 s4 r,
      run always (load_xml_state ⟨"arcade"⟩ [] sample_level 0 false)
          (.start "mame" [] :: content.nil.events) = .ok s0
      ∧ start_handler always s0 "game" [] = .ok s1c
      ∧ s1c.g = some { game.new with emu := some ⟨"arcade"⟩ }
      ∧ start_handler always s0 "game" [("name", "pacman")] = .ok s1 ∧ s1.a = s0.a
      ∧ s1.g.isSome = true
      ∧ run always s1 (content.elem "description" [] (.text "Pac-Man" .nil) .nil).events
          = .ok s2
      ∧ s2.a = s0.a ∧ s2.g = some r
      ∧ end_handler s2 "game" = .ok s3 ∧ s3.a = s0.a ++ [r] ∧ s3.g = none ∧ s3.error = 0
      ∧ run always s3 (content.nil.events ++ [.stop "mame"]) = .ok s4
      ∧ s3.a <+: s4.a ∧ s4.error = 0
      ∧ run always (load_xml_state ⟨"arcade"⟩ [] sample_level 0 false)
          (content.elem "mame" []
            (content.nil.append (.elem "game" [("name", "pacman")]
              (content.elem "description" [] (.text "Pac-Man" .nil) .nil) .nil)) .nil).events
          = .ok s4 :=
  ⟨Or.inl rfl, Or.inl rfl,
    game_element_committed_once ⟨"arcade"⟩ [] sample_level 0 false "mame" "game" []
      [("name", "pacman")] .nil (.elem "description" [] (.text "Pac-Man" .nil) .nil) .nil
      (Or.inl rfl) (Or.inl rfl)⟩

/-- Instance of `rom_sizes_aggregate`: a game element with rom elements of 100, 200 and
50 bytes, the last marked merged, commits a record of size 300. -/
theorem rom_sizes_aggregate_witness :
    in_root_state.depth = 0 ∧ in_root_state.error = 0
    ∧ ((in_root_state.level 0).tag = "mame" ∨ (in_root_state.level 0).tag = "mess"
      ∨ (in_root_state.level 0).tag = "raine")
    ∧ ("game" = "game" ∨ "game" = "machine")
    ∧ ∃ s3 r, run always in_root_state
        (content.elem "game" [("name", "x")] three_roms .nil).events = .ok s3
      ∧ s3.a = [r] ∧ r.size = 300 := by
  obtain ⟨⟨s3, r, h1, h2, h3⟩, -, h300⟩ :=
    rom_sizes_aggregate in_root_state "game" [("name", "x")] three_roms rfl rfl
      (Or.inl rfl) (Or.inl rfl)
  exact ⟨rfl, rfl, Or.inl rfl, Or.inl rfl, s3, r, h1, h2, by rw [h3, h300]; rfl⟩

/-- Instance of `handlers_need_root_and_game`: the chain mame/game resolves to the first
entry of the table, and a document with the root `datafile` leaves an empty catalog. -/
theorem handlers_need_root_and_game_witness :
    identify 1 in_game_state.level = .ok (CONV_entries.head?)
    ∧ (((in_game_state.level 0).tag = "mame" ∨ (in_game_state.level 0).tag = "mess"
        ∨ (in_game_state.level 0).tag = "raine")
      ∧ ((in_game_state.level 1).tag = "game" ∨ (in_game_state.level 1).tag = "machine")
      ∧ 1 ≤ 1)
    ∧ "datafile" ≠ "mame" ∧ "datafile" ≠ "mess" ∧ "datafile" ≠ "raine"
    ∧ ∃ s1, run always (load_xml_state ⟨"arcade"⟩ [] sample_level 0 false)
          (content.elem "datafile" [("game", "x")]
            (.elem "game" [("name", "pacman")] .nil .nil) .nil).events = .ok s1
        ∧ s1.a = [] ∧ s1.error = 0 ∧ s1.g = none ∧ s1.m = none
        ∧ s1.rom_size = 0 ∧ s1.rom_merge = false ∧ s1.err = []
        ∧ s1.depth = -1 :=
  ⟨rfl, handlers_need_root_and_game.1 1 in_game_state.level _ rfl,
    by decide, by decide, by decide,
    handlers_need_root_and_game.2 ⟨"arcade"⟩ [] sample_level 0 false "datafile" [("game", "x")]
      (.elem "game" [("name", "pacman")] .nil .nil) (by decide) (by decide) (by decide)⟩

/-- Instance of `unmatched_element_is_inert`: an element `history` with two chunks of
text inside a game element. -/
theorem unmatched_element_is_inert_witness :
    in_game_state.error = 0 ∧ -1 ≤ in_game_state.depth
    ∧ (∀ c ∈ CONV_entries,
      entry_matches (in_game_state.depth + 1).toNat
        (opened in_game_state "history" none).level c = false)
    ∧ ∃ s1 s2 s3, start_handler always in_game_state "history" [] = .ok s1
      ∧ run always s1 (["a", "b"].map Event.data) = .ok s2
      ∧ end_handler s2 "history" = .ok s3
      ∧ same_records in_game_state s1 ∧ same_records in_game_state s2
      ∧ same_records in_game_state s3
      ∧ s3.depth = in_game_state.depth
      ∧ (in_game_state.depth + 1 < (DEPTH_MAX : Int) →
          (s1.level (in_game_state.depth + 1).toNat) = ⟨"history", none, none⟩
          ∧ (s2.level (in_game_state.depth + 1).toNat).tag = "history"
          ∧ (s2.level (in_game_state.depth + 1).toNat).process = none
          ∧ (s2.level (in_game_state.depth + 1).toNat).data.getD "" = join_chunks ["a", "b"]
          ∧ (s3.level (in_game_state.depth + 1).toNat).data = none) :=
  ⟨rfl, by decide, by decide,
    unmatched_element_is_inert in_game_state "history" ["a", "b"] rfl (by decide) (by decide)⟩

/-- Instance of `oversized_nesting_is_inert`: an element opened at depth 4, with an
attribute, text and a nested element. -/
theorem oversized_nesting_is_inert_witness :
    (DEPTH_MAX : Int) - 1 ≤ deep_state.depth
    ∧ run always deep_state
        (content.elem "extra" [("game", "x")] (.text "t" (.elem "game" [] .nil .nil)) .nil).events
      = .ok deep_state :=
  ⟨by decide, oversized_nesting_is_inert always deep_state "extra" [("game", "x")]
    (.text "t" (.elem "game" [] .nil .nil)) (by decide)⟩

/-! ## Attributes as child elements -/

/-- The events of the child elements that attributes stand for. -/
theorem attribute_content_nil_events (attrs : List (String × String)) :
    (attribute_content attrs .nil).events = attribute_events attrs := by
  induction attrs with
  | nil => rfl
  | cons kv more ih =>
    obtain ⟨k, v⟩ := kv
    simp [attribute_content, content.events, attribute_events, ih]

/-- C13: with no error latched, `start_handler` on an element with the attribute list
`[(k1,v1),...,(kn,vn)]` gives what `start_handler` on the element without attributes
gives, followed for each pair in order by `start_handler` on `ki` without attributes,
`data_handler` on `vi` and `end_handler` on `ki` (the same state, or the same fault); so the
events of an element with attributes are those of the element without attributes whose
content starts with one child element `<k>v</k>` per attribute. -/
theorem attributes_are_first_children (ro : Nat → Bool) (s : state_t) (name : String)
    (attrs : List (String × String)) (he : s.error = 0) :
    start_handler ro s name attrs
      = (match start_handler ro s name [] with
         | .error f => .error f
         | .ok s1 => run ro s1 (attribute_events attrs))
    ∧ (∀ (s1 : state_t) (k v : String) (more : List (String × String)),
        run ro s1 (attribute_events ((k, v) :: more))
          = (match start_handler ro s1 k [] with
             | .error f => .error f
             | .ok s2 =>
               match data_handler ro s2 v with
               | .error f => .error f
               | .ok s3 =>
                 match end_handler s3 k with
                 | .error f => .error f
                 | .ok s4 => run ro s4 (attribute_events more)))
    ∧ (∀ children rest : content,
        run ro s (content.elem name attrs children rest).events
          = run ro s (content.elem name [] (attribute_content attrs children) rest).events) := by
  refine ⟨?_, ?_, ?_⟩
  · rw [start_handler_attrs ro s name attrs he, attribute_content_nil_events]
  · intro s1 k v more
    simp only [attribute_events, run, feed]
  · intro children rest
    exact run_elem_attrs ro s name attrs children rest he

/-! ## Handlers without their record -/

/-- A processing function that needs a record and finds none calls `process_error` with a
null tag, which reads through the null pointer. -/
theorem invalid_state_null_deref (s : state_t) (txt : String) :
    (s.g = none →
      process_runnable s .token_data txt = .error .null_deref
      ∧ process_name s .token_data txt = .error .null_deref
      ∧ process_description s .token_data txt = .error .null_deref
      ∧ process_manufacturer s .token_data txt = .error .null_deref
      ∧ process_year s .token_data txt = .error .null_deref
      ∧ process_cloneof s .token_data txt = .error .null_deref
      ∧ process_romof s .token_data txt = .error .null_deref
      ∧ process_driverstatus s .token_data txt = .error .null_deref
      ∧ process_drivercolor s .token_data txt = .error .null_deref
      ∧ process_driversound s .token_data txt = .error .null_deref
      ∧ process_rom s .token_close txt = .error .null_deref
      ∧ process_device s .token_close txt = .error .null_deref
      ∧ process_videoscreen s .token_data txt = .error .null_deref
      ∧ process_videoorientation s .token_data txt = .error .null_deref
      ∧ process_videowidth s .token_data txt = .error .null_deref
      ∧ process_videoheight s .token_data txt = .error .null_deref
      ∧ process_videoaspectx s .token_data txt = .error .null_deref
      ∧ process_videoaspecty s .token_data txt = .error .null_deref)
    ∧ (s.m = none →
      process_device s .token_close txt = .error .null_deref
      ∧ process_devicename s .token_data txt = .error .null_deref
      ∧ process_deviceextensionname s .token_data txt = .error .null_deref) := by
  constructor
  · intro hg
    simp [process_runnable, process_name, process_description, process_manufacturer,
      process_year, process_cloneof, process_romof, process_driverstatus, process_drivercolor,
      process_driversound, process_rom, process_device, process_videoscreen,
      process_videoorientation, process_videowidth, process_videoheight, process_videoaspectx,
      process_videoaspecty, process_error, hg]
  · intro hm
    refine ⟨?_, ?_, ?_⟩
    · cases hg : s.g <;> simp [process_device, process_error, hg, hm]
    · simp [process_devicename, process_error, hm]
    · simp [process_deviceextensionname, process_error, hm]

/-- C15: in the state `load_xml` starts from, where no game record and no device record is
in progress, the name handler, the rom close, the device close, the device-name handler
and the device-extension handler do not report "invalid state" and latch the error flag:
each ends in the read through the null tag pointer of `process_error`; the same call with
the empty tag that `load_xml` passes does latch the flag and report the message. -/
theorem invalid_state_crashes :
    process_name sample_state .token_data "pacman" = .error .null_deref
    ∧ process_rom sample_state .token_close "" = .error .null_deref
    ∧ process_device sample_state .token_close "" = .error .null_deref
    ∧ process_devicename sample_state .token_data "cart" = .error .null_deref
    ∧ process_deviceextensionname sample_state .token_data "bin" = .error .null_deref
    ∧ process_error sample_state none "invalid state" = .error .null_deref
    ∧ process_error sample_state (some "") "invalid state"
        = .ok { sample_state with err := [(none, "invalid state")], error := 1 } :=
  ⟨rfl, rfl, rfl, rfl, rfl, rfl, rfl⟩

/-! ## Flags -/

/-- C17: with a record in progress, the data event of the runnable handler with the text
"no" sets the derived-resource flag, that of the video/screen handler with the text
"vector" the vector flag and that of the video/orientation handler with the text
"vertical" the vertical flag; with any text each of the three gives its own flag the value
of the comparison of the text with its word, and every other flag, every other field of
the record and the rest of the state stay as they were. -/
theorem flag_handlers_set_their_flag (s : state_t) (g : game) (txt : String) :
    process_runnable { s with g := some g } .token_data "no"
      = .ok { s with g := some { g with resource := true } }
    ∧ process_videoscreen { s with g := some g } .token_data "vector"
      = .ok { s with g := some { g with vector := true } }
    ∧ process_videoorientation { s with g := some g } .token_data "vertical"
      = .ok { s with g := some { g with vertical := true } }
    ∧ process_runnable { s with g := some g } .token_data txt
      = .ok { s with g := some { g with resource := decide (txt = "no") } }
    ∧ process_videoscreen { s with g := some g } .token_data txt
      = .ok { s with g := some { g with vector := decide (txt = "vector") } }
    ∧ process_videoorientation { s with g := some g } .token_data txt
      = .ok { s with g := some { g with vertical := decide (txt = "vertical") } } :=
  ⟨rfl, rfl, rfl, rfl, rfl, rfl⟩

/-! ## Decimal numbers -/

/-- The char of a decimal digit is the char with code 48 plus the digit. -/
theorem digitChar_toNat : ∀ m, m < 10 → (Nat.digitChar m).toNat = 48 + m := by
  decide

/-- The digits loop of `atoi` on one more digit char. -/
theorem atoi_digits_digit (m : Nat) (hm : m < 10) (cs : List Char) (acc : Nat) :
    atoi_digits (Nat.digitChar m :: cs) acc = atoi_digits cs (acc * 10 + m) := by
  have h := digitChar_toNat m hm
  simp only [atoi_digits, h]
  rw [if_pos (by omega)]
  congr 1
  omega

/-- The digits loop of `atoi` reads back the digits `Nat.toDigits` writes. -/
theorem atoi_digits_toDigitsCore :
    ∀ (fuel n : Nat) (ds : List Char) (acc : Nat), n < fuel →
      ∃ k, atoi_digits (Nat.toDigitsCore 10 fuel n ds) acc = atoi_digits ds (acc * 10 ^ k + n) := by
  intro fuel
  induction fuel with
  | zero => intro n ds acc h; exact absurd h (by omega)
  | succ fuel ih =>
    intro n ds acc h
    simp only [Nat.toDigitsCore]
    by_cases h0 : n / 10 = 0
    · rw [if_pos h0, atoi_digits_digit _ (Nat.mod_lt _ (by decide))]
      refine ⟨1, ?_⟩
      congr 1
      have : n % 10 = n := by omega
      omega
    · rw [if_neg h0]
      obtain ⟨k, hk⟩ := ih (n / 10) (Nat.digitChar (n % 10) :: ds) acc (by omega)
      rw [hk, atoi_digits_digit _ (Nat.mod_lt _ (by decide))]
      refine ⟨k + 1, ?_⟩
      congr 1
      rw [Nat.pow_succ]
      have := Nat.div_add_mod n 10
      nlinarith [Nat.div_add_mod n 10]

/-- The first char `Nat.toDigits` writes is a digit. -/
theorem toDigitsCore_head (fuel : Nat) :
    ∀ (n : Nat) (ds : List Char), n < fuel →
      ∃ m cs, m < 10 ∧ Nat.toDigitsCore 10 fuel n ds = Nat.digitChar m :: cs := by
  induction fuel with
  | zero => intro n ds h; exact absurd h (by omega)
  | succ fuel ih =>
    intro n ds h
    simp only [Nat.toDigitsCore]
    by_cases h0 : n / 10 = 0
    · rw [if_pos h0]
      exact ⟨n % 10, ds, Nat.mod_lt _ (by decide), rfl⟩
    · rw [if_neg h0]
      exact ih (n / 10) _ (by omega)

/-- The function `atoi` reads the decimal representation of a natural number back. -/
theorem atoi_repr (n : Nat) : atoi (Nat.repr n) = (n : Int) := by
  obtain ⟨m, cs, hm, hhead⟩ := toDigitsCore_head (n + 1) n [] (by omega)
  obtain ⟨k, hk⟩ := atoi_digits_toDigitsCore (n + 1) n [] 0 (by omega)
  have hc := digitChar_toNat m hm
  have hdata : (Nat.repr n).data = Nat.digitChar m :: cs := by
    simp only [Nat.repr, Nat.toDigits, List.asString]
    exact hhead
  have hsp : isspace (Nat.digitChar m) = false := by
    simp only [isspace, hc]
    have : ¬ (48 + m = 32) := by omega
    have h2 : ¬ (48 + m ≤ 13) := by omega
    simp [this, h2]
  unfold atoi
  rw [hdata, List.dropWhile_cons, hsp]
  simp only [Bool.false_eq_true, reduceIte]
  rw [if_neg (by rw [hc]; omega), if_neg (by rw [hc]; omega), ← hhead, hk]
  simp [atoi_digits]

/-- C20: for the decimal representation of an integer `n` with `0 <= n < 2^31`, the data
event of the rom/size handler stores `n` as the transient rom size, and, with a record in
progress, those of the video width, height, aspectx and aspecty handlers store `n` in the
width, the height, the aspect numerator and the aspect denominator of the record; nothing
else changes. -/
theorem decimal_text_is_stored (s : state_t) (g : game) (n : Nat) (hn : n < 2 ^ 31) :
    process_romsize s .token_data (Nat.repr n) = .ok { s with rom_size := n }
    ∧ process_videowidth { s with g := some g } .token_data (Nat.repr n)
      = .ok { s with g := some { g with sizex := (n : Int) } }
    ∧ process_videoheight { s with g := some g } .token_data (Nat.repr n)
      = .ok { s with g := some { g with sizey := (n : Int) } }
    ∧ process_videoaspectx { s with g := some g } .token_data (Nat.repr n)
      = .ok { s with g := some { g with aspectx := (n : Int) } }
    ∧ process_videoaspecty { s with g := some g } .token_data (Nat.repr n)
      = .ok { s with g := some { g with aspecty := (n : Int) } } := by
  have hu : to_unsigned (n : Int) = n := by
    unfold to_unsigned
    have h1 : ((n : Int) % 4294967296) = (n : Int) := by
      apply Int.emod_eq_of_lt <;> omega
    rw [h1]
    simp
  refine ⟨?_, ?_, ?_, ?_, ?_⟩
  · simp [process_romsize, atoi_repr, hu]
  · simp [process_videowidth, atoi_repr]
  · simp [process_videoheight, atoi_repr]
  · simp [process_videoaspectx, atoi_repr]
  · simp [process_videoaspecty, atoi_repr]

/-- Instance of `decimal_text_is_stored`: the text "16384". -/
theorem decimal_text_is_stored_witness :
    16384 < 2 ^ 31
    ∧ process_romsize sample_state .token_data "16384"
      = .ok { sample_state with rom_size := 16384 }
    ∧ process_videowidth in_game_state .token_data "16384"
      = .ok { in_game_state with
          g := some { game.new with emu := some ⟨"arcade"⟩, sizex := 16384 } } := by
  have h := decimal_text_is_stored sample_state game.new 16384 (by decide)
  have h2 := decimal_text_is_stored in_game_state { game.new with emu := some ⟨"arcade"⟩ } 16384
    (by decide)
  refine ⟨by decide, ?_, ?_⟩
  · have e : Nat.repr 16384 = "16384" := by decide
    rw [e] at h
    exact h.1
  · have e : Nat.repr 16384 = "16384" := by decide
    rw [e] at h2
    exact h2.2.1

/-! ## With the error flag set -/

/-- With the error flag set, `start_handler` fills in the new level, when it is within
the bound, with no processing function, and calls nothing. -/
theorem start_handler_errored (ro : Nat → Bool) (s : state_t) (name : String)
    (attrs : List (String × String)) (he : s.error ≠ 0) (h0 : -1 ≤ s.depth) :
    start_handler ro s name attrs
      = .ok (if s.depth + 1 < (DEPTH_MAX : Int) then opened s name none
             else { s with depth := s.depth + 1 }) := by
  by_cases h5 : s.depth + 1 < (DEPTH_MAX : Int)
  · have hn : ¬ (s.depth + 1 < 0) := by omega
    unfold start_handler start_handler_body
    simp only [h5, hn, reduceIte, state_t.set_level, he, ite_ite_same]
    rfl
  · rw [if_neg h5]
    exact start_handler_deep ro s name attrs (by omega)

/-- With the error flag set, `data_handler` does nothing. -/
theorem data_handler_errored (ro : Nat → Bool) (s : state_t) (txt : String)
    (he : s.error ≠ 0) : data_handler ro s txt = .ok s := by
  unfold data_handler
  by_cases h5 : s.depth < (DEPTH_MAX : Int) <;> simp [h5, he]

/-- With the error flag set, `end_handler` releases the data of the level, when it is
within the bound, and calls nothing. -/
theorem end_handler_errored (s : state_t) (name : String) (he : s.error ≠ 0)
    (h0 : 0 ≤ s.depth) :
    end_handler s name
      = .ok (if s.depth < (DEPTH_MAX : Int) then closed s else { s with depth := s.depth - 1 }) := by
  by_cases h5 : s.depth < (DEPTH_MAX : Int)
  · have hn : ¬ (s.depth < 0) := by omega
    unfold end_handler
    simp only [h5, hn, reduceIte, he, h0, and_self, state_t.set_level, closed]
  · rw [if_neg h5]
    exact end_handler_deep s name (by omega)

/-- The handler `start_handler` returns only from a depth of at least -1. -/
theorem start_handler_range (ro : Nat → Bool) (s s1 : state_t) (name : String)
    (attrs : List (String × String)) (h : start_handler ro s name attrs = .ok s1) :
    -1 ≤ s.depth := by
  by_contra hlt
  have h5 : s.depth + 1 < (DEPTH_MAX : Int) := by have : (DEPTH_MAX : Int) = 5 := rfl; omega
  have hn : s.depth + 1 < 0 := by omega
  unfold start_handler start_handler_body at h
  simp only [h5, hn, reduceIte] at h
  exact absurd h (by simp)

/-- The handler `end_handler` returns only from a depth of at least 0. -/
theorem end_handler_range (s s1 : state_t) (name : String) (h : end_handler s name = .ok s1) :
    0 ≤ s.depth := by
  by_contra hlt
  have h5 : s.depth < (DEPTH_MAX : Int) := by have : (DEPTH_MAX : Int) = 5 := rfl; omega
  have hn : s.depth < 0 := by omega
  unfold end_handler at h
  simp only [h5, hn, reduceIte] at h
  exact absurd h (by simp)

/-- An event met with the error flag set changes no record, no rom state, no catalog and
not the flag. -/
theorem feed_errored (ro : Nat → Bool) (s s1 : state_t) (ev : Event) (he : s.error ≠ 0)
    (h : feed ro s ev = .ok s1) : same_records s s1 ∧ s1.e = s.e := by
  cases ev with
  | start name attrs =>
    have h0 := start_handler_range ro s s1 name attrs h
    simp only [feed] at h
    rw [start_handler_errored ro s name attrs he h0] at h
    have := Except.ok.inj h
    subst this
    by_cases h5 : s.depth + 1 < (DEPTH_MAX : Int) <;> simp [h5, same_records, opened]
  | data txt =>
    simp only [feed] at h
    rw [data_handler_errored ro s txt he] at h
    have := Except.ok.inj h
    subst this
    exact ⟨⟨rfl, rfl, rfl, rfl, rfl, rfl, rfl⟩, rfl⟩
  | stop name =>
    have h0 := end_handler_range s s1 name h
    simp only [feed] at h
    rw [end_handler_errored s name he h0] at h
    have := Except.ok.inj h
    subst this
    by_cases h5 : s.depth < (DEPTH_MAX : Int) <;> simp [h5, same_records, closed]

/-- Events met with the error flag set change no record, no rom state, no catalog and
not the flag. -/
theorem run_errored (ro : Nat → Bool) (evs : List Event) :
    ∀ (s s1 : state_t), s.error ≠ 0 → run ro s evs = .ok s1 → same_records s s1 := by
  induction evs with
  | nil =>
    intro s s1 _ h
    have := Except.ok.inj h
    subst this
    exact ⟨rfl, rfl, rfl, rfl, rfl, rfl, rfl⟩
  | cons ev rest ih =>
    intro s s1 he h
    simp only [run] at h
    cases hf : feed ro s ev with
    | error f => rw [hf] at h; exact absurd h (by simp)
    | ok s2 =>
      rw [hf] at h
      obtain ⟨⟨a1, a2, a3, a4, a5, a6, a7⟩, -⟩ := feed_errored ro s s2 ev he hf
      obtain ⟨b1, b2, b3, b4, b5, b6, b7⟩ := ih s2 s1 (by rw [a5]; exact he) h
      exact ⟨b1.trans a1, b2.trans a2, b3.trans a3, b4.trans a4, b5.trans a5, b6.trans a6,
        b7.trans a7⟩

/-- C14: in a state with the error flag set (and a depth of at least -1 for an open, at
least 0 for a close, as in every parse), an open with any attributes, character data and
a close return and leave the flag, the record in progress, the device, the rom state, the
catalog and the error output as they were; and whatever sequence of events follows such
a state, a state it returns has them unchanged too: the flag is sticky and what was in
progress is never inserted. -/
theorem error_flag_suppresses_handlers (ro : Nat → Bool) (s : state_t) (he : s.error ≠ 0) :
    (∀ (name : String) (attrs : List (String × String)), -1 ≤ s.depth →
      ∃ s1, start_handler ro s name attrs = .ok s1 ∧ same_records s s1)
    ∧ (∀ txt : String, data_handler ro s txt = .ok s)
    ∧ (∀ name : String, 0 ≤ s.depth →
      ∃ s1, end_handler s name = .ok s1 ∧ same_records s s1)
    ∧ (∀ (evs : List Event) (s1 : state_t), run ro s evs = .ok s1 →
      s1.error = s.error ∧ s1.g = s.g ∧ s1.m = s.m ∧ s1.rom_size = s.rom_size
      ∧ s1.rom_merge = s.rom_merge ∧ s1.a = s.a) := by
  refine ⟨?_, ?_, ?_, ?_⟩
  · intro name attrs h0
    have h := start_handler_errored ro s name attrs he h0
    exact ⟨_, h, (feed_errored ro s _ (.start name attrs) he h).1⟩
  · intro txt
    exact data_handler_errored ro s txt he
  · intro name h0
    have h := end_handler_errored s name he h0
    exact ⟨_, h, (feed_errored ro s _ (.stop name) he h).1⟩
  · intro evs s1 h
    obtain ⟨b1, b2, b3, b4, b5, b6, -⟩ := run_errored ro evs s s1 he h
    exact ⟨b5, b1, b2, b3, b4, b6⟩

/-- Instance of `error_flag_suppresses_handlers`: inside a game element with the flag
set, the events of a rom element and the close of the game element change nothing. -/
theorem error_flag_suppresses_handlers_witness :
    errored_state.error ≠ 0 ∧ -1 ≤ errored_state.depth ∧ 0 ≤ errored_state.depth
    ∧ (∃ s1, start_handler always errored_state "rom" [("size", "5")] = .ok s1
        ∧ same_records errored_state s1)
    ∧ data_handler always errored_state "text" = .ok errored_state
    ∧ (∃ s1, end_handler errored_state "game" = .ok s1 ∧ same_records errored_state s1)
    ∧ (∃ s1, run always errored_state
          [.start "rom" [("size", "5")], .stop "rom", .stop "game"] = .ok s1
        ∧ s1.error = errored_state.error ∧ s1.g = errored_state.g
        ∧ s1.m = errored_state.m ∧ s1.rom_size = errored_state.rom_size
        ∧ s1.rom_merge = errored_state.rom_merge ∧ s1.a = errored_state.a) := by
  have h := error_flag_suppresses_handlers always errored_state (by decide)
  obtain ⟨s1, hrun⟩ : ∃ s1, run always errored_state
      [.start "rom" [("size", "5")], .stop "rom", .stop "game"] = .ok s1 := ⟨_, rfl⟩
  exact ⟨by decide, by decide, by decide, h.1 "rom" [("size", "5")] (by decide), h.2.1 "text",
    h.2.2.1 "game" (by decide), s1, hrun, h.2.2.2 _ s1 hrun⟩

/-! ## The depth counter -/

/-- A run over one more event. -/
theorem run_cons_ok (ro : Nat → Bool) (s s1 : state_t) (ev : Event) (rest : List Event)
    (h : run ro s (ev :: rest) = .ok s1) :
    ∃ s2, feed ro s ev = .ok s2 ∧ run ro s2 rest = .ok s1 := by
  simp only [run] at h
  cases hf : feed ro s ev with
  | error f => rw [hf] at h; exact absurd h (by simp)
  | ok s2 => rw [hf] at h; exact ⟨s2, rfl, h⟩

/-- Whenever `data_handler` returns, the depth is unchanged. -/
theorem data_handler_depth (ro : Nat → Bool) (s s1 : state_t) (txt : String)
    (h : data_handler ro s txt = .ok s1) : s1.depth = s.depth := by
  unfold data_handler at h
  split at h
  · split at h
    · split at h
      · exact absurd h (by simp)
      · simp only [] at h
        split at h
        · rw [← Except.ok.inj h]; rfl
        · simp only [process_error] at h
          rw [← Except.ok.inj h]; rfl
    · rw [← Except.ok.inj h]
  · rw [← Except.ok.inj h]

/-- Whenever `end_handler` returns, the depth is one less. -/
theorem end_handler_depth (s s1 : state_t) (name : String)
    (h : end_handler s name = .ok s1) : s1.depth = s.depth - 1 := by
  have h0 := end_handler_range s s1 name h
  by_cases h5 : s.depth < (DEPTH_MAX : Int)
  · by_cases he : s.error = 0
    · rw [end_handler_close s name he h0 h5] at h
      split at h
      · rw [← Except.ok.inj h]; rfl
      · split at h
        · exact absurd h (by simp)
        · rename_i sa hca
          split at h
          · exact absurd h (by simp)
          · rename_i sb hcb
            rw [← Except.ok.inj h]
            simp only [closed]
            rw [(call_stack _ _ _ _ _ hcb).1, (call_stack _ _ _ _ _ hca).1]
    · rw [end_handler_errored s name he h0, if_pos h5] at h
      rw [← Except.ok.inj h]; rfl
  · rw [end_handler_deep s name (by omega)] at h
    rw [← Except.ok.inj h]

/-- The handler `start_handler` on an element without attributes does not ask the
allocator. -/
theorem start_handler_nil_any (ro ro1 : Nat → Bool) (s : state_t) (name : String) :
    start_handler ro s name [] = start_handler ro1 s name [] := by
  unfold start_handler start_handler_body
  simp only [attribute_loop]

/-- Whenever `start_handler` on an element without attributes returns, the depth is one
more. -/
theorem start_handler_nil_depth (ro : Nat → Bool) (s s1 : state_t) (name : String)
    (h : start_handler ro s name [] = .ok s1) : s1.depth = s.depth + 1 := by
  have h0 := start_handler_range ro s s1 name [] h
  by_cases h5 : s.depth + 1 < (DEPTH_MAX : Int)
  · by_cases he : s.error = 0
    · rw [start_handler_open ro s name he h0 h5] at h
      split at h
      · rw [(call_stack _ _ _ _ _ h).1]; rfl
      · rw [← Except.ok.inj h]; rfl
    · rw [start_handler_errored ro s name [] he h0, if_pos h5] at h
      rw [← Except.ok.inj h]; rfl
  · rw [start_handler_deep ro s name [] (by omega)] at h
    rw [← Except.ok.inj h]

/-- Whenever the events made up for attributes return, the depth is unchanged. -/
theorem attribute_events_depth (ro : Nat → Bool) (attrs : List (String × String)) :
    ∀ (s s1 : state_t), run ro s (attribute_events attrs) = .ok s1 → s1.depth = s.depth := by
  induction attrs with
  | nil => intro s s1 h; rw [← Except.ok.inj h]
  | cons kv more ih =>
    intro s s1 h
    obtain ⟨k, v⟩ := kv
    simp only [attribute_events] at h
    obtain ⟨s2, h2, hr2⟩ := run_cons_ok ro s s1 _ _ h
    obtain ⟨s3, h3, hr3⟩ := run_cons_ok ro s2 s1 _ _ hr2
    obtain ⟨s4, h4, hr4⟩ := run_cons_ok ro s3 s1 _ _ hr3
    have d2 := start_handler_nil_depth ro s s2 k h2
    have d3 := data_handler_depth ro s2 s3 v h3
    have d4 := end_handler_depth s3 s4 k h4
    rw [ih s4 s1 hr4, d4, d3, d2]
    omega

/-- Whenever `start_handler` returns, the depth is one more. -/
theorem start_handler_depth (ro : Nat → Bool) (s s1 : state_t) (name : String)
    (attrs : List (String × String)) (h : start_handler ro s name attrs = .ok s1) :
    s1.depth = s.depth + 1 := by
  have h0 := start_handler_range ro s s1 name attrs h
  by_cases he : s.error = 0
  · rw [start_handler_attrs ro s name attrs he, attribute_content_nil_events] at h
    cases h1 : start_handler ro s name [] with
    | error f => rw [h1] at h; exact absurd h (by simp)
    | ok s2 =>
      rw [h1] at h
      rw [attribute_events_depth ro attrs s2 s1 h, start_handler_nil_depth ro s s2 name h1]
  · rw [start_handler_errored ro s name attrs he h0] at h
    rw [← Except.ok.inj h]
    by_cases h5 : s.depth + 1 < (DEPTH_MAX : Int) <;> simp [h5, opened]

/-- An event that returns from a depth of at least -1 leaves a depth of at least -1. -/
theorem feed_depth_ge (ro : Nat → Bool) (s s1 : state_t) (ev : Event)
    (h : feed ro s ev = .ok s1) (h0 : -1 ≤ s.depth) : -1 ≤ s1.depth := by
  cases ev with
  | start name attrs => rw [start_handler_depth ro s s1 name attrs h]; omega
  | data txt => rw [data_handler_depth ro s s1 txt h]; exact h0
  | stop name =>
    have := end_handler_range s s1 name h
    rw [end_handler_depth s s1 name h]; omega

/-- Events that return from a depth of at least -1 leave a depth of at least -1. -/
theorem run_depth_ge (ro : Nat → Bool) (evs : List Event) :
    ∀ (s s1 : state_t), run ro s evs = .ok s1 → -1 ≤ s.depth → -1 ≤ s1.depth := by
  induction evs with
  | nil => intro s s1 h h0; rw [← Except.ok.inj h]; exact h0
  | cons ev rest ih =>
    intro s s1 h h0
    obtain ⟨s2, h2, hr2⟩ := run_cons_ok ro s s1 ev rest h
    exact ih s2 s1 hr2 (feed_depth_ge ro s s2 ev h2 h0)

/-! ## Any allocator -/

/-- Character data, with any allocator, next to the same with an allocator that never
fails. -/
theorem follow_data (ro : Nat → Bool) (sa sa1 sr : state_t) (txt : String)
    (h : data_handler always sa txt = .ok sa1) (hf : Follows sa sr) :
    ∃ sr1, data_handler ro sr txt = .ok sr1 ∧ Follows sa1 sr1 := by
  have hda := data_handler_depth always sa sa1 txt h
  by_cases her : sr.error = 0
  · have := hf.2 her
    subst this
    by_cases h5 : sr.depth < (DEPTH_MAX : Int)
    · by_cases hn : sr.depth < 0
      · unfold data_handler at h
        simp only [h5, hn, her, reduceIte] at h
        exact absurd h (by simp)
      · by_cases hro : ro ((sr.level sr.depth.toNat).len + txt.utf8ByteSize) = true
        · refine ⟨sa1, ?_, rfl, fun _ => rfl⟩
          rw [← h]
          unfold data_handler
          simp only [h5, hn, her, reduceIte, hro, always]
        · have hx : data_handler ro sr txt
              = process_error
                  (sr.set_level sr.depth.toNat { sr.level sr.depth.toNat with data := none })
                  (some (sr.level sr.depth.toNat).tag) "low memory" := by
            unfold data_handler
            simp only [h5, hn, her, reduceIte, hro]
            rfl
          simp only [process_error] at hx
          exact ⟨_, hx, by rw [hda]; rfl, fun h1 => absurd h1 (by simp)⟩
    · refine ⟨sr, data_handler_deep ro sr txt (by omega), ?_⟩
      rw [data_handler_deep always sr txt (by omega)] at h
      rw [← Except.ok.inj h]
      exact ⟨rfl, fun _ => rfl⟩
  · exact ⟨sr, data_handler_errored ro sr txt her, by rw [hda]; exact hf.1,
      fun h1 => absurd h1 her⟩

/-- A close, with any allocator, next to the same with an allocator that never fails. -/
theorem follow_stop (sa sa1 sr : state_t) (name : String)
    (h : end_handler sa name = .ok sa1) (hf : Follows sa sr) :
    ∃ sr1, end_handler sr name = .ok sr1 ∧ Follows sa1 sr1 := by
  by_cases her : sr.error = 0
  · have := hf.2 her
    subst this
    exact ⟨sa1, h, rfl, fun _ => rfl⟩
  · have h0 := end_handler_range sa sa1 name h
    have hd := end_handler_depth sa sa1 name h
    have hr := end_handler_errored sr name her (by rw [hf.1]; exact h0)
    refine ⟨_, hr, ?_, ?_⟩
    · rw [end_handler_depth sr _ name hr, hd, hf.1]
    · intro h1
      exfalso
      by_cases h5 : sr.depth < (DEPTH_MAX : Int) <;> simp [h5, closed] at h1 <;> exact her h1

/-- An open with any attributes and the error flag set, next to the same open with no
error and an allocator that never fails. -/
theorem follow_start_errored (ro : Nat → Bool) (sa sa1 sr : state_t) (name : String)
    (attrs : List (String × String)) (h : start_handler always sa name attrs = .ok sa1)
    (hd : sr.depth = sa.depth) (her : sr.error ≠ 0) :
    ∃ sr1, start_handler ro sr name attrs = .ok sr1 ∧ Follows sa1 sr1 := by
  have h0 := start_handler_range always sa sa1 name attrs h
  have hda := start_handler_depth always sa sa1 name attrs h
  have hr := start_handler_errored ro sr name attrs her (by rw [hd]; exact h0)
  refine ⟨_, hr, ?_, ?_⟩
  · rw [start_handler_depth ro sr _ name attrs hr, hda, hd]
  · intro h1
    exfalso
    by_cases h5 : sr.depth + 1 < (DEPTH_MAX : Int) <;> simp [h5, opened] at h1 <;> exact her h1

/-- The events made up for attributes, with any allocator, next to the same with an
allocator that never fails. -/
theorem follow_attributes (ro : Nat → Bool) (attrs : List (String × String)) :
    ∀ (sa sa1 sr : state_t), run always sa (attribute_events attrs) = .ok sa1 → Follows sa sr →
      ∃ sr1, run ro sr (attribute_events attrs) = .ok sr1 ∧ Follows sa1 sr1 := by
  induction attrs with
  | nil =>
    intro sa sa1 sr h hf
    rw [← Except.ok.inj h]
    exact ⟨sr, rfl, hf⟩
  | cons kv more ih =>
    intro sa sa1 sr h hf
    obtain ⟨k, v⟩ := kv
    simp only [attribute_events] at h ⊢
    obtain ⟨s2, h2, hr2⟩ := run_cons_ok always sa sa1 _ _ h
    obtain ⟨s3, h3, hr3⟩ := run_cons_ok always s2 sa1 _ _ hr2
    obtain ⟨s4, h4, hr4⟩ := run_cons_ok always s3 sa1 _ _ hr3
    simp only [feed] at h2 h3 h4
    have hstart : ∃ r2, start_handler ro sr k [] = .ok r2 ∧ Follows s2 r2 := by
      by_cases her : sr.error = 0
      · have := hf.2 her
        subst this
        exact ⟨s2, by rw [start_handler_nil_any ro always]; exact h2, rfl, fun _ => rfl⟩
      · exact follow_start_errored ro sa s2 sr k [] h2 hf.1 her
    obtain ⟨r2, g2, f2⟩ := hstart
    obtain ⟨r3, g3, f3⟩ := follow_data ro s2 s3 r2 v h3 f2
    obtain ⟨r4, g4, f4⟩ := follow_stop s3 s4 r3 k h4 f3
    obtain ⟨r5, g5, f5⟩ := ih s4 sa1 r4 hr4 f4
    refine ⟨r5, ?_, f5⟩
    simp only [run, feed, g2, g3, g4]
    exact g5

/-- An event, with any allocator, next to the same with an allocator that never fails. -/
theorem follow_feed (ro : Nat → Bool) (sa sa1 sr : state_t) (ev : Event)
    (h : feed always sa ev = .ok sa1) (hf : Follows sa sr) :
    ∃ sr1, feed ro sr ev = .ok sr1 ∧ Follows sa1 sr1 := by
  cases ev with
  | data txt => exact follow_data ro sa sa1 sr txt h hf
  | stop name => exact follow_stop sa sa1 sr name h hf
  | start name attrs =>
    simp only [feed] at h ⊢
    by_cases her : sr.error = 0
    · have := hf.2 her
      subst this
      rw [start_handler_attrs always sr name attrs her, attribute_content_nil_events] at h
      rw [start_handler_attrs ro sr name attrs her, attribute_content_nil_events,
        start_handler_nil_any ro always]
      cases h1 : start_handler always sr name [] with
      | error f => rw [h1] at h; exact absurd h (by simp)
      | ok s2 =>
        rw [h1] at h
        exact follow_attributes ro attrs s2 sa1 s2 h ⟨rfl, fun _ => rfl⟩
    · exact follow_start_errored ro sa sa1 sr name attrs h hf.1 her

/-- Events that run without a fault with an allocator that never fails run without a
fault with any allocator, to the same depth, and to the same state unless an error is
latched. -/
theorem follow_run (ro : Nat → Bool) (evs : List Event) :
    ∀ (sa sa1 sr : state_t), run always sa evs = .ok sa1 → Follows sa sr →
      ∃ sr1, run ro sr evs = .ok sr1 ∧ Follows sa1 sr1 := by
  induction evs with
  | nil =>
    intro sa sa1 sr h hf
    rw [← Except.ok.inj h]
    exact ⟨sr, rfl, hf⟩
  | cons ev rest ih =>
    intro sa sa1 sr h hf
    obtain ⟨s2, h2, hr2⟩ := run_cons_ok always sa sa1 ev rest h
    obtain ⟨r2, g2, f2⟩ := follow_feed ro sa s2 sr ev h2 hf
    obtain ⟨r3, g3, f3⟩ := ih s2 sa1 r2 hr2 f2
    refine ⟨r3, ?_, f3⟩
    simp only [run, g2]
    exact g3

/-- C11: whenever `start_handler` (with any attributes, after the events it makes up for
them) returns, the depth is one more; whenever `data_handler` returns, the depth is
unchanged; whenever `end_handler` returns, the depth is one less: in every state. Past
the depth bound and with the error flag latched the three handlers do return (from the
depths a parse has: at least -1 for an open, at least 0 for a close). And from the state
`load_xml` starts with, with any allocator, the events of any document run without a
fault, end at depth -1, and after each prefix of them the depth is at least -1. -/
theorem depth_is_tracked (ro : Nat → Bool) :
    (∀ (s s1 : state_t) (name : String) (attrs : List (String × String)),
      start_handler ro s name attrs = .ok s1 → s1.depth = s.depth + 1)
    ∧ (∀ (s s1 : state_t) (txt : String),
      data_handler ro s txt = .ok s1 → s1.depth = s.depth)
    ∧ (∀ (s s1 : state_t) (name : String),
      end_handler s name = .ok s1 → s1.depth = s.depth - 1)
    ∧ (∀ (s : state_t) (name txt : String) (attrs : List (String × String)),
      ((DEPTH_MAX : Int) ≤ s.depth ∨ s.error ≠ 0) →
        (-1 ≤ s.depth → ∃ s1, start_handler ro s name attrs = .ok s1)
        ∧ data_handler ro s txt = .ok s
        ∧ (0 ≤ s.depth → ∃ s1, end_handler s name = .ok s1))
    ∧ (∀ (e : emulator) (gar : game_set) (level : Nat → level_t) (rom_size : Nat)
        (rom_merge : Bool) (root : String) (attrs : List (String × String))
        (children : content),
      ∃ s1, run ro (load_xml_state e gar level rom_size rom_merge)
          (content.elem root attrs children .nil).events = .ok s1
        ∧ s1.depth = -1
        ∧ ∀ pre suf : List Event, (content.elem root attrs children .nil).events = pre ++ suf →
            ∃ sp, run ro (load_xml_state e gar level rom_size rom_merge) pre = .ok sp
              ∧ -1 ≤ sp.depth) := by
  refine ⟨fun s s1 name attrs h => start_handler_depth ro s s1 name attrs h,
    fun s s1 txt h => data_handler_depth ro s s1 txt h,
    fun s s1 name h => end_handler_depth s s1 name h, ?_, ?_⟩
  · intro s name txt attrs hcase
    rcases hcase with hdeep | herr
    · exact ⟨fun _ => ⟨_, start_handler_deep ro s name attrs (by omega)⟩,
        data_handler_deep ro s txt hdeep, fun _ => ⟨_, end_handler_deep s name hdeep⟩⟩
    · exact ⟨fun h0 => ⟨_, start_handler_errored ro s name attrs herr h0⟩,
        data_handler_errored ro s txt herr, fun h0 => ⟨_, end_handler_errored s name herr h0⟩⟩
  · intro e gar level rom_size rom_merge root attrs children
    obtain ⟨s2, -, hs2, -, hrun⟩ := run_document (load_xml_state e gar level rom_size rom_merge)
      root attrs children rfl rfl
    obtain ⟨s1, hrun1, hf⟩ := follow_run ro _ _ _ _ hrun ⟨rfl, fun _ => rfl⟩
    refine ⟨s1, hrun1, ?_, ?_⟩
    · rw [hf.1]
      have := hs2.depth
      simp only [closed]
      omega
    · intro pre suf hsplit
      rw [hsplit, run_append] at hrun1
      cases hp : run ro (load_xml_state e gar level rom_size rom_merge) pre with
      | error f => rw [hp] at hrun1; exact absurd hrun1 (by simp)
      | ok sp => exact ⟨sp, rfl, run_depth_ge ro pre _ sp hp (le_of_eq rfl)⟩

/-- Instance of `depth_is_tracked`: handlers inside a game element with an allocator that
serves no request, handlers with the error flag set, and a whole document. -/
theorem depth_is_tracked_witness :
    (∃ s1, start_handler (fun _ => false) in_game_state "rom" [("size", "5")] = .ok s1
      ∧ s1.depth = in_game_state.depth + 1)
    ∧ (∃ s1, data_handler (fun _ => false) in_game_state "text" = .ok s1
      ∧ s1.depth = in_game_state.depth)
    ∧ (∃ s1, end_handler in_game_state "game" = .ok s1
      ∧ s1.depth = in_game_state.depth - 1)
    ∧ ((DEPTH_MAX : Int) ≤ errored_state.depth ∨ errored_state.error ≠ 0)
    ∧ -1 ≤ errored_state.depth ∧ 0 ≤ errored_state.depth
    ∧ (∃ s1, start_handler (fun _ => false) errored_state "rom" [("size", "5")] = .ok s1)
    ∧ data_handler (fun _ => false) errored_state "text" = .ok errored_state
    ∧ (∃ s1, end_handler errored_state "rom" = .ok s1)
    ∧ (∃ s1, run (fun _ => false) (load_xml_state ⟨"arcade"⟩ [] sample_level 0 false)
          (content.elem "mame" [("build", "0.1")]
            (.elem "game" [("name", "pacman")] (.text "text" .nil) .nil) .nil).events = .ok s1
        ∧ s1.depth = -1) := by
  have h := depth_is_tracked (fun _ => false)
  obtain ⟨a1, ha1⟩ : ∃ s1, start_handler (fun _ => false) in_game_state "rom"
    [("size", "5")] = .ok s1 := ⟨_, rfl⟩
  obtain ⟨a2, ha2⟩ : ∃ s1, data_handler (fun _ => false) in_game_state "text" = .ok s1 :=
    ⟨_, rfl⟩
  obtain ⟨a3, ha3⟩ : ∃ s1, end_handler in_game_state "game" = .ok s1 := ⟨_, rfl⟩
  obtain ⟨s1, h1, h2, -⟩ := h.2.2.2.2 ⟨"arcade"⟩ [] sample_level 0 false "mame"
    [("build", "0.1")] (.elem "game" [("name", "pacman")] (.text "text" .nil) .nil)
  have h3 := h.2.2.2.1 errored_state "rom" "text" [("size", "5")] (Or.inr (by decide))
  exact ⟨⟨a1, ha1, h.1 _ _ _ _ ha1⟩, ⟨a2, ha2, h.2.1 _ _ _ ha2⟩,
    ⟨a3, ha3, h.2.2.1 _ _ _ ha3⟩, Or.inr (by decide), by decide, by decide,
    h3.1 (by decide), h3.2.1, h3.2.2 (by decide), s1, h1, h2⟩

/-! ## The data an element collects -/

/-- An event that leaves no error latched met none. -/
theorem feed_error_back (ro : Nat → Bool) (s s1 : state_t) (ev : Event)
    (h : feed ro s ev = .ok s1) (he : s1.error = 0) : s.error = 0 := by
  by_contra hne
  have := (feed_errored ro s s1 ev hne h).1
  obtain ⟨-, -, -, -, h5, -⟩ := this
  exact hne (by rw [← h5]; exact he)

/-- Events that leave no error latched met none. -/
theorem run_error_back (ro : Nat → Bool) (evs : List Event) (s s1 : state_t)
    (h : run ro s evs = .ok s1) (he : s1.error = 0) : s.error = 0 := by
  by_contra hne
  obtain ⟨-, -, -, -, h5, -⟩ := run_errored ro evs s s1 hne h
  exact hne (by rw [← h5]; exact he)

/-- Well-nested content leaves the depth as it was. -/
theorem run_content_depth (ro : Nat → Bool) (f : content) :
    ∀ s s1 : state_t, run ro s f.events = .ok s1 → s1.depth = s.depth := by
  induction f with
  | nil => intro s s1 h; cases h; rfl
  | text txt rest ih =>
    intro s s1 h
    rw [run_text] at h
    cases hd : data_handler ro s txt with
    | error f => rw [hd] at h; exact absurd h (by simp)
    | ok sa =>
      rw [hd] at h
      rw [ih sa s1 h, data_handler_depth ro s sa txt hd]
  | elem name attrs children rest ihc ihr =>
    intro s s1 h
    rw [run_elem] at h
    cases h1 : start_handler ro s name attrs with
    | error f => rw [h1] at h; exact absurd h (by simp)
    | ok sa =>
      rw [h1] at h
      simp only at h
      cases h2 : run ro sa children.events with
      | error f => rw [h2] at h; exact absurd h (by simp)
      | ok sb =>
        rw [h2] at h
        simp only at h
        cases h3 : end_handler sb name with
        | error f => rw [h3] at h; exact absurd h (by simp)
        | ok sc =>
          rw [h3] at h
          simp only at h
          rw [ihr sc s1 h, end_handler_depth sb sc name h3, ihc sa sb h2,
            start_handler_depth ro s sa name attrs h1]
          omega

/-- Character data that leaves no error latched was appended to the data of the current
level. -/
theorem data_handler_clear (ro : Nat → Bool) (s s1 : state_t) (txt : String)
    (h : data_handler ro s txt = .ok s1) (he : s1.error = 0) (h0 : 0 ≤ s.depth)
    (h5 : s.depth < (DEPTH_MAX : Int)) :
    s1 = s.set_level s.depth.toNat
          { s.level s.depth.toNat with
            data := some ((s.level s.depth.toNat).data.getD "" ++ txt) } := by
  have hs : s.error = 0 := feed_error_back ro s s1 (.data txt) h he
  have hn : ¬ s.depth < 0 := by omega
  unfold data_handler at h
  simp only [h5, hs, hn, reduceIte] at h
  by_cases hro : ro ((s.level s.depth.toNat).len + txt.utf8ByteSize) = true
  · simp only [hro, reduceIte] at h
    cases h
    rfl
  · simp only [hro] at h
    simp only [process_error] at h
    cases h
    simp at he

/-- The open of an element without attributes leaves the levels up to the current one as
they were and fills the next one. -/
theorem start_handler_frame (ro : Nat → Bool) (s s1 : state_t) (name : String)
    (h : start_handler ro s name [] = .ok s1) (he : s.error = 0) (h0 : -1 ≤ s.depth) :
    (∀ j : Nat, (j : Int) ≤ s.depth → s1.level j = s.level j)
    ∧ (s.depth + 1 < (DEPTH_MAX : Int) →
        s1.level (s.depth + 1).toNat = ⟨name, none, resolve s name⟩) := by
  by_cases h5 : s.depth + 1 < (DEPTH_MAX : Int)
  · rw [start_handler_open ro s name he h0 h5] at h
    have hlev : s1.level = (opened s name (resolve s name)).level := by
      cases hr : resolve s name with
      | none => rw [hr] at h; cases h; rfl
      | some p =>
        rw [hr] at h
        exact (call_stack p .token_open "" _ s1 h).2.1
    rw [hlev]
    refine ⟨fun j hj => ?_, fun _ => ?_⟩
    · have : j ≠ (s.depth + 1).toNat := by omega
      simp [opened, this]
    · simp [opened]
  · have hD : (DEPTH_MAX : Int) = 5 := rfl
    rw [start_handler_deep ro s name [] (by omega)] at h
    cases h
    exact ⟨fun j _ => rfl, fun h => absurd h h5⟩

/-- The close of an element leaves the levels below it as they were. -/
theorem end_handler_frame (s s1 : state_t) (name : String)
    (h : end_handler s name = .ok s1) (he : s.error = 0) (h0 : 0 ≤ s.depth) :
    ∀ j : Nat, (j : Int) < s.depth → s1.level j = s.level j := by
  intro j hj
  by_cases h5 : s.depth < (DEPTH_MAX : Int)
  · rw [end_handler_close s name he h0 h5] at h
    cases hp : (s.level s.depth.toNat).process with
    | none =>
      rw [hp] at h
      cases h
      have : j ≠ s.depth.toNat := by omega
      simp [closed, this]
    | some p =>
      rw [hp] at h
      simp only at h
      cases ha : p.call s .token_data ((s.level s.depth.toNat).data.getD "") with
      | error f => rw [ha] at h; exact absurd h (by simp)
      | ok sa =>
        rw [ha] at h
        simp only at h
        cases hb : p.call sa .token_close "" with
        | error f => rw [hb] at h; exact absurd h (by simp)
        | ok sb =>
          rw [hb] at h
          cases h
          obtain ⟨ha1, ha2, -⟩ := call_stack p _ _ s sa ha
          obtain ⟨hb1, hb2, -⟩ := call_stack p _ _ sa sb hb
          have : j ≠ sb.depth.toNat := by omega
          simp [closed, this, hb2, ha2]
  · rw [end_handler_deep s name (by omega)] at h
    cases h
    rfl

/-- Step of `framed`: no content. -/
theorem framed_nil (ro : Nat → Bool) : Framed ro .nil := by
  intro s s1 h he h0 h5
  cases h
  exact ⟨he, rfl, fun _ _ => rfl, rfl, rfl, by simp [content.direct_text]⟩

/-- Step of `framed`: a chunk of character data. -/
theorem framed_text (ro : Nat → Bool) (txt : String) (rest : content) (ih : Framed ro rest) :
    Framed ro (.text txt rest) := by
  intro s s1 h he h0 h5
  rw [run_text] at h
  cases hd : data_handler ro s txt with
  | error f => rw [hd] at h; exact absurd h (by simp)
  | ok sa =>
    rw [hd] at h
    simp only at h
    have hdep := data_handler_depth ro s sa txt hd
    have hr := ih sa s1 h he (by omega) (by omega)
    have hsa := data_handler_clear ro s sa txt hd hr.error h0 h5
    have hs : s.error = 0 := feed_error_back ro s sa (.data txt) hd hr.error
    have hlev : sa.level s.depth.toNat = { s.level s.depth.toNat with
        data := some ((s.level s.depth.toNat).data.getD "" ++ txt) } := by
      rw [hsa]; simp [state_t.set_level]
    have hbel : ∀ j : Nat, (j : Int) < s.depth → sa.level j = s.level j := by
      intro j hj
      have : j ≠ s.depth.toNat := by omega
      rw [hsa]; simp [state_t.set_level, this]
    refine ⟨hs, by rw [hr.depth, hdep], fun j hj => ?_, ?_, ?_, ?_⟩
    · rw [hr.below j (by omega), hbel j hj]
    · have := hr.tag
      rw [hdep, hlev] at this
      exact this
    · have := hr.process
      rw [hdep, hlev] at this
      exact this
    · have := hr.data
      rw [hdep, hlev] at this
      rw [this]
      simp [content.direct_text, String.append_assoc]

/-- Step of `framed`: an element without attributes. -/
theorem framed_elem_nil (ro : Nat → Bool) (name : String) (body rest : content)
    (ihb : Framed ro body) (ihr : Framed ro rest) : Framed ro (.elem name [] body rest) := by
  intro s s1 h he h0 h5
  rw [run_elem] at h
  cases h1 : start_handler ro s name [] with
  | error f => rw [h1] at h; exact absurd h (by simp)
  | ok sa =>
    rw [h1] at h
    simp only at h
    cases h2 : run ro sa body.events with
    | error f => rw [h2] at h; exact absurd h (by simp)
    | ok sb =>
      rw [h2] at h
      simp only at h
      cases h3 : end_handler sb name with
      | error f => rw [h3] at h; exact absurd h (by simp)
      | ok sc =>
        rw [h3] at h
        simp only at h
        have da := start_handler_depth ro s sa name [] h1
        have db := run_content_depth ro body sa sb h2
        have dc := end_handler_depth sb sc name h3
        have hdc : sc.depth = s.depth := by omega
        have hr := ihr sc s1 h he (by omega) (by omega)
        have eb : sb.error = 0 := feed_error_back ro sb sc (.stop name) h3 hr.error
        have ea : sa.error = 0 := run_error_back ro _ sa sb h2 eb
        have es : s.error = 0 := feed_error_back ro s sa (.start name []) h1 ea
        have la := (start_handler_frame ro s sa name h1 es (by omega)).1
        have lc := end_handler_frame sb sc name h3 eb (by omega)
        have lb : ∀ j : Nat, (j : Int) ≤ s.depth → sb.level j = sa.level j := by
          intro j hj
          by_cases hd : sa.depth < (DEPTH_MAX : Int)
          · exact (ihb sa sb h2 eb (by omega) hd).below j (by omega)
          · rw [run_deep ro body sa (by omega)] at h2
            cases h2
            rfl
        have hall : ∀ j : Nat, (j : Int) ≤ s.depth → sc.level j = s.level j := by
          intro j hj
          rw [lc j (by omega), lb j hj, la j hj]
        have hcur := hall s.depth.toNat (by omega)
        refine ⟨es, by rw [hr.depth, hdc], fun j hj => ?_, ?_, ?_, ?_⟩
        · rw [hr.below j (by omega), hall j (by omega)]
        · have := hr.tag
          rw [hdc, hcur] at this
          exact this
        · have := hr.process
          rw [hdc, hcur] at this
          exact this
        · have := hr.data
          rw [hdc, hcur] at this
          rw [this]
          simp [content.direct_text]

/-- Step of `framed`: the child elements that stand for attributes. -/
theorem framed_attributes (ro : Nat → Bool) (attrs : List (String × String))
    (children : content) (ih : Framed ro children) :
    Framed ro (attribute_content attrs children) := by
  induction attrs with
  | nil => exact ih
  | cons kv more ihm =>
    obtain ⟨k, v⟩ := kv
    exact framed_elem_nil ro k _ _ (framed_text ro v .nil (framed_nil ro)) ihm

/-- Step of `framed`: an element. -/
theorem framed_elem (ro : Nat → Bool) (name : String) (attrs : List (String × String))
    (children rest : content) (ihc : Framed ro children) (ihr : Framed ro rest) :
    Framed ro (.elem name attrs children rest) := by
  intro s s1 h he h0 h5
  have es : s.error = 0 := run_error_back ro _ s s1 h he
  rw [run_elem_attrs ro s name attrs children rest es] at h
  have := framed_elem_nil ro name _ rest (framed_attributes ro attrs children ihc) ihr
    s s1 h he h0 h5
  simpa [content.direct_text] using this

/-- With any allocator, the events of well-nested content that run without a fault and
leave no error latched leave the depth, the levels below the current one and the tag and
processing function of the current level as they were, and append to the data of the
current level the character data met at that depth, in order. -/
theorem framed (ro : Nat → Bool) (f : content) : Framed ro f := by
  induction f with
  | nil => exact framed_nil ro
  | text txt rest ih => exact framed_text ro txt rest ih
  | elem name attrs children rest ihc ihr => exact framed_elem ro name attrs children rest ihc ihr

/-- C12: with any allocator, take an element within the depth bound: opened (with any
attributes) in any state, its content run, no error latched before its close, its level
bound to the processing function `p`. Then `p` is the function the table gave the element
at its open, the data of its level is the concatenation in order of the chunks of
character data met directly inside it (the empty text when there was none), and the close
is exactly: one call of `p` with the data token and that text, then one call of `p` with
the close token, then the release of the level. -/
theorem close_delivers_data (ro : Nat → Bool) (s s1 s2 : state_t) (name : String)
    (attrs : List (String × String)) (children : content) (p : process_t)
    (hopen : start_handler ro s name attrs = .ok s1)
    (hrun : run ro s1 children.events = .ok s2)
    (h0 : -1 ≤ s.depth) (h5 : s.depth + 1 < (DEPTH_MAX : Int))
    (he : s2.error = 0)
    (hp : (s2.level s2.depth.toNat).process = some p) :
    s2.depth = s.depth + 1
    ∧ resolve s name = some p
    ∧ (s2.level s2.depth.toNat).tag = name
    ∧ (s2.level s2.depth.toNat).data.getD "" = children.direct_text
    ∧ end_handler s2 name
        = (match p.call s2 .token_data children.direct_text with
           | .error f => .error f
           | .ok sa =>
             match p.call sa .token_close "" with
             | .error f => .error f
             | .ok sb => .ok (closed sb)) := by
  have e1 : s1.error = 0 := run_error_back ro _ s1 s2 hrun he
  have es : s.error = 0 := by
    have h : feed ro s (.start name attrs) = .ok s1 := hopen
    exact feed_error_back ro s s1 _ h e1
  rw [start_handler_attrs ro s name attrs es] at hopen
  cases h1 : start_handler ro s name [] with
  | error f => rw [h1] at hopen; exact absurd hopen (by simp)
  | ok sa =>
    rw [h1] at hopen
    simp only at hopen
    have da := start_handler_nil_depth ro s sa name h1
    have la := (start_handler_frame ro s sa name h1 es h0).2 h5
    have fa := framed ro (attribute_content attrs .nil) sa s1 hopen e1 (by omega) (by omega)
    have fc := framed ro children s1 s2 hrun he (by rw [fa.depth]; omega)
      (by rw [fa.depth]; omega)
    have d2 : s2.depth = s.depth + 1 := by rw [fc.depth, fa.depth, da]
    have htag := fc.tag
    have hproc := fc.process
    have hdata := fc.data
    rw [fa.depth] at htag hproc hdata
    rw [fa.tag] at htag
    rw [fa.process] at hproc
    rw [fa.data, attribute_content_direct_text] at hdata
    rw [da, la] at htag hproc hdata
    rw [← d2] at htag hproc hdata
    simp only [Option.getD_none, content.direct_text, String.append_empty] at hdata
    have hdata1 : (s2.level s2.depth.toNat).data.getD "" = children.direct_text := by
      rw [hdata]; simp
    rw [hp] at hproc
    refine ⟨d2, hproc.symm, htag, hdata1, ?_⟩
    rw [end_handler_close s2 name he (by omega) (by omega), hp, hdata1]

/-- Instance of `close_delivers_data`: a description element with an attribute, two
chunks of character data and a child element between them. -/
theorem close_delivers_data_witness :
    ∃ s1 s2 : state_t,
      start_handler always in_game_state "description" [("lang", "en")] = .ok s1
      ∧ run always s1 (content.text "Pac" (.elem "b" [] (.text "x" .nil)
          (.text "-Man" .nil))).events = .ok s2
      ∧ s2.error = 0
      ∧ (s2.level s2.depth.toNat).process = some .description
      ∧ s2.depth = 2
      ∧ (s2.level s2.depth.toNat).data.getD "" = "Pac-Man"
      ∧ end_handler s2 "description"
        = (match process_t.description.call s2 .token_data "Pac-Man" with
           | .error f => .error f
           | .ok sa =>
             match process_t.description.call sa .token_close "" with
             | .error f => .error f
             | .ok sb => .ok (closed sb)) := by
  refine ⟨_, _, rfl, rfl, rfl, rfl, ?_⟩
  have h := close_delivers_data always in_game_state _ _ "description" [("lang", "en")]
    (content.text "Pac" (.elem "b" [] (.text "x" .nil) (.text "-Man" .nil)))
    .description rfl rfl (by decide) (by decide) rfl rfl
  exact ⟨h.1, h.2.2.2.1, h.2.2.2.2⟩

/-- Instance of `attributes_are_first_children`: a game element with two attributes. -/
theorem attributes_are_first_children_witness :
    in_root_state.error = 0
    ∧ start_handler always in_root_state "game" [("name", "pacman"), ("year", "1980")]
      = (match start_handler always in_root_state "game" [] with
         | .error f => .error f
         | .ok s1 => run always s1 (attribute_events [("name", "pacman"), ("year", "1980")]))
    ∧ run always in_root_state (content.elem "game" [("name", "pacman"), ("year", "1980")]
          (.text "x" .nil) .nil).events
      = run always in_root_state (content.elem "game" []
          (attribute_content [("name", "pacman"), ("year", "1980")] (.text "x" .nil))
          .nil).events :=
  ⟨rfl,
   (attributes_are_first_children always in_root_state "game"
      [("name", "pacman"), ("year", "1980")] rfl).1,
   (attributes_are_first_children always in_root_state "game"
      [("name", "pacman"), ("year", "1980")] rfl).2.2 _ _⟩

/-! ## The merge marker of a rom -/

/-- Once set, the merge marker stays; a field named "merge" sets it whatever its text. -/
theorem rom_field_merge (fields : List (String × String)) :
    ∀ st : Nat × Bool, (st.2 = true ∨ ∃ txt, ("merge", txt) ∈ fields) →
      (fields.foldl rom_field st).2 = true := by
  induction fields with
  | nil =>
    intro st h
    rcases h with h | ⟨txt, h⟩
    · exact h
    · exact absurd h (by simp)
  | cons kv more ih =>
    intro st h
    rw [List.foldl_cons]
    apply ih
    by_cases hk : kv.1 = "merge"
    · left
      simp [rom_field, hk]
    · rcases h with h | ⟨txt, h⟩
      · left
        unfold rom_field
        rw [if_neg hk]
        by_cases hz : kv.1 = "size"
        · rw [if_pos hz]; exact h
        · rw [if_neg hz]; exact h
      · right
        rcases List.mem_cons.mp h with h | h
        · exact absurd (by rw [← h]) hk
        · exact ⟨txt, h⟩

/-- A rom element inside a game element: the open with its attributes and the content run
without a fault and leave the transient size and merge marker its fields give from size 0
and no marker; the close adds the transient size to the size of the record in progress
unless the marker is set. -/
theorem rom_element_run (s : state_t) (attrs : List (String × String)) (children : content)
    (hs : Safe s 1) (ht : tags_ok s.level) :
    ∃ sa sb s1, start_handler always s "rom" attrs = .ok sa
      ∧ run always sa children.events = .ok sb
      ∧ (sb.rom_size, sb.rom_merge) = (attrs ++ children.fields).foldl rom_field (0, false)
      ∧ end_handler sb "rom" = .ok s1
      ∧ s1.g.map (fun g => g.size)
          = s.g.map (fun g => if sb.rom_merge = true then g.size else g.size + sb.rom_size)
      ∧ s1.error = 0 ∧ s1.depth = 1 := by
  have hdep := hs.depth
  have hn : (s.depth + 1).toNat = 2 := by omega
  have hto : tags_ok (opened s "rom" none).level :=
    (tags_ok_congr s.level _ (by rw [opened_level_ne _ _ _ _ (by omega)])
      (by rw [opened_level_ne _ _ _ _ (by omega)])).mpr ht
  have hres : resolve s "rom" = some .rom := by
    unfold resolve
    rw [hn]
    exact identify_spec_rom _ hto (by rw [← hn, opened_level_eq])
  obtain ⟨s1c, hstartc, hs1c, hopen⟩ := open_safe "rom" 1 s hs (by decide)
  rw [hres] at hopen
  simp only [Nat.reduceAdd] at hs1c hopen
  have hlev1 : s1c.level = (opened s "rom" (some .rom)).level := hopen.level
  have ht1 : tags_ok s1c.level := by
    rw [hlev1]
    exact (tags_ok_congr _ _ (opened_tag _ _ _ _ _) (opened_tag _ _ _ _ _)).mpr hto
  have h21 : (s1c.level 2).tag = "rom" := by
    rw [hlev1, ← hn, opened_level_eq]
  have hp1 : (s1c.level 2).process = some .rom := by
    rw [hlev1, ← hn, opened_level_eq]
  obtain ⟨s2, hrun2, hs2, hran2, hrom2⟩ :=
    rom_fields_run (attribute_content attrs children) s1c hs1c ht1 h21
  have e1 := hopen.rom_open rfl rfl
  rw [e1.1, e1.2, attribute_content_fields] at hrom2
  rw [attribute_content_events, run_append] at hrun2
  cases hA : run always s1c (attribute_content attrs .nil).events with
  | error f => rw [hA] at hrun2; exact absurd hrun2 (by simp)
  | ok sa =>
    rw [hA] at hrun2
    simp only at hrun2
    have hp2 : (s2.level 2).process = some .rom := by rw [hran2.process, hp1]
    have ht2 : tags_ok s2.level :=
      (tags_ok_congr _ _ (hran2.tag_le 0 (by omega)) (hran2.tag_le 1 (by omega))).mpr ht1
    obtain ⟨s3, hend, hclose⟩ := close_safe "rom" 1 s2 hs2 (by decide)
      (fun p hp => ⟨ht2, fun hu => by
        simp only [Nat.reduceAdd] at hp
        rw [hp2] at hp
        cases hp
        exact absurd hu (by decide)⟩)
    simp only [Nat.reduceAdd] at hclose
    rw [hp2] at hclose
    simp only at hclose
    obtain ⟨sx, sy, -, hca, -, hcb, h3⟩ := hclose
    subst h3
    have e3 := hca.rom_same (by simp) (by simp) (by simp)
    have hz1 := hopen.size (by simp) (by simp)
    have hz2 := hran2.size (by omega)
    have hz3 := hca.size (by simp) (by simp)
    have hz4 := hcb.rom_close rfl rfl
    have hz : sx.g.map (fun g => g.size) = s.g.map (fun g => g.size) := by
      rw [hz3, hz2, hz1]; rfl
    refine ⟨sa, s2, closed sy, ?_, hrun2, hrom2, hend, ?_, ?_, ?_⟩
    · rw [start_handler_attrs always s "rom" attrs hs.error, hstartc]
      exact hA
    · show sy.g.map (fun g => g.size) = _
      rw [hz4, e3.1, e3.2]
      have : (fun g : game => if s2.rom_merge = true then g.size else g.size + s2.rom_size)
          = (fun z => if s2.rom_merge = true then z else z + s2.rom_size)
            ∘ (fun g : game => g.size) := rfl
      rw [this, ← Option.map_map, hz, Option.map_map]
    · show sy.error = 0
      rw [hcb.error, hca.error, hs2.error]
    · show sy.depth - 1 = 1
      rw [hcb.depth, hca.depth, hs2.depth]
      rfl

/-- C18: `process_rommerge` sets the transient merge flag on its data token whatever the
text; and for a rom element inside a game element (depth 1 under a root tag and a game
tag, a record in progress, no error latched) that has a field named "merge", as an
attribute or as a child element, with any text: the open and the content run without a
fault, the merge flag is set when the close comes, and the close leaves the size of the
record as it was before the rom element. -/
theorem merge_field_excludes_rom (s : state_t) (r : game) (attrs : List (String × String))
    (children : content) (txt : String)
    (hd : s.depth = 1) (he : s.error = 0)
    (hroot : (s.level 0).tag = "mame" ∨ (s.level 0).tag = "mess" ∨ (s.level 0).tag = "raine")
    (hgame : (s.level 1).tag = "game" ∨ (s.level 1).tag = "machine")
    (hg : s.g = some r)
    (hm : ("merge", txt) ∈ attrs ++ children.fields) :
    (∀ s0 : state_t, process_rommerge s0 .token_data txt = .ok { s0 with rom_merge := true })
    ∧ ∃ sa sb s1 r1, start_handler always s "rom" attrs = .ok sa
        ∧ run always sa children.events = .ok sb
        ∧ sb.rom_merge = true
        ∧ end_handler sb "rom" = .ok s1
        ∧ s1.g = some r1 ∧ r1.size = r.size ∧ s1.error = 0 := by
  refine ⟨fun s0 => rfl, ?_⟩
  have hroot1 : is_mamemessraine (s.level 0).tag = true := by
    rcases hroot with h | h | h <;> rw [h] <;> decide
  have hgame1 : is_gamemachine (s.level 1).tag = true := by
    rcases hgame with h | h <;> rw [h] <;> decide
  have hs : Safe s 1 :=
    ⟨by rw [hd]; rfl, he, fun _ _ => by rw [hg]; rfl, fun h => absurd h (by decide)⟩
  obtain ⟨sa, sb, s1, hstart, hrun, hrom, hend, hsize, herr, -⟩ :=
    rom_element_run s attrs children hs ⟨hroot1, hgame1⟩
  have hmerge : sb.rom_merge = true := by
    have := rom_field_merge (attrs ++ children.fields) (0, false) (Or.inr ⟨txt, hm⟩)
    rw [← hrom] at this
    exact this
  rw [hg, hmerge] at hsize
  simp only [reduceIte, Option.map_some'] at hsize
  cases h1 : s1.g with
  | none => rw [h1] at hsize; exact absurd hsize (by simp)
  | some r1 =>
    rw [h1] at hsize
    simp only [Option.map_some', Option.some.injEq] at hsize
    exact ⟨sa, sb, s1, r1, hstart, hrun, hmerge, hend, h1, hsize, herr⟩

/-- Instance of `merge_field_excludes_rom`: a rom element of size 100 with the attribute
merge="no" and an empty child element `merge`. -/
theorem merge_field_excludes_rom_witness :
    in_game_state.depth = 1 ∧ in_game_state.error = 0
    ∧ ((in_game_state.level 0).tag = "mame" ∨ (in_game_state.level 0).tag = "mess"
      ∨ (in_game_state.level 0).tag = "raine")
    ∧ ((in_game_state.level 1).tag = "game" ∨ (in_game_state.level 1).tag = "machine")
    ∧ in_game_state.g = some { game.new with emu := some ⟨"arcade"⟩ }
    ∧ ("merge", "no") ∈ [("size", "100"), ("merge", "no")]
        ++ (content.elem "merge" [] .nil .nil).fields
    ∧ ∃ sa sb s1 r1, start_handler always in_game_state "rom"
          [("size", "100"), ("merge", "no")] = .ok sa
        ∧ run always sa (content.elem "merge" [] .nil .nil).events = .ok sb
        ∧ sb.rom_merge = true
        ∧ end_handler sb "rom" = .ok s1
        ∧ s1.g = some r1 ∧ r1.size = 0 ∧ s1.error = 0 := by
  have hmem : ("merge", "no") ∈ [("size", "100"), ("merge", "no")]
      ++ (content.elem "merge" [] .nil .nil).fields := by
    simp [content.fields]
  exact ⟨rfl, rfl, Or.inl rfl, Or.inl rfl, rfl, hmem,
    (merge_field_excludes_rom in_game_state { game.new with emu := some ⟨"arcade"⟩ }
      [("size", "100"), ("merge", "no")] (.elem "merge" [] .nil .nil) "no"
      rfl rfl (Or.inl rfl) (Or.inl rfl) rfl hmem).2⟩

/-! ## The result of the load -/

/-- The loop of `load_xml` is the run of the handlers over the events delivered, followed
by the report of a read failure or syntax error if there was one. -/
theorem load_xml_loop_delivered {P : Type}
    (XML_Parse : P → String → Bool → P × List Event × Option String) (ro : Nat → Bool)
    (reads : List String) (last : last_read_t) :
    ∀ (p : P) (s : state_t),
      match run ro s (delivered XML_Parse p reads last).1 with
      | .error f => load_xml_loop XML_Parse ro p s reads last = .error f
      | .ok s1 => ∃ s2, load_xml_loop XML_Parse ro p s reads last = .ok s2 ∧ s2.a = s1.a
          ∧ (s2.error = 0 ↔ ((delivered XML_Parse p reads last).2 = true ∧ s1.error = 0)) := by
  induction reads with
  | nil =>
    intro p s
    cases last with
    | bad =>
      simp only [delivered, run, load_xml_loop, process_error]
      exact ⟨_, rfl, rfl, by simp⟩
    | eof buf =>
      simp only [delivered, load_xml_loop]
      cases hr : run ro s (XML_Parse p buf true).2.1 with
      | error f => simp only
      | ok s1 =>
        simp only
        cases hst : (XML_Parse p buf true).2.2 with
        | none => exact ⟨s1, rfl, rfl, by simp⟩
        | some msg =>
          simp only [process_error]
          exact ⟨_, rfl, rfl, by simp⟩
  | cons buf more ih =>
    intro p s
    simp only [delivered, load_xml_loop]
    cases hst : (XML_Parse p buf false).2.2 with
    | some msg =>
      simp only
      cases hr : run ro s (XML_Parse p buf false).2.1 with
      | error f => simp only
      | ok s1 =>
        simp only [process_error]
        exact ⟨_, rfl, rfl, by simp⟩
    | none =>
      simp only
      rw [run_append]
      cases hr : run ro s (XML_Parse p buf false).2.1 with
      | error f => simp only
      | ok s1 =>
        simp only
        exact ih (XML_Parse p buf false).1 s1

/-- C16: `load_xml` fails when expat creates no parser. Otherwise it returns exactly when
the handlers run without a fault over the events delivered until the loop ends, and then
its result is success exactly when the stream was consumed to its end with no read
failure and no syntax error and the error flag is clear after the last event; the catalog
is the one the handlers leave. So it fails once the error flag is set after some of the
events (the flag stays set), after a read failure and after a syntax error. -/
theorem load_result_is_error_flag {P : Type}
    (XML_Parse : P → String → Bool → P × List Event × Option String) (ro : Nat → Bool)
    (p : P) (e : emulator) (stream : istream) (gar : game_set)
    (level : Nat → level_t) (rom_size : Nat) (rom_merge : Bool) :
    load_xml none XML_Parse ro e stream gar level rom_size rom_merge = .ok (false, gar)
    ∧ load_xml (some p) XML_Parse ro e stream gar level rom_size rom_merge
      = (match run ro (load_xml_state e gar level rom_size rom_merge)
            (delivered XML_Parse p stream.reads stream.last).1 with
         | .error f => .error f
         | .ok s =>
           .ok (decide ((delivered XML_Parse p stream.reads stream.last).2 = true
                  ∧ s.error = 0), s.a))
    ∧ (∀ (pre suf : List Event) (s1 : state_t) (r : Bool) (gar1 : game_set),
        (delivered XML_Parse p stream.reads stream.last).1 = pre ++ suf →
        run ro (load_xml_state e gar level rom_size rom_merge) pre = .ok s1 →
        s1.error ≠ 0 →
        load_xml (some p) XML_Parse ro e stream gar level rom_size rom_merge = .ok (r, gar1) →
        r = false)
    ∧ (∀ gar1 : game_set,
        load_xml (some p) XML_Parse ro e stream gar level rom_size rom_merge
          = .ok (true, gar1) →
        (delivered XML_Parse p stream.reads stream.last).2 = true) := by
  have heq : load_xml (some p) XML_Parse ro e stream gar level rom_size rom_merge
      = (match run ro (load_xml_state e gar level rom_size rom_merge)
            (delivered XML_Parse p stream.reads stream.last).1 with
         | .error f => .error f
         | .ok s =>
           .ok (decide ((delivered XML_Parse p stream.reads stream.last).2 = true
                  ∧ s.error = 0), s.a)) := by
    have h := load_xml_loop_delivered XML_Parse ro stream.reads stream.last p
      (load_xml_state e gar level rom_size rom_merge)
    unfold load_xml
    simp only
    cases hr : run ro (load_xml_state e gar level rom_size rom_merge)
        (delivered XML_Parse p stream.reads stream.last).1 with
    | error f =>
      rw [hr] at h
      simp only at h
      rw [h]
    | ok s1 =>
      rw [hr] at h
      simp only at h
      obtain ⟨s2, h2, ha, he⟩ := h
      rw [h2]
      simp only
      rw [ha]
      by_cases h0 : s2.error = 0
      · have := he.mp h0
        simp [h0, this]
      · have : ¬ ((delivered XML_Parse p stream.reads stream.last).2 = true ∧ s1.error = 0) :=
          fun hh => h0 (he.mpr hh)
        simp only [ne_eq, h0, not_false_eq_true, reduceIte, this, decide_False]
  refine ⟨rfl, heq, ?_, ?_⟩
  · intro pre suf s1 r gar1 hsplit hpre he1 hload
    rw [heq, hsplit, run_append, hpre] at hload
    simp only at hload
    cases hs : run ro s1 suf with
    | error f => rw [hs] at hload; exact absurd hload (by simp)
    | ok s2 =>
      rw [hs] at hload
      simp only [Except.ok.injEq, Prod.mk.injEq] at hload
      obtain ⟨-, -, -, -, h5, -⟩ := run_errored ro suf s1 s2 he1 hs
      have : s2.error ≠ 0 := by rw [h5]; exact he1
      rw [← hload.1]
      simp [this]
  · intro gar1 hload
    rw [heq] at hload
    cases hs : run ro (load_xml_state e gar level rom_size rom_merge)
        (delivered XML_Parse p stream.reads stream.last).1 with
    | error f => rw [hs] at hload; exact absurd hload (by simp)
    | ok s2 =>
      rw [hs] at hload
      simp only [Except.ok.injEq, Prod.mk.injEq, decide_eq_true_eq] at hload
      exact hload.1.1

/-- Instance of `load_result_is_error_flag`: the stream `<mame><game name="x"/></mame>`
read in three buffers loads with an allocator that serves every request, and fails with
one that serves none (the error flag is set at the attribute value); a stream that goes
bad fails; a buffer the tokenizer rejects fails. -/
theorem load_result_is_error_flag_witness :
    load_xml (some 0) sample_XML_Parse always ⟨"arcade"⟩
        ⟨["<mame>", "<game name=\"x\"/>"], .eof "</mame>"⟩ [] sample_level 0 false
      = .ok (true, [{ game.new with emu := some ⟨"arcade"⟩, name := "arcade/x" }])
    ∧ (delivered sample_XML_Parse 0 ["<mame>", "<game name=\"x\"/>"] (.eof "</mame>")).2 = true
    ∧ (delivered sample_XML_Parse 0 ["<mame>", "<game name=\"x\"/>"] (.eof "</mame>")).1
        = [.start "mame" [], .start "game" [("name", "x")]] ++ [.stop "game", .stop "mame"]
    ∧ (∃ s1, run (fun _ => false) sample_state [.start "mame" [], .start "game" [("name", "x")]]
        = .ok s1 ∧ s1.error ≠ 0)
    ∧ load_xml (some 0) sample_XML_Parse (fun _ => false) ⟨"arcade"⟩
        ⟨["<mame>", "<game name=\"x\"/>"], .eof "</mame>"⟩ [] sample_level 0 false
      = .ok (false, [])
    ∧ load_xml (some 0) sample_XML_Parse always ⟨"arcade"⟩
        ⟨["<mame>"], .bad⟩ [] sample_level 0 false = .ok (false, [])
    ∧ load_xml (some 0) sample_XML_Parse always ⟨"arcade"⟩
        ⟨["<mame>", "<game"], .eof "</mame>"⟩ [] sample_level 0 false = .ok (false, []) := by
  have h := load_result_is_error_flag sample_XML_Parse (fun _ => false) 0 ⟨"arcade"⟩
    ⟨["<mame>", "<game name=\"x\"/>"], .eof "</mame>"⟩ [] sample_level 0 false
  have h1 := load_result_is_error_flag sample_XML_Parse always 0 ⟨"arcade"⟩
    ⟨["<mame>", "<game name=\"x\"/>"], .eof "</mame>"⟩ [] sample_level 0 false
  have hload : load_xml (some 0) sample_XML_Parse (fun _ => false) ⟨"arcade"⟩
        ⟨["<mame>", "<game name=\"x\"/>"], .eof "</mame>"⟩ [] sample_level 0 false
      = .ok (false, []) := rfl
  have hok : load_xml (some 0) sample_XML_Parse always ⟨"arcade"⟩
        ⟨["<mame>", "<game name=\"x\"/>"], .eof "</mame>"⟩ [] sample_level 0 false
      = .ok (true, [{ game.new with emu := some ⟨"arcade"⟩, name := "arcade/x" }]) := rfl
  have hsplit : (delivered sample_XML_Parse 0 ["<mame>", "<game name=\"x\"/>"]
      (.eof "</mame>")).1
        = [.start "mame" [], .start "game" [("name", "x")]] ++ [.stop "game", .stop "mame"] :=
    rfl
  obtain ⟨s1, hs1, he1⟩ : ∃ s1, run (fun _ => false) sample_state
      [.start "mame" [], .start "game" [("name", "x")]] = .ok s1 ∧ s1.error ≠ 0 :=
    ⟨_, rfl, by decide⟩
  have hfalse : false = false := h.2.2.1 _ _ s1 false _ hsplit hs1 he1 hload
  exact ⟨hok, h1.2.2.2 _ hok, hsplit, ⟨s1, hs1, he1⟩, hload, rfl, rfl⟩

/-! ## The device list -/

set_option maxHeartbeats 4000000 in
/-- What a call of a processing function that returns does to the device records. -/
theorem call_device (p : process_t) (t : token_t) (txt : String) (s s1 : state_t)
    (h : p.call s t txt = .ok s1) : Called_device p t txt s s1 := by
  cases hgv : s.g <;> cases hmv : s.m <;> cases p <;> cases t <;>
    simp only [process_t.call, process_game, process_runnable, process_name, process_description,
      process_manufacturer, process_year, process_cloneof, process_romof, process_driverstatus,
      process_drivercolor, process_driversound, process_rom, process_romsize, process_rommerge,
      process_device, process_deviceextensionname, process_devicename, process_videoscreen,
      process_videoorientation, process_videowidth, process_videoheight, process_videoaspectx,
      process_videoaspecty, process_error, reduceIte, reduceCtorEq, hgv, hmv] at h <;>
    (repeat' split at h) <;>
    (cases h; constructor <;> simp_all [game.flag_set])

/-- The entry of the extension names sits under the tag "extension". -/
theorem CONV_entries_extension :
    ∀ c ∈ CONV_entries, c.process = some .deviceextensionname →
      c.name.getD 3 none = lit "extension" := by
  decide

/-- The positions of a chain of depth 4. -/
theorem range5 : List.range 5 = [0, 1, 2, 3, 4] := by decide

/-- The device functions the table resolves: the name function at depth 3, the extension
name function at depth 4 under the tag "extension". -/
theorem resolve_device (s : state_t) (name : String) (p : process_t)
    (h : resolve s name = some p) :
    (p = .devicename → (s.depth + 1).toNat = 3)
    ∧ (p = .deviceextensionname →
        (s.depth + 1).toNat = 4 ∧ ((opened s name none).level 3).tag = "extension") := by
  unfold resolve at h
  obtain ⟨c, hc, hp⟩ := Option.bind_eq_some.mp h
  obtain ⟨hm, hd, hpos⟩ := identify_spec_some _ _ c hc
  obtain ⟨-, -, -, -, -, -, -, hdevn, hdeve, -⟩ := CONV_entries_shape c hm
  refine ⟨?_, ?_⟩
  · intro hq; subst hq; rw [← hd]; exact (hdevn hp).1
  · intro hq
    subst hq
    have h4 := (hdeve hp).1
    have t3 := position_matches_is c _ 3 _ (CONV_entries_extension c hm hp)
      (hpos 3 (by omega))
    exact ⟨by rw [← hd]; exact h4, by simpa [token_matches] using t3⟩

/-- Under a device element the chain of depth 3 resolves to the name function for "name"
and to nothing otherwise. -/
theorem identify_spec_device_field (lv : Nat → level_t) (h : tags_ok lv)
    (h2 : (lv 2).tag = "device") :
    (identify_spec 3 lv).bind (fun c => c.process)
      = if (lv 3).tag = "name" then some .devicename else none := by
  obtain ⟨h0, h1⟩ := h
  by_cases hm : (lv 3).tag = "name"
  · simp [identify_spec, DEPTH_MAX, CONV_entries, List.find?, entry_matches, position_matches,
      range4, mmr, gm, lit, token_matches, h0, h1, h2, hm]
  · simp [identify_spec, DEPTH_MAX, CONV_entries, List.find?, entry_matches, position_matches,
      range4, mmr, gm, lit, token_matches, h0, h1, h2, hm]

/-- Under an extension element of a device element the chain of depth 4 resolves to the
extension name function for "name" and to nothing otherwise. -/
theorem identify_spec_extension_field (lv : Nat → level_t) (h : tags_ok lv)
    (h2 : (lv 2).tag = "device") (h3 : (lv 3).tag = "extension") :
    (identify_spec 4 lv).bind (fun c => c.process)
      = if (lv 4).tag = "name" then some .deviceextensionname else none := by
  obtain ⟨h0, h1⟩ := h
  by_cases hm : (lv 4).tag = "name"
  · simp [identify_spec, DEPTH_MAX, CONV_entries, List.find?, entry_matches, position_matches,
      range5, mmr, gm, lit, token_matches, h0, h1, h2, h3, hm]
  · simp [identify_spec, DEPTH_MAX, CONV_entries, List.find?, entry_matches, position_matches,
      range5, mmr, gm, lit, token_matches, h0, h1, h2, h3, hm]

/-- An element without attributes that leaves no error latched leaves the levels up to
the one it was met at as they were. -/
theorem elem_levels (ro : Nat → Bool) (s sa sb sc : state_t) (name : String) (body : content)
    (h1 : start_handler ro s name [] = .ok sa) (h2 : run ro sa body.events = .ok sb)
    (h3 : end_handler sb name = .ok sc) (eb : sb.error = 0) (h0 : 0 ≤ s.depth) :
    sc.depth = s.depth ∧ ∀ j : Nat, (j : Int) ≤ s.depth → sc.level j = s.level j := by
  have hD : (DEPTH_MAX : Int) = 5 := rfl
  have da := start_handler_depth ro s sa name [] h1
  have db := run_content_depth ro body sa sb h2
  have dc := end_handler_depth sb sc name h3
  have ea : sa.error = 0 := run_error_back ro _ sa sb h2 eb
  have es : s.error = 0 := feed_error_back ro s sa (.start name []) h1 ea
  have la := (start_handler_frame ro s sa name h1 es (by omega)).1
  have lc := end_handler_frame sb sc name h3 eb (by omega)
  have lb : ∀ j : Nat, (j : Int) ≤ s.depth → sb.level j = sa.level j := by
    intro j hj
    by_cases hd : sa.depth < (DEPTH_MAX : Int)
    · exact (framed ro body sa sb h2 eb (by omega) hd).below j (by omega)
    · rw [run_deep ro body sa (by omega)] at h2
      cases h2
      rfl
  refine ⟨by omega, fun j hj => ?_⟩
  rw [lc j (by omega), lb j hj, la j hj]

/-- What content keeps, over two pieces of content met one after the other. -/
theorem kept_trans (s sa s1 : state_t) (h1 : Kept s sa) (h2 : Kept sa s1)
    (hd : sa.depth = s.depth) (ht : s.depth = 3 → (sa.level 3).tag = (s.level 3).tag) :
    Kept s s1 where
  bag := fun h => by rw [h2.bag (by omega), h1.bag h]
  m := fun h hx => by
    rw [h2.m (by omega) (fun h3 => by rw [ht (by omega)]; exact hx (by omega)), h1.m h hx]

/-- Step of `kept`: no content. -/
theorem keeps_nil (ro : Nat → Bool) : Keeps ro .nil := by
  intro s s1 h _ _
  cases h
  exact ⟨fun _ => rfl, fun _ _ => rfl⟩

/-- Step of `kept`: a chunk of character data. -/
theorem keeps_text (ro : Nat → Bool) (txt : String) (rest : content) (ih : Keeps ro rest) :
    Keeps ro (.text txt rest) := by
  intro s s1 h he h0
  rw [run_text] at h
  cases hd : data_handler ro s txt with
  | error f => rw [hd] at h; exact absurd h (by simp)
  | ok sa =>
    rw [hd] at h
    simp only at h
    have hdep := data_handler_depth ro s sa txt hd
    have ea : sa.error = 0 := run_error_back ro _ sa s1 h he
    have hr := ih sa s1 h he (by omega)
    have hsa : sa.g = s.g ∧ sa.m = s.m ∧ ∀ j, (sa.level j).tag = (s.level j).tag := by
      by_cases h5 : s.depth < (DEPTH_MAX : Int)
      · rw [data_handler_clear ro s sa txt hd ea h0 h5]
        refine ⟨rfl, rfl, fun j => ?_⟩
        by_cases hj : j = s.depth.toNat
        · simp [state_t.set_level, hj]
        · simp [state_t.set_level, hj]
      · rw [data_handler_deep ro s txt (by omega)] at hd
        cases hd
        exact ⟨rfl, rfl, fun _ => rfl⟩
    refine kept_trans s sa s1 ⟨fun _ => by rw [hsa.1], fun _ _ => hsa.2.1⟩ hr hdep
      (fun _ => hsa.2.2 3)

/-- Step of `kept`: an element without attributes. -/
theorem keeps_elem_nil (ro : Nat → Bool) (name : String) (body rest : content)
    (ihb : Keeps ro body) (ihr : Keeps ro rest) : Keeps ro (.elem name [] body rest) := by
  intro s s1 h he h0
  have hD : (DEPTH_MAX : Int) = 5 := rfl
  rw [run_elem] at h
  cases h1 : start_handler ro s name [] with
  | error f => rw [h1] at h; exact absurd h (by simp)
  | ok sa =>
    rw [h1] at h
    simp only at h
    cases h2 : run ro sa body.events with
    | error f => rw [h2] at h; exact absurd h (by simp)
    | ok sb =>
      rw [h2] at h
      simp only at h
      cases h3 : end_handler sb name with
      | error f => rw [h3] at h; exact absurd h (by simp)
      | ok sc =>
        rw [h3] at h
        simp only at h
        have ec : sc.error = 0 := run_error_back ro _ sc s1 h he
        have eb : sb.error = 0 := feed_error_back ro sb sc (.stop name) h3 ec
        have ea : sa.error = 0 := run_error_back ro _ sa sb h2 eb
        have es : s.error = 0 := feed_error_back ro s sa (.start name []) h1 ea
        have da := start_handler_depth ro s sa name [] h1
        have db := run_content_depth ro body sa sb h2
        obtain ⟨hdc, hall⟩ := elem_levels ro s sa sb sc name body h1 h2 h3 eb h0
        have hr := ihr sc s1 h he (by omega)
        have hb := ihb sa sb h2 eb (by omega)
        have hfirst : Kept s sc := by
          by_cases h5 : s.depth + 1 < (DEPTH_MAX : Int)
          · have hlev := (start_handler_frame ro s sa name h1 es (by omega)).2 h5
            have hfr := framed ro body sa sb h2 eb (by omega) (by omega)
            have hproc : (sb.level sb.depth.toNat).process = resolve s name := by
              rw [db, hfr.process, da, hlev]
            rw [start_handler_open ro s name es (by omega) h5] at h1
            rw [end_handler_close sb name eb (by omega) (by omega), hproc] at h3
            cases hres : resolve s name with
            | none =>
              rw [hres] at h1 h3
              cases h1
              cases h3
              refine ⟨fun h => ?_, fun h _ => ?_⟩
              · show sb.g.map _ = _
                rw [hb.bag (by omega)]
                rfl
              · show sb.m = _
                rw [hb.m (by omega) (fun h4 => by omega)]
                rfl
            | some p =>
              rw [hres] at h1 h3
              simp only at h1 h3
              obtain ⟨-, -, -, hgame, hdev, hdevice, -⟩ := resolve_some s name p hres
              obtain ⟨hname, hext⟩ := resolve_device s name p hres
              cases hx : p.call sb .token_data ((sb.level sb.depth.toNat).data.getD "") with
              | error f => rw [hx] at h3; exact absurd h3 (by simp)
              | ok sx =>
                rw [hx] at h3
                simp only at h3
                cases hy : p.call sx .token_close "" with
                | error f => rw [hy] at h3; exact absurd h3 (by simp)
                | ok sy =>
                  rw [hy] at h3
                  cases h3
                  have c1 := call_device p _ _ _ sa h1
                  have c2 := call_device p _ _ sb sx hx
                  have c3 := call_device p _ _ sx sy hy
                  refine ⟨fun h => ?_, fun h hx3 => ?_⟩
                  · have hpg : p ≠ .game := fun hq => by have := hgame.mp hq; omega
                    have hpd : p ≠ .device := fun hq => by have := hdevice hq; omega
                    show sy.g.map _ = _
                    rw [c3.bag hpg (by simp [hpd]), c2.bag hpg (by simp),
                      hb.bag (by omega), c1.bag hpg (by simp)]
                    rfl
                  · have hpd : p ≠ .device := fun hq => by have := hdevice hq; omega
                    have hpn : p ≠ .devicename := fun hq => by have := hname hq; omega
                    have hpe : p ≠ .deviceextensionname := by
                      intro hq
                      obtain ⟨h4, ht3⟩ := hext hq
                      have h33 : s.depth = 3 := by omega
                      rw [opened_level_ne _ _ _ _ (by omega)] at ht3
                      exact hx3 h33 ht3
                    show sy.m = _
                    rw [c3.m (by simp [hpd]) (by simp) (by simp),
                      c2.m (by simp [hpd]) (by simp [hpn]) (by simp [hpe]),
                      hb.m (by omega) (fun h4 => by omega),
                      c1.m (by simp [hpd]) (by simp) (by simp)]
                    rfl
          · rw [start_handler_deep ro s name [] (by omega)] at h1
            cases h1
            rw [run_deep ro body _ (by simp; omega)] at h2
            cases h2
            rw [end_handler_deep _ name (by simp; omega)] at h3
            cases h3
            exact ⟨fun _ => rfl, fun _ _ => rfl⟩
        exact kept_trans s sc s1 hfirst hr hdc (fun h3 => by rw [hall 3 (by omega)])

/-- Step of `kept`: the child elements that stand for attributes. -/
theorem keeps_attributes (ro : Nat → Bool) (attrs : List (String × String))
    (children : content) (ih : Keeps ro children) :
    Keeps ro (attribute_content attrs children) := by
  induction attrs with
  | nil => exact ih
  | cons kv more ihm =>
    obtain ⟨k, v⟩ := kv
    exact keeps_elem_nil ro k _ _ (keeps_text ro v .nil (keeps_nil ro)) ihm

/-- Step of `kept`: an element. -/
theorem keeps_elem (ro : Nat → Bool) (name : String) (attrs : List (String × String))
    (children rest : content) (ihc : Keeps ro children) (ihr : Keeps ro rest) :
    Keeps ro (.elem name attrs children rest) := by
  intro s s1 h he h0
  have es : s.error = 0 := run_error_back ro _ s s1 h he
  rw [run_elem_attrs ro s name attrs children rest es] at h
  exact keeps_elem_nil ro name _ rest (keeps_attributes ro attrs children ihc) ihr s s1 h he h0

/-- With any allocator, the events of well-nested content that run without a fault and
leave no error latched keep the device list of the record in progress when met from depth
2 on, and the device record in progress when met from depth 3 on outside an element
"extension" of depth 3. -/
theorem kept (ro : Nat → Bool) (f : content) : Keeps ro f := by
  induction f with
  | nil => exact keeps_nil ro
  | text txt rest ih => exact keeps_text ro txt rest ih
  | elem name attrs children rest ihc ihr => exact keeps_elem ro name attrs children rest ihc ihr

/-- The anatomy of an element without attributes met under the invariant within the depth
bound: the open, the content and the close run without a fault; the processing function
the table resolves, when there is one, is called once at the open, and at the close once
with the character data directly inside the element and once with the close token. -/
theorem elem_anatomy (name : String) (body : content) (d : Nat) (s : state_t) (hs : Safe s d)
    (hd : d + 1 < DEPTH_MAX) :
    ∃ sa sb sc, start_handler always s name [] = .ok sa
      ∧ run always sa body.events = .ok sb
      ∧ end_handler sb name = .ok sc
      ∧ (∀ rest : content, run always s (content.elem name [] body rest).events
          = run always sc rest.events)
      ∧ Safe sc d ∧ Ran d "" s sc ∧ sb.error = 0 ∧ Safe sa (d + 1)
      ∧ sa.level = (opened s name (resolve s name)).level
      ∧ (match resolve s name with
         | none => sa = opened s name none ∧ sc = closed sb
         | some p => p.call (opened s name (some p)) .token_open "" = .ok sa
             ∧ ∃ sx sy, p.call sb .token_data body.direct_text = .ok sx
               ∧ p.call sx .token_close "" = .ok sy ∧ sc = closed sy) := by
  have hD : (DEPTH_MAX : Int) = 5 := rfl
  have hD1 : DEPTH_MAX = 5 := rfl
  have hdep := hs.depth
  obtain ⟨s3, hrun, hs3, hran⟩ := run_safe (.elem name [] body .nil) d s hs
  rw [run_elem] at hrun
  cases h1 : start_handler always s name [] with
  | error f => rw [h1] at hrun; exact absurd hrun (by simp)
  | ok sa =>
    rw [h1] at hrun
    simp only at hrun
    cases h2 : run always sa body.events with
    | error f => rw [h2] at hrun; exact absurd hrun (by simp)
    | ok sb =>
      rw [h2] at hrun
      simp only at hrun
      cases h3 : end_handler sb name with
      | error f => rw [h3] at hrun; exact absurd hrun (by simp)
      | ok sc =>
        rw [h3] at hrun
        simp only at hrun
        have hsc : sc = s3 := by
          have : run always sc content.nil.events = .ok sc := rfl
          rw [this] at hrun
          exact Except.ok.inj hrun
        subst hsc
        have eb : sb.error = 0 := feed_error_back always sb sc (.stop name) h3 hs3.error
        have da := start_handler_depth always s sa name [] h1
        have db := run_content_depth always body sa sb h2
        have hlev := (start_handler_frame always s sa name h1 hs.error (by omega)).2 (by omega)
        have hfr := framed always body sa sb h2 eb (by omega) (by omega)
        have hproc : (sb.level sb.depth.toNat).process = resolve s name := by
          rw [db, hfr.process, da, hlev]
        have hdata : (sb.level sb.depth.toNat).data.getD "" = body.direct_text := by
          rw [db, hfr.data, da, hlev]
          simp
        have hsa : Safe sa (d + 1) := by
          obtain ⟨sa1, ho, hsa1, -⟩ := open_safe name d s hs hd
          rw [h1] at ho
          rw [Except.ok.inj ho]
          exact hsa1
        have hla : sa.level = (opened s name (resolve s name)).level := by
          have h1c := h1
          rw [start_handler_open always s name hs.error (by omega) (by omega)] at h1c
          cases hres : resolve s name with
          | none => rw [hres] at h1c; rw [← Except.ok.inj h1c]
          | some p =>
            rw [hres] at h1c
            exact (call_stack p _ _ _ sa h1c).2.1
        refine ⟨sa, sb, sc, rfl, h2, h3, ?_, hs3, by simpa [content.direct_text] using hran,
          eb, hsa, hla, ?_⟩
        · intro rest
          rw [run_elem, h1]
          simp only
          rw [h2]
          simp only
          rw [h3]
        · rw [start_handler_open always s name hs.error (by omega) (by omega)] at h1
          rw [end_handler_close sb name eb (by omega) (by omega), hproc, hdata] at h3
          cases hres : resolve s name with
          | none =>
            rw [hres] at h1 h3
            simp only at h1 h3 ⊢
            exact ⟨(Except.ok.inj h1).symm, (Except.ok.inj h3).symm⟩
          | some p =>
            rw [hres] at h1 h3
            simp only at h1 h3 ⊢
            refine ⟨h1, ?_⟩
            cases hx : p.call sb .token_data body.direct_text with
            | error f => rw [hx] at h3; exact absurd h3 (by simp)
            | ok sx =>
              rw [hx] at h3
              simp only at h3
              cases hy : p.call sx .token_close "" with
              | error f => rw [hy] at h3; exact absurd h3 (by simp)
              | ok sy =>
                rw [hy] at h3
                exact ⟨sx, sy, rfl, hy, (Except.ok.inj h3).symm⟩

/-- The names of a list of fields that starts with one more field. -/
theorem names_cons (k txt : String) (more : List (String × String)) :
    names ((k, txt) :: more) = (if k = "name" then [txt] else []) ++ names more := by
  by_cases hk : k = "name" <;> simp [names, List.filter, hk]

/-- The content of an element "extension" of a device element: each field named "name"
appends its text to the extension list of the device record in progress. -/
theorem extension_body_run (f : content) :
    ∀ s, Safe s 3 → tags_ok s.level → (s.level 2).tag = "device" →
      (s.level 3).tag = "extension" →
      ∃ s1, run always s f.events = .ok s1 ∧ Safe s1 3 ∧ Ran 3 f.direct_text s s1
        ∧ s1.m = s.m.map (fun m => { m with ext_bag := m.ext_bag ++ names f.fields }) := by
  induction f with
  | nil =>
    intro s hs _ _ _
    refine ⟨s, rfl, hs, Ran.refl 3 s, ?_⟩
    cases s.m <;> simp [names, content.fields]
  | text txt rest ih =>
    intro s hs ht h2 h3
    obtain ⟨s1, hdh, hs1, hran1, -, -, -⟩ := text_safe txt 3 s hs
    have hm1 : s1.m = s.m := by
      have hdep := hs.depth
      have hD : (DEPTH_MAX : Int) = 5 := rfl
      have := data_handler_clear always s s1 txt hdh hs1.error (by omega) (by omega)
      rw [this]
      rfl
    obtain ⟨s2, hrun2, hs2, hran2, hm2⟩ := ih s1 hs1
      ((tags_ok_congr _ _ (hran1.tag_le 0 (by omega)) (hran1.tag_le 1 (by omega))).mpr ht)
      (by rw [hran1.tag_le 2 (by omega)]; exact h2)
      (by rw [hran1.tag]; exact h3)
    refine ⟨s2, ?_, hs2, hran1.trans hran2, ?_⟩
    · rw [run_text, hdh]; exact hrun2
    · rw [hm2, hm1]; rfl
  | elem k a c rest _ ih =>
    intro s hs ht h2 h3
    have hdep := hs.depth
    have hn : (s.depth + 1).toNat = 4 := by omega
    obtain ⟨sa, sb, sc, h1, hb, hc, hrun, hsc, hranc, eb, hsa, hla, hcalls⟩ :=
      elem_anatomy k (attribute_content a c) 3 s hs (by decide)
    have da := hsa.depth
    have hres : resolve s k = if k = "name" then some .deviceextensionname else none := by
      unfold resolve
      rw [hn, identify_spec_extension_field _
        ((tags_ok_congr s.level _ (by rw [opened_level_ne _ _ _ _ (by omega)])
          (by rw [opened_level_ne _ _ _ _ (by omega)])).mpr ht)
        (by rw [opened_level_ne _ _ _ _ (by omega)]; exact h2)
        (by rw [opened_level_ne _ _ _ _ (by omega)]; exact h3)]
      rw [← hn, opened_level_eq]
    have hkb := kept always (attribute_content a c) sa sb hb eb (by omega)
    have hmb : sb.m = sa.m := hkb.m (by omega) (fun h => by omega)
    have hmc : sc.m = s.m.map (fun m =>
        { m with ext_bag := m.ext_bag ++ (if k = "name" then [c.direct_text] else []) }) := by
      by_cases hk : k = "name"
      · rw [hres, if_pos hk] at hcalls
        simp only at hcalls
        obtain ⟨ho, sx, sy, hx, hy, hcl⟩ := hcalls
        have c1 := call_device _ _ _ _ _ ho
        have c2 := call_device _ _ _ _ _ hx
        have c3 := call_device _ _ _ _ _ hy
        rw [hcl]
        show sy.m = _
        rw [c3.m (by simp) (by simp) (by simp), c2.extension rfl rfl, hmb,
          c1.m (by simp) (by simp) (by simp), attribute_content_direct_text, if_pos hk]
        rfl
      · rw [hres, if_neg hk] at hcalls
        simp only at hcalls
        rw [hcalls.2]
        show sb.m = _
        rw [hmb, hcalls.1, if_neg hk]
        show s.m = _
        cases s.m <;> simp
    obtain ⟨s4, hrun4, hs4, hran4, hm4⟩ := ih sc hsc
      ((tags_ok_congr _ _ (hranc.tag_le 0 (by omega)) (hranc.tag_le 1 (by omega))).mpr ht)
      (by rw [hranc.tag_le 2 (by omega)]; exact h2)
      (by rw [hranc.tag]; exact h3)
    refine ⟨s4, ?_, hs4, ?_, ?_⟩
    · rw [run_elem_attrs always s k a c rest hs.error, hrun]
      exact hrun4
    · have := hranc.trans hran4
      simpa [content.direct_text] using this
    · rw [hm4, hmc, Option.map_map]
      congr 1
      funext m
      simp [content.fields, names_cons, List.append_assoc]

/-- The last of a list with one more head, with a default. -/
theorem getLast_cons_getD (x y : String) (l : List String) :
    ((x :: l).getLast?).getD y = (l.getLast?).getD x := by
  cases l with
  | nil => rfl
  | cons z more =>
    rw [List.getLast?_cons_cons]
    obtain ⟨w, hw⟩ : ∃ w, (z :: more).getLast? = some w :=
      ⟨_, List.getLast?_eq_getLast _ (List.cons_ne_nil _ _)⟩
    rw [hw]
    rfl

/-- The content of a device element: a field named "name" stores its text as the name of
the device record in progress, an element "extension" appends its names to the extension
list, nothing else changes the record. -/
theorem device_body_run (f : content) :
    ∀ s, Safe s 2 → tags_ok s.level → (s.level 2).tag = "device" →
      ∃ s1, run always s f.events = .ok s1 ∧ Safe s1 2 ∧ Ran 2 f.direct_text s s1
        ∧ s1.m = s.m.map (fun m =>
            { name := ((names f.fields).getLast?).getD m.name,
              ext_bag := m.ext_bag ++ extensions f }) := by
  induction f with
  | nil =>
    intro s hs _ _
    refine ⟨s, rfl, hs, Ran.refl 2 s, ?_⟩
    cases s.m <;> simp [names, content.fields, extensions]
  | text txt rest ih =>
    intro s hs ht h2
    obtain ⟨s1, hdh, hs1, hran1, -, -, -⟩ := text_safe txt 2 s hs
    have hm1 : s1.m = s.m := by
      have hdep := hs.depth
      have hD : (DEPTH_MAX : Int) = 5 := rfl
      have := data_handler_clear always s s1 txt hdh hs1.error (by omega) (by omega)
      rw [this]
      rfl
    obtain ⟨s2, hrun2, hs2, hran2, hm2⟩ := ih s1 hs1
      ((tags_ok_congr _ _ (hran1.tag_le 0 (by omega)) (hran1.tag_le 1 (by omega))).mpr ht)
      (by rw [hran1.tag]; exact h2)
    refine ⟨s2, ?_, hs2, hran1.trans hran2, ?_⟩
    · rw [run_text, hdh]; exact hrun2
    · rw [hm2, hm1]; rfl
  | elem k a c rest _ ih =>
    intro s hs ht h2
    have hdep := hs.depth
    have hn : (s.depth + 1).toNat = 3 := by omega
    obtain ⟨sa, sb, sc, h1, hb, hc, hrun, hsc, hranc, eb, hsa, hla, hcalls⟩ :=
      elem_anatomy k (attribute_content a c) 2 s hs (by decide)
    simp only [Nat.reduceAdd] at hsa
    have da := hsa.depth
    have hto : tags_ok (opened s k none).level :=
      (tags_ok_congr s.level _ (by rw [opened_level_ne _ _ _ _ (by omega)])
        (by rw [opened_level_ne _ _ _ _ (by omega)])).mpr ht
    have hres : resolve s k = if k = "name" then some .devicename else none := by
      unfold resolve
      rw [hn, identify_spec_device_field _ hto
        (by rw [opened_level_ne _ _ _ _ (by omega)]; exact h2)]
      rw [← hn, opened_level_eq]
    have hta : tags_ok sa.level := by
      rw [hla]
      exact (tags_ok_congr _ _ (opened_tag _ _ _ _ _) (opened_tag _ _ _ _ _)).mpr hto
    have ha2 : (sa.level 2).tag = "device" := by
      rw [hla, opened_level_ne _ _ _ _ (by omega)]; exact h2
    have ha3 : (sa.level 3).tag = k := by
      rw [hla, ← hn, opened_level_eq]
    have hkb := kept always (attribute_content a c) sa sb hb eb (by omega)
    have hmc : sc.m = s.m.map (device_child k a c) := by
      by_cases hk : k = "name"
      · rw [hres, if_pos hk] at hcalls
        simp only at hcalls
        obtain ⟨ho, sx, sy, hx, hy, hcl⟩ := hcalls
        have c1 := call_device _ _ _ _ _ ho
        have c2 := call_device _ _ _ _ _ hx
        have c3 := call_device _ _ _ _ _ hy
        have hmb : sb.m = sa.m :=
          hkb.m (by omega) (fun _ => by rw [ha3, hk]; decide)
        rw [hcl]
        show sy.m = _
        rw [c3.m (by simp) (by simp) (by simp), c2.devicename rfl rfl, hmb,
          c1.m (by simp) (by simp) (by simp), attribute_content_direct_text]
        show s.m.map _ = _
        congr 1
        funext m
        simp [device_child, hk]
      · rw [hres, if_neg hk] at hcalls
        simp only at hcalls
        rw [hcalls.2]
        show sb.m = _
        by_cases he : k = "extension"
        · obtain ⟨sb1, hb1, -, -, hm1⟩ := extension_body_run (attribute_content a c) sa hsa hta
            ha2 (by rw [ha3, he])
          have heq : sb1 = sb := Except.ok.inj (hb1.symm.trans hb)
          subst heq
          rw [hm1, hcalls.1, attribute_content_fields]
          show s.m.map _ = _
          congr 1
          funext m
          simp [device_child, hk, he]
        · have hmb : sb.m = sa.m := hkb.m (by omega) (fun _ => by rw [ha3]; exact he)
          rw [hmb, hcalls.1]
          show s.m = _
          have : device_child k a c = id := by
            funext m
            simp [device_child, hk, he]
          rw [this, Option.map_id]
          rfl
    obtain ⟨s4, hrun4, hs4, hran4, hm4⟩ := ih sc hsc
      ((tags_ok_congr _ _ (hranc.tag_le 0 (by omega)) (hranc.tag_le 1 (by omega))).mpr ht)
      (by rw [hranc.tag]; exact h2)
    refine ⟨s4, ?_, hs4, ?_, ?_⟩
    · rw [run_elem_attrs always s k a c rest hs.error, hrun]
      exact hrun4
    · have := hranc.trans hran4
      simpa [content.direct_text] using this
    · rw [hm4, hmc, Option.map_map]
      congr 1
      funext m
      by_cases hk : k = "name"
      · have hke : ¬ k = "extension" := by rw [hk]; decide
        simp [device_child, hk, content.fields, names_cons, extensions, getLast_cons_getD]
      · by_cases he : k = "extension"
        · simp [device_child, hk, he, content.fields, names_cons, extensions,
            List.append_assoc]
        · simp [device_child, hk, he, content.fields, names_cons, extensions]

/-- An attribute of a device element adds no extension name, whatever its name. -/
theorem extensions_attribute_content (attrs : List (String × String)) (children : content) :
    extensions (attribute_content attrs children) = extensions children := by
  induction attrs with
  | nil => rfl
  | cons kv more ih =>
    obtain ⟨k, v⟩ := kv
    by_cases hk : k = "extension" <;>
      simp [attribute_content, extensions, content.fields, names, hk, ih]

/-- Attributes of a game element not named "device" stand for no device. -/
theorem devices_attribute_content (attrs : List (String × String)) (children : content)
    (h : ∀ kv ∈ attrs, kv.1 ≠ "device") :
    devices (attribute_content attrs children) = devices children := by
  induction attrs with
  | nil => rfl
  | cons kv more ih =>
    obtain ⟨k, v⟩ := kv
    have hk : k ≠ "device" := h (k, v) (List.mem_cons_self _ _)
    have := ih (fun kv hkv => h kv (List.mem_cons_of_mem _ hkv))
    simp [attribute_content, devices, hk, this]

/-- The content of a game element: each device element directly inside appends its device
record to the device list of the record in progress, nothing else changes that list. -/
theorem game_devices_run (f : content) :
    ∀ s, Safe s 1 → tags_ok s.level →
      ∃ s1, run always s f.events = .ok s1 ∧ Safe s1 1 ∧ Ran 1 f.direct_text s s1
        ∧ s1.g.map (fun g => g.machinedevice_bag)
            = s.g.map (fun g => g.machinedevice_bag ++ devices f) := by
  induction f with
  | nil =>
    intro s hs _
    exact ⟨s, rfl, hs, Ran.refl 1 s, by simp [devices]⟩
  | text txt rest ih =>
    intro s hs ht
    obtain ⟨s1, hdh, hs1, hran1, hg, -, -⟩ := text_safe txt 1 s hs
    obtain ⟨s2, hrun2, hs2, hran2, hb2⟩ := ih s1 hs1
      ((tags_ok_congr _ _ (hran1.tag_le 0 (by omega)) (hran1.tag_le 1 (by omega))).mpr ht)
    refine ⟨s2, ?_, hs2, hran1.trans hran2, ?_⟩
    · rw [run_text, hdh]; exact hrun2
    · rw [hb2, hg]; rfl
  | elem k a c rest _ ih =>
    intro s hs ht
    have hdep := hs.depth
    have hn : (s.depth + 1).toNat = 2 := by omega
    obtain ⟨sa, sb, sc, h1, hb, hc, hrun, hsc, hranc, eb, hsa, hla, hcalls⟩ :=
      elem_anatomy k (attribute_content a c) 1 s hs (by decide)
    simp only [Nat.reduceAdd] at hsa
    have da := hsa.depth
    have hto : tags_ok (opened s k none).level :=
      (tags_ok_congr s.level _ (by rw [opened_level_ne _ _ _ _ (by omega)])
        (by rw [opened_level_ne _ _ _ _ (by omega)])).mpr ht
    have hta : tags_ok sa.level := by
      rw [hla]
      exact (tags_ok_congr _ _ (opened_tag _ _ _ _ _) (opened_tag _ _ _ _ _)).mpr hto
    have ha2 : (sa.level 2).tag = k := by
      rw [hla, ← hn, opened_level_eq]
    have hkb := kept always (attribute_content a c) sa sb hb eb (by omega)
    have hbb := hkb.bag (by omega)
    have hbc : sc.g.map (fun g => g.machinedevice_bag)
        = s.g.map (fun g => g.machinedevice_bag
            ++ (if k = "device" then [device_of a c] else [])) := by
      by_cases hk : k = "device"
      · have hres : resolve s k = some .device := by
          unfold resolve
          rw [hn]
          exact identify_spec_device _ hto (by rw [← hn, opened_level_eq]; exact hk)
        rw [hres] at hcalls
        simp only at hcalls
        obtain ⟨ho, sx, sy, hx, hy, hcl⟩ := hcalls
        have c1 := call_device _ _ _ _ _ ho
        have c2 := call_device _ _ _ _ _ hx
        have c3 := call_device _ _ _ _ _ hy
        obtain ⟨sb1, hb1, -, -, hm1⟩ := device_body_run (attribute_content a c) sa hsa hta
          (by rw [ha2, hk])
        have heq : sb1 = sb := Except.ok.inj (hb1.symm.trans hb)
        subst heq
        rw [c1.device_open rfl rfl, attribute_content_fields,
          extensions_attribute_content] at hm1
        obtain ⟨g, m, hg, hm, hg1, -⟩ := c3.device_close rfl rfl
        have hmx : sx.m = sb1.m := c2.m (by simp) (by simp) (by simp)
        have hbx := c2.bag (by simp) (by simp)
        have hbo := c1.bag (by simp) (by simp)
        rw [hmx, hm1] at hm
        simp only [Option.map_some', machinedevice.new, List.nil_append,
          Option.some.injEq] at hm
        have hsg : s.g.map (fun g => g.machinedevice_bag) = some g.machinedevice_bag := by
          have : (opened s k (some .device)).g = s.g := rfl
          rw [← this, ← hbo, ← hbb, ← hbx, hg]
          rfl
        rw [hcl]
        show sy.g.map _ = _
        rw [hg1, if_pos hk]
        cases hsv : s.g with
        | none => rw [hsv] at hsg; exact absurd hsg (by simp)
        | some g0 =>
          rw [hsv] at hsg
          simp only [Option.map_some', Option.some.injEq] at hsg ⊢
          rw [hsg, ← hm]
          rfl
      · rw [if_neg hk]
        simp only [List.append_nil]
        cases hres : resolve s k with
        | none =>
          rw [hres] at hcalls
          simp only at hcalls
          rw [hcalls.2]
          show sb.g.map _ = _
          rw [hbb, hcalls.1]
          rfl
        | some p =>
          obtain ⟨-, -, -, hgame, hdev, -⟩ := resolve_some s k p hres
          have hpg : p ≠ .game := fun h => by have := hgame.mp h; omega
          have hpd : p ≠ .device := by
            intro h
            have := (hdev (by rw [h]; rfl)).2
            rw [← hn, opened_level_eq] at this
            exact hk this
          rw [hres] at hcalls
          simp only at hcalls
          obtain ⟨ho, sx, sy, hx, hy, hcl⟩ := hcalls
          have c1 := call_device _ _ _ _ _ ho
          have c2 := call_device _ _ _ _ _ hx
          have c3 := call_device _ _ _ _ _ hy
          rw [hcl]
          show sy.g.map _ = _
          rw [c3.bag hpg (by simp [hpd]), c2.bag hpg (by simp [hpd]), hbb,
            c1.bag hpg (by simp [hpd])]
          rfl
    obtain ⟨s4, hrun4, hs4, hran4, hb4⟩ := ih sc hsc
      ((tags_ok_congr _ _ (hranc.tag_le 0 (by omega)) (hranc.tag_le 1 (by omega))).mpr ht)
    refine ⟨s4, ?_, hs4, ?_, ?_⟩
    · rw [run_elem_attrs always s k a c rest hs.error, hrun]
      exact hrun4
    · have := hranc.trans hran4
      simpa [content.direct_text] using this
    · have : (fun g : game => g.machinedevice_bag ++ devices rest)
          = (fun z => z ++ devices rest) ∘ (fun g : game => g.machinedevice_bag) := rfl
      rw [hb4, this, ← Option.map_map, hbc, Option.map_map]
      congr 1
      funext g
      simp [devices, List.append_assoc]

/-- C19: for a game element met at depth 0 under a root tag with no error latched, the
events of the element run without a fault and insert one record whose device list is, in
document order, one device record per device element directly inside (attributes counting
as first child elements, so only an attribute named "device" adds a record): the name of
each is the text of its field "name" and its extension list the texts of the fields "name"
of its elements "extension", in document order (`devices`). The close of a device appends
the device record in progress at the end of the list, the open starts an empty record, a
name field stores its text and an extension name field appends its text. -/
theorem device_list_in_document_order (s0 : state_t) (name : String)
    (attrs : List (String × String)) (children : content)
    (hd : s0.depth = 0) (he : s0.error = 0)
    (hroot : (s0.level 0).tag = "mame" ∨ (s0.level 0).tag = "mess"
      ∨ (s0.level 0).tag = "raine")
    (hname : name = "game" ∨ name = "machine") :
    (∃ s3 r, run always s0 (content.elem name attrs children .nil).events = .ok s3
      ∧ s3.a = s0.a ++ [r]
      ∧ r.machinedevice_bag = devices (attribute_content attrs children)
      ∧ ((∀ kv ∈ attrs, kv.1 ≠ "device") → r.machinedevice_bag = devices children))
    ∧ (∀ (s : state_t) (g : game) (m : machinedevice), s.g = some g → s.m = some m →
        process_device s .token_close ""
          = .ok { s with g := some { g with machinedevice_bag := g.machinedevice_bag ++ [m] },
                         m := none })
    ∧ (∀ s : state_t, process_device s .token_open ""
        = .ok { s with m := some machinedevice.new })
    ∧ (∀ (s : state_t) (m : machinedevice) (txt : String), s.m = some m →
        process_devicename s .token_data txt = .ok { s with m := some { m with name := txt } }
        ∧ process_deviceextensionname s .token_data txt
            = .ok { s with m := some { m with ext_bag := m.ext_bag ++ [txt] } })
    ∧ devices two_devices = [⟨"cart", ["bin", "rom"]⟩, ⟨"floppy", []⟩] := by
  refine ⟨?_, ?_, fun s => rfl, ?_, by decide⟩
  · have hroot1 : is_mamemessraine (s0.level 0).tag = true := by
      rcases hroot with h | h | h <;> rw [h] <;> decide
    have hname1 : is_gamemachine name = true := by
      rcases hname with h | h <;> subst h <;> decide
    have hs0 : Safe s0 0 :=
      ⟨by rw [hd]; rfl, he, fun h => absurd h (by decide), fun h => absurd h (by decide)⟩
    obtain ⟨s1c, s1, s2, s3, r, hstartc, hg1c, hs1c, ht1c, -, hstart, -, -, hrunc, hrun2, -,
      hg2, hend, ha3, -, -, -, -, -⟩ := game_element s0 name attrs children hs0 hroot1 hname1
    obtain ⟨s2', hrun2', -, -, hbag⟩ :=
      game_devices_run (attribute_content attrs children) s1c hs1c ht1c
    have heq : s2' = s2 := Except.ok.inj (hrun2'.symm.trans hrunc)
    subst heq
    rw [hg2, hg1c] at hbag
    simp only [Option.map_some', Option.some.injEq, game.new, List.nil_append] at hbag
    refine ⟨s3, r, ?_, ha3, hbag, fun h => ?_⟩
    · rw [run_elem, hstart]
      simp only []
      rw [hrun2]
      simp only []
      rw [hend]
      rfl
    · rw [hbag, devices_attribute_content attrs children h]
  · intro s g m hg hm
    simp only [process_device, reduceIte, reduceCtorEq, hg, hm]
  · intro s m txt hm
    constructor
    · simp only [process_devicename, reduceIte, hm]
    · simp only [process_deviceextensionname, reduceIte, hm]

/-- Instance of `device_list_in_document_order`: a game element with a cartridge device of
two extensions and a floppy device commits a record with these two devices in order. -/
theorem device_list_in_document_order_witness :
    in_root_state.depth = 0 ∧ in_root_state.error = 0
    ∧ ((in_root_state.level 0).tag = "mame" ∨ (in_root_state.level 0).tag = "mess"
      ∨ (in_root_state.level 0).tag = "raine")
    ∧ ("game" = "game" ∨ "game" = "machine")
    ∧ ∃ s3 r, run always in_root_state
        (content.elem "game" [("name", "x")] two_devices .nil).events = .ok s3
      ∧ s3.a = [r]
      ∧ r.machinedevice_bag = [⟨"cart", ["bin", "rom"]⟩, ⟨"floppy", []⟩] := by
  obtain ⟨⟨s3, r, h1, h2, -, h3⟩, -, -, -, h4⟩ :=
    device_list_in_document_order in_root_state "game" [("name", "x")] two_devices rfl rfl
      (Or.inl rfl) (Or.inl rfl)
  exact ⟨rfl, rfl, Or.inl rfl, Or.inl rfl, s3, r, h1, h2, by rw [h3 (by decide), h4]⟩

/-! ## The shape of the table -/

/-- No tag is in both wildcard sets. -/
theorem wildcard_sets_disjoint (tag : String) (h1 : is_mamemessraine tag = true)
    (h2 : is_gamemachine tag = true) : False := by
  simp only [is_mamemessraine, is_gamemachine, Bool.or_eq_true, decide_eq_true_eq] at h1 h2
  rcases h1 with (h1 | h1) | h1 <;> rcases h2 with h2 | h2 <;> rw [h1] at h2 <;>
    exact absurd h2 (by decide)

/-- Two tokens that fit the same tag overlap. -/
theorem token_matches_overlap (a b : name_t) (tag : String) (ha : token_matches a tag = true)
    (hb : token_matches b tag = true) : tokens_overlap (some a) (some b) = true := by
  cases a <;> cases b <;> simp only [token_matches, decide_eq_true_eq] at ha hb <;>
    simp only [tokens_overlap, decide_eq_true_eq]
  · exact absurd hb (fun h => wildcard_sets_disjoint tag ha h)
  · rw [← hb]; exact ha
  · exact absurd ha (fun h => wildcard_sets_disjoint tag hb h)
  · rw [← hb]; exact ha
  · rw [← ha]; exact hb
  · rw [← ha]; exact hb
  · rw [← ha, ← hb]

/-- Two entries that match the same chain overlap. -/
theorem entry_matches_overlap (depth : Nat) (level : Nat → level_t) (c1 c2 : conversion_t)
    (h1 : entry_matches depth level c1 = true) (h2 : entry_matches depth level c2 = true) :
    entries_overlap c1 c2 = true := by
  simp only [entry_matches, Bool.and_eq_true, decide_eq_true_eq, List.all_eq_true,
    List.mem_range] at h1 h2
  simp only [entries_overlap, Bool.and_eq_true, decide_eq_true_eq, List.all_eq_true,
    List.mem_range]
  refine ⟨by rw [h1.1, h2.1], fun j hj => ?_⟩
  have p1 := h1.2 j (by omega)
  have p2 := h2.2 j (by omega)
  unfold position_matches at p1 p2
  cases n1 : c1.name.getD j none with
  | none => rw [n1] at p1; exact absurd p1 (by simp)
  | some a =>
    cases n2 : c2.name.getD j none with
    | none => rw [n2] at p2; exact absurd p2 (by simp)
    | some b =>
      rw [n1] at p1
      rw [n2] at p2
      exact token_matches_overlap a b _ p1 p2

set_option maxRecDepth 100000 in
/-- No two entries of the table overlap. -/
theorem CONV_entries_exclusive :
    ∀ c1 ∈ CONV_entries, ∀ c2 ∈ CONV_entries, entries_overlap c1 c2 = true → c1 = c2 := by
  decide

/-- A find-first over a list in which at most one value passes the test does not depend
on the order of the list. -/
theorem find_first_perm {α : Type} (p : α → Bool) (l l1 : List α) (hperm : l1.Perm l)
    (huniq : ∀ a ∈ l, ∀ b ∈ l, p a = true → p b = true → a = b) :
    l1.find? p = l.find? p := by
  cases h : l.find? p with
  | none =>
    rw [List.find?_eq_none] at h ⊢
    exact fun a ha => h a (hperm.subset ha)
  | some a =>
    have ha := List.mem_of_find?_eq_some h
    have hpa := List.find?_some h
    cases h1 : l1.find? p with
    | none =>
      rw [List.find?_eq_none] at h1
      exact absurd hpa (h1 a (hperm.symm.subset ha))
    | some b =>
      have hb := List.mem_of_find?_eq_some h1
      have hpb := List.find?_some h1
      rw [huniq b (hperm.subset hb) a ha hpb hpa]

/-- C21: for every depth and every chain of tags at most one entry of the conversion
table matches (two entries that match the same chain are the same entry), so `identify`
run over the entries in any other order, followed by the terminating entry, returns the
same entry as over the table. -/
theorem table_entries_are_exclusive (depth : Nat) (level : Nat → level_t) :
    (∀ c1 ∈ CONV_entries, ∀ c2 ∈ CONV_entries,
      entry_matches depth level c1 = true → entry_matches depth level c2 = true → c1 = c2)
    ∧ (∀ tbl : List conversion_t, tbl.Perm CONV_entries →
        identify_scan depth level (tbl ++ [CONV_end]) = identify_scan depth level CONV
        ∧ (depth < DEPTH_MAX →
            identify_scan depth level (tbl ++ [CONV_end]) = identify depth level)) := by
  have huniq : ∀ c1 ∈ CONV_entries, ∀ c2 ∈ CONV_entries,
      entry_matches depth level c1 = true → entry_matches depth level c2 = true → c1 = c2 :=
    fun c1 h1 c2 h2 m1 m2 =>
      CONV_entries_exclusive c1 h1 c2 h2 (entry_matches_overlap depth level c1 c2 m1 m2)
  refine ⟨huniq, fun tbl hperm => ?_⟩
  have htok : ∀ c ∈ tbl, ∀ i, i ≤ c.depth → c.name.getD i none ≠ none :=
    fun c hc => CONV_entries_tokens c (hperm.subset hc)
  have h1 : identify_scan depth level (tbl ++ [CONV_end])
      = identify_scan depth level CONV := by
    rw [identify_scan_eq depth level tbl htok, CONV,
      identify_scan_eq depth level CONV_entries CONV_entries_tokens,
      find_first_perm _ _ _ hperm huniq]
  refine ⟨h1, fun hd => ?_⟩
  rw [h1]
  unfold identify
  rw [if_pos hd]

/-- Instance of `table_entries_are_exclusive`: the chain mame/game/rom/size matches the
entry of the rom size and no other, and the table read backwards resolves it to the same
entry. -/
theorem table_entries_are_exclusive_witness :
    (CONV_entries.filter (entry_matches 3
        (fun j => ⟨["mame", "game", "rom", "size"].getD j "", none, none⟩)))
      = [{ depth := 3, name := [mmr, gm, lit "rom", lit "size", none],
           process := some .romsize }]
    ∧ CONV_entries.reverse.Perm CONV_entries
    ∧ 3 < DEPTH_MAX
    ∧ identify_scan 3 (fun j => ⟨["mame", "game", "rom", "size"].getD j "", none, none⟩)
        (CONV_entries.reverse ++ [CONV_end])
      = identify 3 (fun j => ⟨["mame", "game", "rom", "size"].getD j "", none, none⟩) := by
  have h := table_entries_are_exclusive 3
    (fun j => ⟨["mame", "game", "rom", "size"].getD j "", none, none⟩)
  have hone := h.1
    ({ depth := 3, name := [mmr, gm, lit "rom", lit "size", none], process := some .romsize })
    (by decide)
    ({ depth := 3, name := [mmr, gm, lit "rom", lit "size", none], process := some .romsize })
    (by decide) (by decide) (by decide)
  exact ⟨by decide, List.reverse_perm _, by decide,
    (h.2 CONV_entries.reverse (List.reverse_perm _)).2 (by decide)⟩

set_option maxRecDepth 100000 in
/-- C26: every entry of the conversion table before the terminating entry has a depth `d`
with `1 <= d < DEPTH_MAX`, `DEPTH_MAX` token slots of which exactly those at the positions
`0 .. d` hold a token, and a processing function; the terminating entry has no first
token. So `identify` never compares a tag with a null token (it returns without a fault
for every depth and chain), and every entry is reached: `identify` returns it for the
chain of its own tokens. -/
theorem table_entries_are_well_formed :
    (∀ c ∈ CONV_entries,
      1 ≤ c.depth ∧ c.depth < DEPTH_MAX ∧ c.name.length = DEPTH_MAX
      ∧ (∀ j, j < DEPTH_MAX → ((c.name.getD j none).isSome = true ↔ j ≤ c.depth))
      ∧ c.process.isSome = true)
    ∧ CONV = CONV_entries ++ [CONV_end] ∧ CONV_end.name.getD 0 none = none
    ∧ (∀ (depth : Nat) (level : Nat → level_t),
        identify depth level = .ok (identify_spec depth level))
    ∧ (∀ c ∈ CONV_entries, identify c.depth c.sample_chain = .ok (some c)) := by
  refine ⟨by decide, rfl, rfl, identify_eq, ?_⟩
  have h : ∀ c ∈ CONV_entries, identify_spec c.depth c.sample_chain = some c := by decide
  intro c hc
  rw [identify_eq, h c hc]

/-- Instance of `table_entries_are_well_formed`: the entry of the extension names, the
deepest of the table. -/
theorem table_entries_are_well_formed_witness :
    (CONV_entries.getD 13 CONV_end) ∈ CONV_entries
    ∧ (CONV_entries.getD 13 CONV_end).depth = 4
    ∧ ((CONV_entries.getD 13 CONV_end).name.getD 4 none).isSome = true
    ∧ (fun j => ((CONV_entries.getD 13 CONV_end).sample_chain j).tag) 3 = "extension"
    ∧ identify 4 (CONV_entries.getD 13 CONV_end).sample_chain
        = .ok (some (CONV_entries.getD 13 CONV_end)) := by
  have h := table_entries_are_well_formed
  have hm : (CONV_entries.getD 13 CONV_end) ∈ CONV_entries := by decide
  have h1 := h.1 _ hm
  exact ⟨hm, by decide, (h1.2.2.2.1 4 (by decide)).mpr (by decide), by decide,
    h.2.2.2.2 _ hm⟩

set_option maxRecDepth 100000 in
/-- C27: a document that is only a root element named mame, mess or raine with one
attribute named "game" or "machine" (any value, no child element) commits a record: from
the state `load_xml` starts from, the open of the root runs the events made up for the
attribute through the game function, which creates a record at the open and inserts it at
the close, so the document ends without a fault and without the error flag with one more
record in the catalog, a fresh one with only its emulator set. -/
theorem game_attribute_commits_record (e : emulator) (gar : game_set)
    (level : Nat → level_t) (rom_size : Nat) (rom_merge : Bool) (root k v : String)
    (hroot : root = "mame" ∨ root = "mess" ∨ root = "raine")
    (hk : k = "game" ∨ k = "machine") :
    (∃ s1, start_handler always (load_xml_state e gar level rom_size rom_merge) root [(k, v)]
          = .ok s1
        ∧ s1.a = gar ++ [{ game.new with emu := some e }] ∧ s1.g = none ∧ s1.depth = 0)
    ∧ (∃ s2, run always (load_xml_state e gar level rom_size rom_merge)
          (content.elem root [(k, v)] .nil .nil).events = .ok s2
        ∧ s2.a = gar ++ [{ game.new with emu := some e }] ∧ s2.error = 0 ∧ s2.g = none
        ∧ s2.depth = -1)
    ∧ resolve (opened (load_xml_state e gar level rom_size rom_merge) root none) k
        = some .game := by
  rcases hroot with h | h | h <;> rcases hk with h1 | h1 <;> subst h <;> subst h1 <;>
    exact ⟨⟨_, rfl, rfl, rfl, rfl⟩, ⟨_, rfl, rfl, rfl, rfl, rfl⟩, rfl⟩

/-- Instance of `game_attribute_commits_record`: the document `<mame game="x"/>`. -/
theorem game_attribute_commits_record_witness :
    ("mame" = "mame" ∨ "mame" = "mess" ∨ "mame" = "raine")
    ∧ ("game" = "game" ∨ "game" = "machine")
    ∧ ∃ s2, run always sample_state [.start "mame" [("game", "x")], .stop "mame"] = .ok s2
        ∧ s2.a = [{ game.new with emu := some ⟨"arcade"⟩ }] ∧ s2.error = 0 :=
  have h := game_attribute_commits_record ⟨"arcade"⟩ [] sample_level 0 false "mame" "game" "x"
    (Or.inl rfl) (Or.inl rfl)
  ⟨Or.inl rfl, Or.inl rfl, h.2.1.imp (fun _ hs => ⟨hs.1, hs.2.1, hs.2.2.1⟩)⟩

/-! ## Chunks of character data -/

/-- The length in bytes of two texts joined. -/
theorem utf8ByteSize_append (a b : String) :
    (a ++ b).utf8ByteSize = a.utf8ByteSize + b.utf8ByteSize := by
  cases a with
  | mk l1 =>
    cases b with
    | mk l2 =>
      show String.utf8ByteSize ⟨l1 ++ l2⟩ = _
      simp only [String.utf8ByteSize_mk, String.utf8Len_append]

/-- Two assignments to the same level: the second one stays. -/
theorem set_level_set_level (s : state_t) (d : Nat) (l1 l2 : level_t) :
    (s.set_level d l1).set_level d l2 = s.set_level d l2 := by
  unfold state_t.set_level
  congr 1
  funext i
  by_cases h : i = d <;> simp [h]

/-- The function `data_handler` within the depth bound with no error latched, on the level
`l` of the current depth. -/
theorem data_handler_in (ro : Nat → Bool) (s : state_t) (txt : String) (l : level_t)
    (h5 : s.depth < (DEPTH_MAX : Int)) (he : s.error = 0) (h0 : ¬ s.depth < 0)
    (hl : s.level s.depth.toNat = l) :
    data_handler ro s txt
      = if ro (l.len + txt.utf8ByteSize) = true then
          .ok (s.set_level s.depth.toNat { l with data := some (l.data.getD "" ++ txt) })
        else
          process_error (s.set_level s.depth.toNat { l with data := none }) (some l.tag)
            "low memory" := by
  subst hl
  simp only [data_handler, h5, he, h0, reduceIte]

/-- Character data delivered in two chunks: with an allocator that serves the request for
the first chunk whenever it serves the one for both, `data_handler` on the two chunks in
turn gives what it gives on the chunks joined (the same state, or the same fault). -/
theorem data_handler_split (ro : Nat → Bool) (s : state_t) (t1 t2 : String)
    (hro : ro ((s.level s.depth.toNat).len + (t1 ++ t2).utf8ByteSize) = true →
      ro ((s.level s.depth.toNat).len + t1.utf8ByteSize) = true) :
    data_handler ro s (t1 ++ t2)
      = (match data_handler ro s t1 with
         | .error f => .error f
         | .ok s1 => data_handler ro s1 t2) := by
  by_cases h5 : s.depth < (DEPTH_MAX : Int)
  · by_cases he : s.error = 0
    · by_cases h0 : s.depth < 0
      · simp only [data_handler, h5, he, h0, reduceIte]
      · have key : ∀ l1 : level_t, data_handler ro (s.set_level s.depth.toNat l1) t2
            = if ro (l1.len + t2.utf8ByteSize) = true then
                .ok (s.set_level s.depth.toNat { l1 with data := some (l1.data.getD "" ++ t2) })
              else
                process_error (s.set_level s.depth.toNat { l1 with data := none })
                  (some l1.tag) "low memory" := by
          intro l1
          rw [data_handler_in ro (s.set_level s.depth.toNat l1) t2 l1 h5 he h0
            (by simp [state_t.set_level])]
          have hd : (s.set_level s.depth.toNat l1).depth = s.depth := rfl
          rw [hd, set_level_set_level, set_level_set_level]
        rw [data_handler_in ro s (t1 ++ t2) _ h5 he h0 rfl,
          data_handler_in ro s t1 _ h5 he h0 rfl]
        by_cases h1 : ro ((s.level s.depth.toNat).len + t1.utf8ByteSize) = true
        · rw [if_pos h1]
          simp only
          rw [key]
          simp only [level_t.len, Option.getD_some, utf8ByteSize_append, Nat.add_assoc,
            String.append_assoc]
        · have h12 : ¬ ro ((s.level s.depth.toNat).len + (t1 ++ t2).utf8ByteSize) = true :=
            fun h => h1 (hro h)
          rw [if_neg h1, if_neg h12]
          simp only [process_error, data_handler, state_t.set_level, h5, reduceIte]
          simp
    · simp only [data_handler, h5, he, reduceIte]
  · simp only [data_handler, h5, reduceIte]

/-- C25: `data_handler` on two chunks in turn gives what it gives on the chunks joined (the
same state, or the same fault), in every state: with an allocator that never fails, and
with any allocator that serves the request for the first chunk whenever it serves the
larger one for both; so with an allocator that never fails a sequence of events gives the
same result when a chunk of character data in it is delivered in two pieces. -/
theorem data_chunks_concatenate (ro : Nat → Bool) (s : state_t) (t1 t2 : String)
    (hro : ro ((s.level s.depth.toNat).len + (t1 ++ t2).utf8ByteSize) = true →
      ro ((s.level s.depth.toNat).len + t1.utf8ByteSize) = true) :
    data_handler ro s (t1 ++ t2)
      = (match data_handler ro s t1 with
         | .error f => .error f
         | .ok s1 => data_handler ro s1 t2)
    ∧ data_handler always s (t1 ++ t2)
      = (match data_handler always s t1 with
         | .error f => .error f
         | .ok s1 => data_handler always s1 t2)
    ∧ (∀ (s0 : state_t) (pre suf : List Event),
        run always s0 (pre ++ .data (t1 ++ t2) :: suf)
          = run always s0 (pre ++ .data t1 :: .data t2 :: suf)) := by
  refine ⟨data_handler_split ro s t1 t2 hro, data_handler_split always s t1 t2 (fun _ => rfl),
    fun s0 pre suf => ?_⟩
  rw [run_append, run_append]
  cases hp : run always s0 pre with
  | error f => rfl
  | ok sp =>
    simp only [run, feed]
    rw [data_handler_split always sp t1 t2 (fun _ => rfl)]
    cases data_handler always sp t1 with
    | error f => rfl
    | ok s1 => rfl

/-- Instance of `data_chunks_concatenate`: the text "Pac-Man" of a description delivered
as "Pac" and "-Man", with an allocator that serves up to 7 bytes. -/
theorem data_chunks_concatenate_witness :
    ((fun n => decide (n ≤ 7)) ((in_game_state.level in_game_state.depth.toNat).len
        + ("Pac" ++ "-Man").utf8ByteSize) = true →
      (fun n => decide (n ≤ 7)) ((in_game_state.level in_game_state.depth.toNat).len
        + "Pac".utf8ByteSize) = true)
    ∧ data_handler (fun n => decide (n ≤ 7)) in_game_state "Pac-Man"
      = (match data_handler (fun n => decide (n ≤ 7)) in_game_state "Pac" with
         | .error f => .error f
         | .ok s1 => data_handler (fun n => decide (n ≤ 7)) s1 "-Man")
    ∧ run always in_game_state [.start "description" [], .data "Pac-Man", .stop "description"]
      = run always in_game_state
          [.start "description" [], .data "Pac", .data "-Man", .stop "description"] := by
  have h := data_chunks_concatenate (fun n => decide (n ≤ 7)) in_game_state "Pac" "-Man"
    (fun _ => by decide)
  exact ⟨fun _ => by decide, h.1,
    h.2.2 in_game_state [.start "description" []] [.stop "description"]⟩

/-! ## The tag and the processing function of a level -/

/-- Character data changes no tag and no processing function. -/
theorem data_handler_tags (ro : Nat → Bool) (s s1 : state_t) (txt : String)
    (h : data_handler ro s txt = .ok s1) (j : Nat) :
    (s1.level j).tag = (s.level j).tag ∧ (s1.level j).process = (s.level j).process := by
  by_cases h5 : s.depth < (DEPTH_MAX : Int)
  · by_cases he : s.error = 0
    · by_cases h0 : s.depth < 0
      · simp only [data_handler, h5, he, h0, reduceIte] at h
        exact absurd h (by simp)
      · rw [data_handler_in ro s txt _ h5 he h0 rfl] at h
        by_cases hr : ro ((s.level s.depth.toNat).len + txt.utf8ByteSize) = true
        · rw [if_pos hr] at h
          cases h
          by_cases hj : j = s.depth.toNat <;> simp [state_t.set_level, hj]
        · rw [if_neg hr] at h
          simp only [process_error] at h
          cases h
          by_cases hj : j = s.depth.toNat <;> simp [state_t.set_level, hj]
    · simp only [data_handler, h5, he, reduceIte] at h
      cases h
      exact ⟨rfl, rfl⟩
  · simp only [data_handler, h5, reduceIte] at h
    cases h
    exact ⟨rfl, rfl⟩

/-- The open of an element without attributes, with or without an error latched: the
levels up to the current one stay, the next one gets the tag and the processing function
the table resolves (none with an error latched). -/
theorem start_handler_nil_tags (ro : Nat → Bool) (s sa : state_t) (name : String)
    (h : start_handler ro s name [] = .ok sa) (h0 : -1 ≤ s.depth) :
    (∀ j : Nat, (j : Int) ≤ s.depth → sa.level j = s.level j)
    ∧ (s.depth + 1 < (DEPTH_MAX : Int) →
        sa.level (s.depth + 1).toNat
          = ⟨name, none, if s.error = 0 then resolve s name else none⟩) := by
  by_cases he : s.error = 0
  · obtain ⟨h1, h2⟩ := start_handler_frame ro s sa name h he h0
    exact ⟨h1, fun h5 => by rw [h2 h5, if_pos he]⟩
  · rw [start_handler_errored ro s name [] he h0] at h
    by_cases h5 : s.depth + 1 < (DEPTH_MAX : Int)
    · rw [if_pos h5] at h
      cases h
      refine ⟨fun j hj => opened_level_ne s name none j (by omega), fun _ => ?_⟩
      rw [opened_level_eq, if_neg he]
    · rw [if_neg h5] at h
      cases h
      exact ⟨fun _ _ => rfl, fun h => absurd h h5⟩

/-- The close of an element, with or without an error latched, leaves the levels below it
as they were. -/
theorem end_handler_below (s s1 : state_t) (name : String)
    (h : end_handler s name = .ok s1) (h0 : 0 ≤ s.depth) :
    ∀ j : Nat, (j : Int) < s.depth → s1.level j = s.level j := by
  by_cases he : s.error = 0
  · exact end_handler_frame s s1 name h he h0
  · rw [end_handler_errored s name he h0] at h
    intro j hj
    by_cases h5 : s.depth < (DEPTH_MAX : Int)
    · rw [if_pos h5] at h
      cases h
      exact closed_level_ne s j (by omega)
    · rw [if_neg h5] at h
      cases h
      rfl

/-- Step of `keeps_tags`: no content. -/
theorem keeps_tags_nil (ro : Nat → Bool) : Keeps_tags ro .nil := by
  intro s s1 h _ j _
  cases h
  exact ⟨rfl, rfl⟩

/-- Step of `keeps_tags`: a chunk of character data. -/
theorem keeps_tags_text (ro : Nat → Bool) (txt : String) (rest : content)
    (ih : Keeps_tags ro rest) : Keeps_tags ro (.text txt rest) := by
  intro s s1 h h0 j hj
  rw [run_text] at h
  cases hd : data_handler ro s txt with
  | error f => rw [hd] at h; exact absurd h (by simp)
  | ok sa =>
    rw [hd] at h
    simp only at h
    have hdep := data_handler_depth ro s sa txt hd
    have h1 := data_handler_tags ro s sa txt hd j
    have h2 := ih sa s1 h (by omega) j (by omega)
    exact ⟨by rw [h2.1, h1.1], by rw [h2.2, h1.2]⟩

/-- Step of `keeps_tags`: an element without attributes. -/
theorem keeps_tags_elem_nil (ro : Nat → Bool) (name : String) (body rest : content)
    (ihb : Keeps_tags ro body) (ihr : Keeps_tags ro rest) :
    Keeps_tags ro (.elem name [] body rest) := by
  intro s s1 h h0 j hj
  rw [run_elem] at h
  cases h1 : start_handler ro s name [] with
  | error f => rw [h1] at h; exact absurd h (by simp)
  | ok sa =>
    rw [h1] at h
    simp only at h
    cases h2 : run ro sa body.events with
    | error f => rw [h2] at h; exact absurd h (by simp)
    | ok sb =>
      rw [h2] at h
      simp only at h
      cases h3 : end_handler sb name with
      | error f => rw [h3] at h; exact absurd h (by simp)
      | ok sc =>
        rw [h3] at h
        simp only at h
        have da := start_handler_depth ro s sa name [] h1
        have db := run_content_depth ro body sa sb h2
        have dc := end_handler_depth sb sc name h3
        have la := (start_handler_nil_tags ro s sa name h1 (by omega)).1 j hj
        have lb := ihb sa sb h2 (by omega) j (by omega)
        have lc := end_handler_below sb sc name h3 (by omega) j (by omega)
        have lr := ihr sc s1 h (by omega) j (by omega)
        exact ⟨by rw [lr.1, lc, lb.1, la], by rw [lr.2, lc, lb.2, la]⟩

/-- Step of `keeps_tags`: the child elements that stand for attributes. -/
theorem keeps_tags_attributes (ro : Nat → Bool) (attrs : List (String × String))
    (children : content) (ih : Keeps_tags ro children) :
    Keeps_tags ro (attribute_content attrs children) := by
  induction attrs with
  | nil => exact ih
  | cons kv more ihm =>
    obtain ⟨k, v⟩ := kv
    exact keeps_tags_elem_nil ro k _ _ (keeps_tags_text ro v .nil (keeps_tags_nil ro)) ihm

/-- With an error latched the open of an element does not look at its attributes. -/
theorem start_handler_errored_nil (ro : Nat → Bool) (s : state_t) (name : String)
    (attrs : List (String × String)) (he : s.error ≠ 0) :
    start_handler ro s name attrs = start_handler ro s name [] := by
  unfold start_handler start_handler_body
  simp only
  split
  · split
    · rfl
    · have : ¬ ({ s with depth := s.depth + 1 } : state_t).error = 0 := he
      simp [state_t.set_level, he]
  · rfl

/-- Step of `keeps_tags`: an element. -/
theorem keeps_tags_elem (ro : Nat → Bool) (name : String) (attrs : List (String × String))
    (children rest : content) (ihc : Keeps_tags ro children) (ihr : Keeps_tags ro rest) :
    Keeps_tags ro (.elem name attrs children rest) := by
  intro s s1 h h0
  by_cases he : s.error = 0
  · rw [run_elem_attrs ro s name attrs children rest he] at h
    exact keeps_tags_elem_nil ro name _ rest (keeps_tags_attributes ro attrs children ihc) ihr
      s s1 h h0
  · have : run ro s (content.elem name attrs children rest).events
        = run ro s (content.elem name [] children rest).events := by
      rw [run_elem, run_elem, start_handler_errored_nil ro s name attrs he]
    rw [this] at h
    exact keeps_tags_elem_nil ro name children rest ihc ihr s s1 h h0

/-- With any allocator, and whether or not an error gets latched, the events of
well-nested content that run without a fault leave the tag and the processing function of
every level up to the current one as they were. -/
theorem keeps_tags (ro : Nat → Bool) (f : content) : Keeps_tags ro f := by
  induction f with
  | nil => exact keeps_tags_nil ro
  | text txt rest ih => exact keeps_tags_text ro txt rest ih
  | elem name attrs children rest ihc ihr =>
    exact keeps_tags_elem ro name attrs children rest ihc ihr

/-- C23: with any allocator, for an element opened within the depth bound (with any
attributes) and any well-nested content run after the open without a fault: the level of
the element has after the open the tag of the element and the processing function the
table resolves for it (none when an error is latched at the open); the events of its
attributes and of its content, whether or not they latch an error, leave that level with
the same tag and the same processing function and come back to its depth; so with no
error latched the close calls exactly the function resolved at the open, once with the
data token and once with the close token, or no function when none was resolved. -/
theorem frame_keeps_tag_and_handler (ro : Nat → Bool) (s s1 s2 : state_t) (name : String)
    (attrs : List (String × String)) (children : content)
    (hopen : start_handler ro s name attrs = .ok s1)
    (hrun : run ro s1 children.events = .ok s2)
    (h0 : -1 ≤ s.depth) (h5 : s.depth + 1 < (DEPTH_MAX : Int)) :
    (s1.level (s.depth + 1).toNat).tag = name
    ∧ (s1.level (s.depth + 1).toNat).process = (if s.error = 0 then resolve s name else none)
    ∧ s2.depth = s.depth + 1
    ∧ (s2.level (s.depth + 1).toNat).tag = name
    ∧ (s2.level (s.depth + 1).toNat).process = (s1.level (s.depth + 1).toNat).process
    ∧ (s2.error = 0 →
        end_handler s2 name
          = (match resolve s name with
             | none => .ok (closed s2)
             | some p =>
               match p.call s2 .token_data ((s2.level (s.depth + 1).toNat).data.getD "") with
               | .error f => .error f
               | .ok sa =>
                 match p.call sa .token_close "" with
                 | .error f => .error f
                 | .ok sb => .ok (closed sb))) := by
  have hD : (DEPTH_MAX : Int) = 5 := rfl
  have d1 := start_handler_depth ro s s1 name attrs hopen
  have d2 := run_content_depth ro children s1 s2 hrun
  have hopen1 : (s1.level (s.depth + 1).toNat).tag = name
      ∧ (s1.level (s.depth + 1).toNat).process
          = (if s.error = 0 then resolve s name else none) := by
    by_cases he : s.error = 0
    · rw [start_handler_attrs ro s name attrs he] at hopen
      cases hs : start_handler ro s name [] with
      | error f => rw [hs] at hopen; exact absurd hopen (by simp)
      | ok sa =>
        rw [hs] at hopen
        simp only at hopen
        have da := start_handler_nil_depth ro s sa name hs
        have la := (start_handler_nil_tags ro s sa name hs h0).2 h5
        have lk := keeps_tags ro (attribute_content attrs .nil) sa s1 hopen (by omega)
          (s.depth + 1).toNat (by omega)
        rw [la] at lk
        exact lk
    · rw [start_handler_errored_nil ro s name attrs he] at hopen
      have la := (start_handler_nil_tags ro s s1 name hopen h0).2 h5
      rw [la]
      exact ⟨rfl, rfl⟩
  have hkeep := keeps_tags ro children s1 s2 hrun (by omega) (s.depth + 1).toNat (by omega)
  refine ⟨hopen1.1, hopen1.2, by omega, by rw [hkeep.1, hopen1.1], hkeep.2, fun he2 => ?_⟩
  have he1 : s1.error = 0 := run_error_back ro _ s1 s2 hrun he2
  have hes : s.error = 0 := feed_error_back ro s s1 (.start name attrs) hopen he1
  have hn : s2.depth.toNat = (s.depth + 1).toNat := by rw [d2, d1]
  have hp : (s2.level s2.depth.toNat).process = resolve s name := by
    rw [hn, hkeep.2, hopen1.2, if_pos hes]
  rw [end_handler_close s2 name he2 (by omega) (by omega), hp]
  cases resolve s name with
  | none => rfl
  | some p => simp only [hn]

/-- Instance of `frame_keeps_tag_and_handler`: a rom element with two attributes and
content, inside a game element. -/
theorem frame_keeps_tag_and_handler_witness :
    ∃ s1 s2 : state_t,
      start_handler always in_game_state "rom" [("name", "a"), ("size", "100")] = .ok s1
      ∧ run always s1 (content.text "x" (.elem "size" [] (.text "200" .nil) .nil)).events
          = .ok s2
      ∧ -1 ≤ in_game_state.depth ∧ in_game_state.depth + 1 < (DEPTH_MAX : Int)
      ∧ (s1.level 2).tag = "rom" ∧ (s1.level 2).process = some .rom
      ∧ (s2.level 2).tag = "rom" ∧ (s2.level 2).process = some .rom
      ∧ s2.error = 0
      ∧ end_handler s2 "rom"
          = (match process_t.rom.call s2 .token_data "x" with
             | .error f => .error f
             | .ok sa =>
               match process_t.rom.call sa .token_close "" with
               | .error f => .error f
               | .ok sb => .ok (closed sb)) := by
  refine ⟨_, _, rfl, rfl, by decide, by decide, ?_⟩
  have h := frame_keeps_tag_and_handler always in_game_state _ _ "rom"
    [("name", "a"), ("size", "100")]
    (content.text "x" (.elem "size" [] (.text "200" .nil) .nil)) rfl rfl (by decide)
    (by decide)
  exact ⟨h.1, h.2.1, h.2.2.2.1, h.2.2.2.2.1, rfl, h.2.2.2.2.2 rfl⟩

/-! ## The frames the handlers address -/

/-- Events that stay in bounds run without a fault. -/
theorem in_bounds_run (ro : Nat → Bool) (evs : List Event) :
    ∀ s, In_bounds ro s evs → ∃ s1, run ro s evs = .ok s1 := by
  induction evs with
  | nil => intro s _; exact ⟨s, rfl⟩
  | cons ev rest ih =>
    intro s h
    obtain ⟨-, s1, h1, -, hrest⟩ := h
    obtain ⟨s2, h2⟩ := ih s1 hrest
    exact ⟨s2, by simp only [run, h1]; exact h2⟩

/-- Two sequences of events in bounds, one after the other. -/
theorem in_bounds_append (ro : Nat → Bool) (xs ys : List Event) :
    ∀ s s1, In_bounds ro s xs → run ro s xs = .ok s1 → In_bounds ro s1 ys →
      In_bounds ro s (xs ++ ys) := by
  induction xs with
  | nil =>
    intro s s1 _ hrun hys
    cases hrun
    exact hys
  | cons ev rest ih =>
    intro s s1 hxs hrun hys
    obtain ⟨h0, sa, hf, hdeep, hrest⟩ := hxs
    simp only [run, hf] at hrun
    exact ⟨h0, sa, hf, hdeep, ih sa s1 hrest hrun hys⟩

/-- The event after a prefix of a sequence in bounds. -/
theorem in_bounds_split (ro : Nat → Bool) (pre : List Event) (ev : Event) (suf : List Event) :
    ∀ s, In_bounds ro s (pre ++ ev :: suf) →
      ∃ sp sq, run ro s pre = .ok sp ∧ feed ro sp ev = .ok sq ∧ 0 ≤ ev.frame sp
        ∧ ((DEPTH_MAX : Int) ≤ ev.frame sp → sq.level = sp.level) := by
  induction pre with
  | nil =>
    intro s h
    obtain ⟨h0, sa, hf, hdeep, -⟩ := h
    exact ⟨s, sa, rfl, hf, h0, hdeep⟩
  | cons x rest ih =>
    intro s h
    obtain ⟨-, sa, hf, -, hrest⟩ := h
    obtain ⟨sp, sq, h1, h2, h3, h4⟩ := ih sa hrest
    exact ⟨sp, sq, by simp only [run, hf]; exact h1, h2, h3, h4⟩

/-- An element whose content stays in bounds, opened at a depth of at least -1 and
followed by events in bounds, stays in bounds. -/
theorem in_bounds_elem (ro : Nat → Bool) (s s1 : state_t) (name : String)
    (attrs : List (String × String)) (children rest : content)
    (hrun : run ro s (content.elem name attrs children rest).events = .ok s1)
    (h0 : -1 ≤ s.depth)
    (ihc : ∀ sa sb, run ro sa children.events = .ok sb → 0 ≤ sa.depth →
      In_bounds ro sa children.events)
    (ihr : ∀ sc, run ro sc rest.events = .ok s1 → sc.depth = s.depth →
      In_bounds ro sc rest.events) :
    In_bounds ro s (content.elem name attrs children rest).events := by
  have hD : (DEPTH_MAX : Int) = 5 := rfl
  rw [run_elem] at hrun
  cases h1 : start_handler ro s name attrs with
  | error f => rw [h1] at hrun; exact absurd hrun (by simp)
  | ok sa =>
    rw [h1] at hrun
    simp only at hrun
    cases h2 : run ro sa children.events with
    | error f => rw [h2] at hrun; exact absurd hrun (by simp)
    | ok sb =>
      rw [h2] at hrun
      simp only at hrun
      cases h3 : end_handler sb name with
      | error f => rw [h3] at hrun; exact absurd hrun (by simp)
      | ok sc =>
        rw [h3] at hrun
        simp only at hrun
        have da := start_handler_depth ro s sa name attrs h1
        have db := run_content_depth ro children sa sb h2
        have dc := end_handler_depth sb sc name h3
        refine ⟨by simp only [Event.frame]; omega, sa, h1, ?_, ?_⟩
        · intro hdeep
          simp only [Event.frame] at hdeep
          rw [start_handler_deep ro s name attrs (by omega)] at h1
          cases h1
          rfl
        · refine in_bounds_append ro _ _ sa sb (ihc sa sb h2 (by omega)) h2 ?_
          refine ⟨by simp only [Event.frame]; omega, sc, h3, ?_, ihr sc hrun (by omega)⟩
          intro hdeep
          simp only [Event.frame] at hdeep
          rw [end_handler_deep sb name hdeep] at h3
          cases h3
          rfl

/-- With any allocator, the events of well-nested content met at a depth of at least 0
that run without a fault stay in bounds. -/
theorem in_bounds_content (ro : Nat → Bool) (f : content) :
    ∀ s s1, run ro s f.events = .ok s1 → 0 ≤ s.depth → In_bounds ro s f.events := by
  induction f with
  | nil => intro s s1 _ _; exact trivial
  | text txt rest ih =>
    intro s s1 h h0
    rw [run_text] at h
    cases hd : data_handler ro s txt with
    | error f => rw [hd] at h; exact absurd h (by simp)
    | ok sa =>
      rw [hd] at h
      simp only at h
      have hdep := data_handler_depth ro s sa txt hd
      refine ⟨h0, sa, hd, ?_, ih sa s1 h (by omega)⟩
      intro hdeep
      simp only [Event.frame] at hdeep
      rw [data_handler_deep ro s txt hdeep] at hd
      cases hd
      rfl
  | elem name attrs children rest ihc ihr =>
    intro s s1 h h0
    exact in_bounds_elem ro s s1 name attrs children rest h (by omega)
      (fun sa sb hab ha => ihc sa sb hab ha)
      (fun sc hc hdc => ihr sc s1 hc (by omega))

/-- With any allocator, the events of a document run from the state `load_xml` starts
from without a fault and end at depth -1. -/
theorem run_document_any (ro : Nat → Bool) (e : emulator) (gar : game_set)
    (level : Nat → level_t) (rom_size : Nat) (rom_merge : Bool) (root : String)
    (attrs : List (String × String)) (children : content) :
    ∃ s1, run ro (load_xml_state e gar level rom_size rom_merge)
        (content.elem root attrs children .nil).events = .ok s1 ∧ s1.depth = -1 := by
  obtain ⟨s2, -, hs2, -, hrun⟩ := run_document (load_xml_state e gar level rom_size rom_merge)
    root attrs children rfl rfl
  obtain ⟨s1, hrun1, hf⟩ := follow_run ro _ _ _ _ hrun ⟨rfl, fun _ => rfl⟩
  refine ⟨s1, hrun1, ?_⟩
  rw [hf.1]
  have := hs2.depth
  simp only [closed]
  omega

/-- C22: with any allocator, from the state `load_xml` starts from, the events of every
document (one root element with any attributes and any well-nested content) stay in
bounds: each event, met after the events before it, addresses a frame of index at least 0
(the depth after the increment for an open, the current depth for character data and a
close), its handler returns without a fault (the handlers fault on a frame of negative
index, also for the events they make up for attributes), and when the index is not below
`DEPTH_MAX` the handler leaves every frame as it is. -/
theorem frames_stay_in_bounds (ro : Nat → Bool) (e : emulator) (gar : game_set)
    (level : Nat → level_t) (rom_size : Nat) (rom_merge : Bool) (root : String)
    (attrs : List (String × String)) (children : content) :
    In_bounds ro (load_xml_state e gar level rom_size rom_merge)
      (content.elem root attrs children .nil).events
    ∧ (∀ (pre : List Event) (ev : Event) (suf : List Event),
        (content.elem root attrs children .nil).events = pre ++ ev :: suf →
        ∃ sp sq, run ro (load_xml_state e gar level rom_size rom_merge) pre = .ok sp
          ∧ feed ro sp ev = .ok sq ∧ 0 ≤ ev.frame sp
          ∧ (ev.frame sp < (DEPTH_MAX : Int) ∨ sq.level = sp.level)) := by
  obtain ⟨s1, hrun, -⟩ := run_document_any ro e gar level rom_size rom_merge root attrs children
  have hin : In_bounds ro (load_xml_state e gar level rom_size rom_merge)
      (content.elem root attrs children .nil).events :=
    in_bounds_elem ro _ s1 root attrs children .nil hrun (le_of_eq rfl)
      (fun sa sb hab ha => in_bounds_content ro children sa sb hab ha)
      (fun _ _ _ => trivial)
  refine ⟨hin, fun pre ev suf hsplit => ?_⟩
  rw [hsplit] at hin
  obtain ⟨sp, sq, h1, h2, h3, h4⟩ := in_bounds_split ro pre ev suf _ hin
  refine ⟨sp, sq, h1, h2, h3, ?_⟩
  by_cases hlt : ev.frame sp < (DEPTH_MAX : Int)
  · exact Or.inl hlt
  · exact Or.inr (h4 (by omega))

/-- Instance of `frames_stay_in_bounds`: the document `<mame><game name="x">t</game></mame>`
with an allocator that serves no request, at its character data. -/
theorem frames_stay_in_bounds_witness :
    (content.elem "mame" [] (.elem "game" [("name", "x")] (.text "t" .nil) .nil) .nil).events
      = [.start "mame" [], .start "game" [("name", "x")]] ++ .data "t"
          :: [.stop "game", .stop "mame"]
    ∧ ∃ sp sq, run (fun _ => false) sample_state
          [.start "mame" [], .start "game" [("name", "x")]] = .ok sp
        ∧ feed (fun _ => false) sp (.data "t") = .ok sq
        ∧ 0 ≤ (Event.data "t").frame sp
        ∧ ((Event.data "t").frame sp < (DEPTH_MAX : Int) ∨ sq.level = sp.level) :=
  ⟨rfl, (frames_stay_in_bounds (fun _ => false) ⟨"arcade"⟩ [] sample_level 0 false "mame" []
    (.elem "game" [("name", "x")] (.text "t" .nil) .nil)).2
      [.start "mame" [], .start "game" [("name", "x")]] (.data "t")
      [.stop "game", .stop "mame"] rfl⟩

/-! ## Handlers and their records -/

set_option maxHeartbeats 4000000 in
/-- A processing function faults exactly when it reads a record that is not in progress:
the branch "invalid state" of the field functions, and the insert of the game function. -/
theorem call_fault_iff (p : process_t) (t : token_t) (txt : String) (s : state_t) :
    (p.call s t txt = .error .null_deref
      ↔ (p.needs_game t = true ∧ s.g = none) ∨ (p.needs_device t = true ∧ s.m = none))
    ∧ (∀ f, p.call s t txt = .error f → f = .null_deref) := by
  cases hgv : s.g <;> cases hmv : s.m <;> cases p <;> cases t <;>
    simp [process_t.call, process_game, process_runnable, process_name, process_description,
      process_manufacturer, process_year, process_cloneof, process_romof, process_driverstatus,
      process_drivercolor, process_driversound, process_rom, process_romsize, process_rommerge,
      process_device, process_deviceextensionname, process_devicename, process_videoscreen,
      process_videoorientation, process_videowidth, process_videoheight, process_videoaspectx,
      process_videoaspecty, process_error, process_t.needs_game, process_t.needs_device,
      hgv, hmv] <;>
    (repeat' split) <;> (try simp_all)

/-- C24: with an allocator that never fails, from the state `load_xml` starts from, the
events of every document run without a fault and without the error flag ever set: after
every prefix of the events the flag is clear, and at the end nothing was reported. A
processing function faults exactly when it reads a record that is not in progress (its
"invalid state" branch, which reads through the null tag, and the insert of the game
function), and no call with the open token reads a record; so no call made during the
run took such a branch. At every close event the function bound to the level, if any,
finds the game record and the device record it reads, at its data call and at its close
call, and both calls return. -/
theorem handlers_find_their_records (e : emulator) (gar : game_set)
    (level : Nat → level_t) (rom_size : Nat) (rom_merge : Bool) (root : String)
    (attrs : List (String × String)) (children : content) :
    (∃ s1, run always (load_xml_state e gar level rom_size rom_merge)
        (content.elem root attrs children .nil).events = .ok s1
      ∧ s1.error = 0 ∧ s1.err = [] ∧ s1.depth = -1)
    ∧ (∀ pre suf : List Event, (content.elem root attrs children .nil).events = pre ++ suf →
        ∃ sp, run always (load_xml_state e gar level rom_size rom_merge) pre = .ok sp
          ∧ sp.error = 0)
    ∧ (∀ (pre : List Event) (name : String) (suf : List Event),
        (content.elem root attrs children .nil).events = pre ++ .stop name :: suf →
        ∃ sp, run always (load_xml_state e gar level rom_size rom_merge) pre = .ok sp
          ∧ sp.error = 0 ∧ 0 ≤ sp.depth
          ∧ ∀ p, sp.depth < (DEPTH_MAX : Int) → (sp.level sp.depth.toNat).process = some p →
              (p.needs_game .token_data = true → sp.g.isSome = true)
              ∧ (p.needs_device .token_data = true → sp.m.isSome = true)
              ∧ ∃ sa, p.call sp .token_data ((sp.level sp.depth.toNat).data.getD "") = .ok sa
                  ∧ (p.needs_game .token_close = true → sa.g.isSome = true)
                  ∧ (p.needs_device .token_close = true → sa.m.isSome = true)
                  ∧ ∃ sb, p.call sa .token_close "" = .ok sb)
    ∧ (∀ p : process_t, p.needs_game .token_open = false ∧ p.needs_device .token_open = false)
    ∧ (∀ (p : process_t) (t : token_t) (txt : String) (s : state_t),
        p.call s t txt = .error .null_deref
          ↔ (p.needs_game t = true ∧ s.g = none) ∨ (p.needs_device t = true ∧ s.m = none)) := by
  obtain ⟨s2, -, hs2, hran, hrun⟩ := run_document
    (load_xml_state e gar level rom_size rom_merge) root attrs children rfl rfl
  have herr : (closed s2).error = 0 := hs2.error
  have hprefix : ∀ pre suf : List Event,
      (content.elem root attrs children .nil).events = pre ++ suf →
      ∃ sp, run always (load_xml_state e gar level rom_size rom_merge) pre = .ok sp
        ∧ run always sp suf = .ok (closed s2) ∧ sp.error = 0 := by
    intro pre suf hsplit
    rw [hsplit, run_append] at hrun
    cases hp : run always (load_xml_state e gar level rom_size rom_merge) pre with
    | error f => rw [hp] at hrun; exact absurd hrun (by simp)
    | ok sp =>
      rw [hp] at hrun
      exact ⟨sp, rfl, hrun, run_error_back always suf sp _ hrun herr⟩
  have hneeds : ∀ (p : process_t) (t : token_t) (txt : String) (s s1 : state_t),
      p.call s t txt = .ok s1 →
        (p.needs_game t = true → s.g.isSome = true)
        ∧ (p.needs_device t = true → s.m.isSome = true) := by
    intro p t txt s s1 hc
    have hiff := (call_fault_iff p t txt s).1
    constructor
    · intro hn
      cases hg : s.g with
      | some g => rfl
      | none =>
        have := hiff.mpr (Or.inl ⟨hn, hg⟩)
        rw [hc] at this
        exact absurd this (by simp)
    · intro hn
      cases hm : s.m with
      | some m => rfl
      | none =>
        have := hiff.mpr (Or.inr ⟨hn, hm⟩)
        rw [hc] at this
        exact absurd this (by simp)
  refine ⟨⟨closed s2, hrun, herr, ?_, ?_⟩, ?_, ?_, ?_, fun p t txt s => (call_fault_iff p t txt s).1⟩
  · show s2.err = []
    rw [hran.err]
    rfl
  · have := hs2.depth
    simp only [closed]
    omega
  · intro pre suf hsplit
    obtain ⟨sp, h1, -, h3⟩ := hprefix pre suf hsplit
    exact ⟨sp, h1, h3⟩
  · intro pre name suf hsplit
    obtain ⟨sp, h1, h2, h3⟩ := hprefix pre (.stop name :: suf) hsplit
    have hend : ∃ sq, end_handler sp name = .ok sq := by
      simp only [run, feed] at h2
      cases hq : end_handler sp name with
      | error f => rw [hq] at h2; exact absurd h2 (by simp)
      | ok sq => exact ⟨sq, rfl⟩
    obtain ⟨sq, hq⟩ := hend
    have h0 : 0 ≤ sp.depth := by
      by_contra hneg
      have hlt : sp.depth < 0 := by omega
      have hD : (DEPTH_MAX : Int) = 5 := rfl
      have : end_handler sp name = .error .level_index := by
        simp only [end_handler, hlt, reduceIte]
        rw [if_pos (by omega)]
      rw [this] at hq
      exact absurd hq (by simp)
    refine ⟨sp, h1, h3, h0, fun p h5 hp => ?_⟩
    rw [end_handler_close sp name h3 h0 h5, hp] at hq
    simp only at hq
    cases ha : p.call sp .token_data ((sp.level sp.depth.toNat).data.getD "") with
    | error f => rw [ha] at hq; exact absurd hq (by simp)
    | ok sa =>
      rw [ha] at hq
      simp only at hq
      cases hb : p.call sa .token_close "" with
      | error f => rw [hb] at hq; exact absurd hq (by simp)
      | ok sb =>
        have n1 := hneeds p _ _ sp sa ha
        have n2 := hneeds p _ _ sa sb hb
        exact ⟨n1.1, n1.2, sa, rfl, n2.1, n2.2, sb, hb⟩
  · intro p
    cases p <;> exact ⟨rfl, rfl⟩

set_option maxRecDepth 100000 in
/-- Instance of `handlers_find_their_records`: the document
`<mame><game name="x"><device><name>cart</name></device></game></mame>` at the close of
the device name. -/
theorem handlers_find_their_records_witness :
    (content.elem "mame" []
        (.elem "game" [("name", "x")]
          (.elem "device" [] (.elem "name" [] (.text "cart" .nil) .nil) .nil) .nil) .nil).events
      = [.start "mame" [], .start "game" [("name", "x")], .start "device" [],
          .start "name" [], .data "cart"] ++ .stop "name"
          :: [.stop "device", .stop "game", .stop "mame"]
    ∧ ∃ sp, run always sample_state
          [.start "mame" [], .start "game" [("name", "x")], .start "device" [],
            .start "name" [], .data "cart"] = .ok sp
        ∧ sp.error = 0
        ∧ sp.depth < (DEPTH_MAX : Int)
        ∧ (sp.level sp.depth.toNat).process = some .devicename
        ∧ process_t.devicename.needs_device .token_data = true
        ∧ sp.m.isSome = true := by
  obtain ⟨sp, h1, h2, -, h3⟩ :=
    (handlers_find_their_records ⟨"arcade"⟩ [] sample_level 0 false "mame" []
      (.elem "game" [("name", "x")]
        (.elem "device" [] (.elem "name" [] (.text "cart" .nil) .nil) .nil) .nil)).2.2.1
      [.start "mame" [], .start "game" [("name", "x")], .start "device" [],
        .start "name" [], .data "cart"] "name" [.stop "device", .stop "game", .stop "mame"] rfl
  have hsp : run always sample_state
      [.start "mame" [], .start "game" [("name", "x")], .start "device" [],
        .start "name" [], .data "cart"] = .ok sp := h1
  obtain ⟨sx, hx, hx5, hxp⟩ : ∃ sx, run always sample_state
      [.start "mame" [], .start "game" [("name", "x")], .start "device" [],
        .start "name" [], .data "cart"] = .ok sx
      ∧ sx.depth < (DEPTH_MAX : Int)
      ∧ (sx.level sx.depth.toNat).process = some .devicename := ⟨_, rfl, by decide, rfl⟩
  have heq : sx = sp := Except.ok.inj (hx.symm.trans hsp)
  subst heq
  exact ⟨rfl, sx, hx, h2, hx5, hxp, rfl, (h3 .devicename hx5 hxp).2.1 rfl⟩

end EmuXml

/-! # Theorems on the sample window of the FIR filter -/

namespace Filter

/-- One call of `filter_insert` on a filter of an order from 1 to `FILTER_ORDER_MAX`. -/
theorem filter_insert_one (f : adv_filter) (s : adv_filter_state) (x : Int)
    (h1 : 1 ≤ f.order) (h2 : f.order ≤ FILTER_ORDER_MAX) (hp : s.prev_mac < UNSIGNED_RANGE) :
    filter_insert f s x
      = some { prev_mac := if s.prev_mac + 1 ≥ f.order then 0 else s.prev_mac + 1,
               xprev := fun i =>
                 if i = (if s.prev_mac + 1 ≥ f.order then 0 else s.prev_mac + 1) then x
                 else s.xprev i }
    ∧ (if s.prev_mac + 1 ≥ f.order then 0 else s.prev_mac + 1) < f.order := by
  have hM : UNSIGNED_RANGE = 4294967296 := rfl
  have hF : FILTER_ORDER_MAX = 51 := rfl
  have hp2 : (if (s.prev_mac + 1) % UNSIGNED_RANGE ≥ f.order then 0
      else (s.prev_mac + 1) % UNSIGNED_RANGE)
      = (if s.prev_mac + 1 ≥ f.order then 0 else s.prev_mac + 1) := by
    by_cases hw : s.prev_mac + 1 = UNSIGNED_RANGE
    · rw [hw, Nat.mod_self, if_neg (by omega), if_pos (by omega)]
    · rw [Nat.mod_eq_of_lt (by omega)]
  have hlt : (if s.prev_mac + 1 ≥ f.order then 0 else s.prev_mac + 1) < f.order := by
    by_cases hge : s.prev_mac + 1 ≥ f.order
    · rw [if_pos hge]; omega
    · rw [if_neg hge]; omega
  refine ⟨?_, hlt⟩
  unfold filter_insert
  simp only [hp2]
  rw [if_pos (by omega)]

/-- The position after one insert from a position below the order. -/
theorem next_position (order p : Nat) (hp : p < order) :
    (if p + 1 ≥ order then 0 else p + 1) = (p + 1) % order := by
  by_cases hge : p + 1 ≥ order
  · have : p + 1 = order := by omega
    rw [if_pos hge, this, Nat.mod_self]
  · rw [if_neg hge, Nat.mod_eq_of_lt (by omega)]

/-- Two positions reached from the same one by fewer steps than the order are different
unless the numbers of steps are the same. -/
theorem position_injective (order a i j : Nat) (hi : i < order) (hj : j < order)
    (h : (a + i) % order = (a + j) % order) : i = j := by
  have h1 : Nat.ModEq order (a + i) (a + j) := h
  have h2 : Nat.ModEq order i j := Nat.ModEq.add_left_cancel' a h1
  have h3 : i % order = j % order := h2
  rwa [Nat.mod_eq_of_lt hi, Nat.mod_eq_of_lt hj] at h3

/-- Inserts of at most as many samples as the order, from a position below the order:
the position advances by their number, sample `i` is in the slot `i + 1` positions after
the first position, and the other slots keep their samples. -/
theorem filter_insert_all_spec (f : adv_filter) (h1 : 1 ≤ f.order)
    (h2 : f.order ≤ FILTER_ORDER_MAX) (xs : List Int) :
    ∀ s : adv_filter_state, s.prev_mac < f.order → xs.length ≤ f.order →
      ∃ s1, filter_insert_all f s xs = some s1
        ∧ s1.prev_mac = (s.prev_mac + xs.length) % f.order
        ∧ (∀ i (hi : i < xs.length),
            s1.xprev ((s.prev_mac + 1 + i) % f.order) = xs.get ⟨i, hi⟩)
        ∧ (∀ k, (∀ i, i < xs.length → k ≠ (s.prev_mac + 1 + i) % f.order) →
            s1.xprev k = s.xprev k) := by
  have hM : UNSIGNED_RANGE = 4294967296 := rfl
  have hF : FILTER_ORDER_MAX = 51 := rfl
  induction xs with
  | nil =>
    intro s hp _
    exact ⟨s, rfl, by simp [Nat.mod_eq_of_lt hp], fun i hi => absurd hi (by simp),
      fun _ _ => rfl⟩
  | cons x rest ih =>
    intro s hp hlen
    simp only [List.length_cons] at hlen
    obtain ⟨hins, hlt⟩ := filter_insert_one f s x h1 h2 (by omega)
    rw [next_position f.order s.prev_mac hp] at hins hlt
    obtain ⟨s1, hall, hpos, hval, hframe⟩ :=
      ih { prev_mac := (s.prev_mac + 1) % f.order,
           xprev := fun i => if i = (s.prev_mac + 1) % f.order then x else s.xprev i }
        hlt (by omega)
    simp only at hpos hval hframe
    have hstep : ∀ i, ((s.prev_mac + 1) % f.order + 1 + i) % f.order
        = (s.prev_mac + 1 + (i + 1)) % f.order := by
      intro i
      rw [Nat.add_assoc, Nat.mod_add_mod]
      congr 1
      omega
    refine ⟨s1, ?_, ?_, ?_, ?_⟩
    · simp only [filter_insert_all, hins]
      exact hall
    · rw [hpos, Nat.mod_add_mod]
      congr 1
      simp only [List.length_cons]
      omega
    · intro i hi
      cases i with
      | zero =>
        have hk : ∀ j, j < rest.length →
            (s.prev_mac + 1 + 0) % f.order ≠ ((s.prev_mac + 1) % f.order + 1 + j) % f.order := by
          intro j hj heq
          rw [hstep] at heq
          have := position_injective f.order (s.prev_mac + 1) 0 (j + 1) (by omega) (by omega) heq
          omega
        rw [hframe _ hk]
        simp
      | succ i =>
        have hi1 : i < rest.length := by simpa using hi
        have := hval i hi1
        rw [hstep] at this
        rw [this]
        rfl
    · intro k hk
      have hk0 := hk 0 (by simp)
      have hkr : ∀ j, j < rest.length → k ≠ ((s.prev_mac + 1) % f.order + 1 + j) % f.order := by
        intro j hj
        rw [hstep]
        exact hk (j + 1) (by simp only [List.length_cons]; omega)
      rw [hframe k hkr]
      simp only [Nat.add_zero] at hk0
      simp [hk0]

/-- C28: for a filter of an order from 1 to `FILTER_ORDER_MAX` and every state,
`filter_insert` returns the state whose position is the next one (the position plus 1,
or 0 when that reaches the order), below the order, with the sample stored at that
position and every other slot unchanged. From a position below the order, as many
consecutive inserts as the order bring the position back to where it was; sample `i` is
then in slot `(position + 1 + i) mod order`, these slots are different for different
samples and are all the slots below the order, and the slots from the order on are
unchanged. -/
theorem filter_insert_cycles (f : adv_filter) (s : adv_filter_state) (x : Int)
    (h1 : 1 ≤ f.order) (h2 : f.order ≤ FILTER_ORDER_MAX) (hp : s.prev_mac < UNSIGNED_RANGE) :
    (∃ s1, filter_insert f s x = some s1
      ∧ s1.prev_mac = (if s.prev_mac + 1 ≥ f.order then 0 else s.prev_mac + 1)
      ∧ s1.prev_mac < f.order
      ∧ s1.xprev s1.prev_mac = x
      ∧ ∀ j, j ≠ s1.prev_mac → s1.xprev j = s.xprev j)
    ∧ (∀ xs : List Int, s.prev_mac < f.order → xs.length = f.order →
        ∃ s1, filter_insert_all f s xs = some s1
          ∧ s1.prev_mac = s.prev_mac
          ∧ (∀ i (hi : i < xs.length),
              s1.xprev ((s.prev_mac + 1 + i) % f.order) = xs.get ⟨i, hi⟩)
          ∧ (∀ i j, i < f.order → j < f.order →
              (s.prev_mac + 1 + i) % f.order = (s.prev_mac + 1 + j) % f.order → i = j)
          ∧ (∀ k, k < f.order → ∃ i, i < f.order ∧ k = (s.prev_mac + 1 + i) % f.order)
          ∧ (∀ k, f.order ≤ k → s1.xprev k = s.xprev k)) := by
  constructor
  · obtain ⟨hins, hlt⟩ := filter_insert_one f s x h1 h2 hp
    refine ⟨_, hins, rfl, hlt, by simp, fun j hj => ?_⟩
    simp only at hj ⊢
    rw [if_neg hj]
  · intro xs hpo hlen
    obtain ⟨s1, hall, hpos, hval, hframe⟩ :=
      filter_insert_all_spec f h1 h2 xs s hpo (by omega)
    refine ⟨s1, hall, ?_, hval,
      fun i j hi hj h => position_injective f.order (s.prev_mac + 1) i j hi hj h, ?_, ?_⟩
    · rw [hpos, hlen, Nat.add_mod_right, Nat.mod_eq_of_lt hpo]
    · intro k hk
      have hq : (s.prev_mac + 1) % f.order < f.order := Nat.mod_lt _ (by omega)
      by_cases hge : (s.prev_mac + 1) % f.order ≤ k
      · refine ⟨k - (s.prev_mac + 1) % f.order, by omega, ?_⟩
        rw [← Nat.mod_add_mod, Nat.add_sub_cancel' hge, Nat.mod_eq_of_lt hk]
      · refine ⟨k + f.order - (s.prev_mac + 1) % f.order, by omega, ?_⟩
        rw [← Nat.mod_add_mod]
        have : (s.prev_mac + 1) % f.order + (k + f.order - (s.prev_mac + 1) % f.order)
            = k + f.order := by omega
        rw [this, Nat.add_mod_right, Nat.mod_eq_of_lt hk]
    · intro k hk
      apply hframe
      intro i _ heq
      have : (s.prev_mac + 1 + i) % f.order < f.order := Nat.mod_lt _ (by omega)
      omega

/-- Instance of `filter_insert_cycles`: a filter of order 3 with its most recent sample
at position 1 takes the samples 10, 20 and 30 into the slots 2, 0 and 1. -/
theorem filter_insert_cycles_witness :
    1 ≤ sample_filter.order ∧ sample_filter.order ≤ FILTER_ORDER_MAX
    ∧ sample_filter_state.prev_mac < UNSIGNED_RANGE
    ∧ sample_filter_state.prev_mac < sample_filter.order
    ∧ [(10 : Int), 20, 30].length = sample_filter.order
    ∧ (∃ s1, filter_insert sample_filter sample_filter_state 10 = some s1
        ∧ s1.prev_mac = 2 ∧ s1.xprev 2 = 10)
    ∧ ∃ s1, filter_insert_all sample_filter sample_filter_state [10, 20, 30] = some s1
        ∧ s1.prev_mac = 1
        ∧ s1.xprev 2 = 10 ∧ s1.xprev 0 = 20 ∧ s1.xprev 1 = 30 := by
  have h := filter_insert_cycles sample_filter sample_filter_state 10 (by decide) (by decide)
    (by decide)
  obtain ⟨s1, ha, hb, -, hc, -⟩ := h.1
  obtain ⟨s3, h3, hp3, hv, -, -, -⟩ := h.2 [10, 20, 30] (by decide) rfl
  exact ⟨by decide, by decide, by decide, by decide, rfl,
    ⟨s1, ha, hb, by
      have h2 : s1.prev_mac = 2 := hb
      rw [h2] at hc
      exact hc⟩,
    s3, h3, hp3, hv 0 (by decide), hv 1 (by decide), hv 2 (by decide)⟩

end Filter
